import Mathlib

/-! Event dispatch of gui2.

A shallow embedding of `src/gui/core/event/dispatcher_private.hpp`:
the three `build_event_chain` strategies, the chain-taking `fire_event`,
the public `fire_event` and `fire_event_double_click`, and `has_handler`;
and of `image::calculate_best_size` of `src/gui/widgets/image.cpp`.

Conventions of the embedding.

* A widget is a number; a `widget*` that may be null is an `Option widget`.
* `assert` is modelled as in a checked build: a failing assertion ends the
  run with the outcome `assertion_failed`.
* The `while` loops that follow parent pointers take a fuel argument and
  answer `out_of_fuel` when it runs out (a cyclic parent relation makes the
  C++ loop spin forever).
* Handlers are opaque callables.  A handler receives the dispatcher, the
  event, the two mutable flags and (standing for the forwarded parameters
  and everything else it can touch) an external state of type `σ`; it
  returns the new flags and the new external state.
* Every invocation of a handler is recorded in a log, which is what the
  theorems about invocation order speak about.
* `event_signal<T>(widget, event)` is `queue[event]` on a map; for the
  dispatch it is modelled by the signal it yields (three empty lists for an
  event without a registration).  Handlers do not change the tree or the
  registrations while an event is fired.
* The container of a signal queue and its `operator[]` are declared in
  `dispatcher.hpp`, which is not among the sources.  `has_handler` is
  embedded with the lookup `queue[event]` as an argument, which returns the
  signal and the queue after the lookup; `signal_queue.index` is the lookup of
  the specification, in which a signal is created by the first registration
  and by nothing else.
* `widget::has_event` is not defined in this file of the source; it is a
  field of the tree, with no assumed link to the registered handlers.
-/

namespace gui2

/-- A widget, identified by a number. -/
abbrev widget := Nat

/-- The enumeration `ui_event`, identified by the number of the enumerator. -/
abbrev ui_event := Nat

/-- Modelled from the spec: the phase mask `dispatcher::event_queue_type`
of `dispatcher.hpp` (pre, child, post, singly or combined by bitwise or). -/
abbrev event_queue_type := Nat

namespace dispatcher

/-- Modelled from the spec: the mask bit of the pre phase. -/
def pre : event_queue_type := 1

/-- Modelled from the spec: the mask bit of the child phase. -/
def child : event_queue_type := 2

/-- Modelled from the spec: the mask bit of the post phase. -/
def post : event_queue_type := 4

end dispatcher

/-- The signal function types `T` the templates are instantiated with; each
one has a queue of its own in a dispatcher (`IMPLEMENT_EVENT_SIGNAL`). -/
inductive signal_function_type where
  | general
  | mouse
  | keyboard
  | touch_motion
  | touch_gesture
  | notification
  | message
  | raw_event
  | text_input
  deriving DecidableEq, Repr

/-- A handler: a name (used by the log only) and its effect on the flags
`handled` and `halt` and on the external state.  The arguments of `call`
are the dispatcher, the event, `handled`, `halt` and the state. -/
structure handler (σ : Type) where
  name : Nat
  call : widget → ui_event → Bool → Bool → σ → Bool × Bool × σ

/-- The three ordered handler lists of one (widget, event) pair. -/
structure signal_type (σ : Type) where
  pre_child : List (handler σ)
  child : List (handler σ)
  post_child : List (handler σ)

/-- What the dispatch code consumes from its collaborators: `widget::parent`,
`widget::has_event`, and the lookup `event_signal<T>(widget, event)`. -/
structure widget_tree (σ : Type) where
  parent : widget → Option widget
  has_event : widget → ui_event → event_queue_type → Bool
  event_signal : signal_function_type → widget → ui_event → signal_type σ

/-- The phase a handler list belongs to. -/
inductive phase where
  | pre_child
  | child
  | post_child
  deriving DecidableEq, Repr

/-- One handler invocation: the list it was taken from (phase, widget and
event of the signal; the event is also the argument passed to the handler),
the handler, and the flags when it was entered and when it returned. -/
structure invocation where
  phase : phase
  widget : widget
  event : ui_event
  handler : Nat
  handled_in : Bool
  halt_in : Bool
  handled_out : Bool
  halt_out : Bool
  deriving DecidableEq, Repr

/-- The local variables `handled` and `halt` of `fire_event`, the external
state and the log. -/
structure fire_state (σ : Type) where
  handled : Bool
  halt : Bool
  world : σ
  log : List invocation

/-- How a loop of `fire_event` is left. -/
inductive phase_result (σ : Type) where
  | completed (st : fire_state σ)
  | returned_true (st : fire_state σ)
  | assertion_failed (st : fire_state σ)

/-- How a run ends. -/
inductive fire_outcome where
  | returned (b : Bool)
  | assertion_failed
  | out_of_fuel
  deriving DecidableEq, Repr

/-- The result of a run: outcome, final external state and log. -/
structure fire_result (σ : Type) where
  outcome : fire_outcome
  world : σ
  log : List invocation

/-- The result of a chain builder. -/
inductive chain_result where
  | ok (chain : List (widget × ui_event))
  | assertion_failed
  | out_of_fuel
  deriving DecidableEq, Repr

/-- The handler list of a signal for a phase. -/
def signal_type.handlers {σ : Type} (sig : signal_type σ) : phase → List (handler σ)
  | .pre_child => sig.pre_child
  | .child => sig.child
  | .post_child => sig.post_child

namespace implementation

/-- The mask `dispatcher::event_queue_type(dispatcher::pre | dispatcher::post)`. -/
def pre_or_post : event_queue_type := dispatcher.pre ||| dispatcher.post

/-- The `while(true)` loop of the generic `build_event_chain`. -/
def build_event_chain_loop {σ : Type} (t : widget_tree σ) (event : ui_event) (dispatcher : widget) :
    Nat → widget → List (widget × ui_event) → chain_result
  | 0, _, _ => .out_of_fuel
  | fuel + 1, w, result =>
    let result1 := if t.has_event w event pre_or_post then result ++ [(w, event)] else result
    if w = dispatcher then .ok result1
    else
      match t.parent w with
      | none => .assertion_failed
      | some p => build_event_chain_loop t event dispatcher fuel p result1

/-- The generic `build_event_chain<T>`. -/
def build_event_chain_default {σ : Type} (t : widget_tree σ) (fuel : Nat) (event : ui_event)
    (dispatcher w : Option widget) : chain_result :=
  match dispatcher, w with
  | none, _ => .assertion_failed
  | some _, none => .assertion_failed
  | some d, some w0 => build_event_chain_loop t event d fuel w0 []

/-- The specialisation `build_event_chain<signal_notification_function>`. -/
def build_event_chain_notification {σ : Type} (t : widget_tree σ) (event : ui_event)
    (dispatcher w : Option widget) : chain_result :=
  match dispatcher, w with
  | none, _ => .assertion_failed
  | some _, none => .assertion_failed
  | some _, some w0 =>
    if t.has_event w0 event pre_or_post then .assertion_failed else .ok []

/-- The loop `while((w = w->parent()))` of the message specialisation. -/
def build_event_chain_message_loop {σ : Type} (t : widget_tree σ) (event : ui_event) :
    Nat → widget → List (widget × ui_event) → chain_result
  | 0, _, _ => .out_of_fuel
  | fuel + 1, w, result =>
    match t.parent w with
    | none => .ok result
    | some p =>
      build_event_chain_message_loop t event fuel p
        (if t.has_event p event pre_or_post then (p, event) :: result else result)

/-- The specialisation `build_event_chain<signal_message_function>`. -/
def build_event_chain_message {σ : Type} (t : widget_tree σ) (fuel : Nat) (event : ui_event)
    (dispatcher w : Option widget) : chain_result :=
  match dispatcher, w with
  | none, _ => .assertion_failed
  | some _, none => .assertion_failed
  | some d, some w0 =>
    if w0 = d then build_event_chain_message_loop t event fuel w0 [] else .assertion_failed

/-- The template `build_event_chain<T>` with its two specialisations. -/
def build_event_chain {σ : Type} (T : signal_function_type) (t : widget_tree σ) (fuel : Nat)
    (event : ui_event) (dispatcher w : Option widget) : chain_result :=
  match T with
  | .notification => build_event_chain_notification t event dispatcher w
  | .message => build_event_chain_message t fuel event dispatcher w
  | _ => build_event_chain_default t fuel event dispatcher w

/-- The log record of one call of a handler. -/
def call_record {σ : Type} (dispatcher : widget) (ph : phase) (w : widget) (e : ui_event)
    (f : handler σ) (st : fire_state σ) : invocation :=
  let r := f.call dispatcher e st.handled st.halt st.world
  ⟨ph, w, e, f.name, st.handled, st.halt, r.1, r.2.1⟩

/-- One call `func(*dispatcher, event, handled, halt, params...)`: the
handler updates the flags and the external state, and the call is logged. -/
def call_handler {σ : Type} (dispatcher : widget) (ph : phase) (w : widget) (e : ui_event)
    (f : handler σ) (st : fire_state σ) : fire_state σ :=
  let r := f.call dispatcher e st.handled st.halt st.world
  ⟨r.1, r.2.1, r.2.2, st.log ++ [call_record dispatcher ph w e f st]⟩

/-- The inner loop `for(auto& func : signal.<phase>)` of `fire_event`: call
the handler; when `halt` is set, `assert(handled)` and `break`. -/
def invoke_handlers {σ : Type} (dispatcher : widget) (ph : phase) (w : widget) (e : ui_event) :
    List (handler σ) → fire_state σ → phase_result σ
  | [], st => .completed st
  | f :: rest, st =>
    let st1 := call_handler dispatcher ph w e f st
    if st1.halt then
      if st1.handled then .completed st1 else .assertion_failed st1
    else invoke_handlers dispatcher ph w e rest st1

/-- The body run for one signal: the inner loop, then `if(handled) return true`. -/
def fire_signal {σ : Type} (T : signal_function_type) (t : widget_tree σ) (dispatcher : widget)
    (ph : phase) (w : widget) (e : ui_event) (st : fire_state σ) : phase_result σ :=
  match invoke_handlers dispatcher ph w e ((t.event_signal T w e).handlers ph) st with
  | .completed st1 => if st1.handled then .returned_true st1 else .completed st1
  | .returned_true st1 => .returned_true st1
  | .assertion_failed st1 => .assertion_failed st1

/-- The outer loop of the pre and post phases over the entries handed to it. -/
def fire_chain {σ : Type} (T : signal_function_type) (t : widget_tree σ) (dispatcher : widget)
    (ph : phase) : List (widget × ui_event) → fire_state σ → phase_result σ
  | [], st => .completed st
  | entry :: rest, st =>
    match fire_signal T t dispatcher ph entry.1 entry.2 st with
    | .completed st1 => fire_chain T t dispatcher ph rest st1
    | .returned_true st1 => .returned_true st1
    | .assertion_failed st1 => .assertion_failed st1

/-- The child phase of `fire_event`. -/
def fire_child {σ : Type} (T : signal_function_type) (t : widget_tree σ) (event : ui_event)
    (dispatcher w : widget) (st : fire_state σ) : phase_result σ :=
  if t.has_event w event gui2.dispatcher.child then
    fire_signal T t dispatcher .child w event st
  else .completed st

/-- The chain-taking `fire_event<T>`. -/
def fire_event {σ : Type} (T : signal_function_type) (t : widget_tree σ) (event : ui_event)
    (event_chain : List (widget × ui_event)) (dispatcher w : widget) (s : σ) : fire_result σ :=
  match fire_chain T t dispatcher .pre_child event_chain.reverse ⟨false, false, s, []⟩ with
  | .returned_true st => ⟨.returned true, st.world, st.log⟩
  | .assertion_failed st => ⟨.assertion_failed, st.world, st.log⟩
  | .completed st1 =>
    match fire_child T t event dispatcher w st1 with
    | .returned_true st => ⟨.returned true, st.world, st.log⟩
    | .assertion_failed st => ⟨.assertion_failed, st.world, st.log⟩
    | .completed st2 =>
      match fire_chain T t dispatcher .post_child event_chain st2 with
      | .returned_true st => ⟨.returned true, st.world, st.log⟩
      | .assertion_failed st => ⟨.assertion_failed, st.world, st.log⟩
      | .completed st3 =>
        if st3.handled then ⟨.assertion_failed, st3.world, st3.log⟩
        else ⟨.returned false, st3.world, st3.log⟩

end implementation

/-- The public `fire_event<T>(event, d, w, params...)`.  The cast
`dynamic_cast<widget*>(d)` is the identity: every dispatcher is a widget. -/
def fire_event {σ : Type} (T : signal_function_type) (t : widget_tree σ) (fuel : Nat)
    (event : ui_event) (d w : Option widget) (s : σ) : fire_result σ :=
  match d, w with
  | none, _ => ⟨.assertion_failed, s, []⟩
  | some _, none => ⟨.assertion_failed, s, []⟩
  | some d0, some w0 =>
    match implementation.build_event_chain T t fuel event (some d0) (some w0) with
    | .ok event_chain => implementation.fire_event T t event event_chain d0 w0 s
    | .assertion_failed => ⟨.assertion_failed, s, []⟩
    | .out_of_fuel => ⟨.out_of_fuel, s, []⟩

/-- The loop `while(w != d)` of `fire_event_double_click`, which builds the
event chain. -/
def double_click_chain_loop {σ : Type} (t : widget_tree σ) (click double_click : ui_event)
    (wants_double_click : widget → Bool) (d : widget) :
    Nat → widget → List (widget × ui_event) → chain_result
  | 0, _, _ => .out_of_fuel
  | fuel + 1, w, event_chain =>
    if w = d then .ok event_chain
    else
      match t.parent w with
      | none => .assertion_failed
      | some p =>
        double_click_chain_loop t click double_click wants_double_click d fuel p
          (if wants_double_click p then
            (if t.has_event p double_click implementation.pre_or_post
              then event_chain ++ [(p, double_click)] else event_chain)
          else
            (if t.has_event p click implementation.pre_or_post
              then event_chain ++ [(p, click)] else event_chain))

/-- The chain `fire_event_double_click` builds before it fires. -/
def double_click_chain {σ : Type} (t : widget_tree σ) (click double_click : ui_event)
    (wants_double_click : widget → Bool) (fuel : Nat) (dsp wgt : Option widget) : chain_result :=
  match dsp, wgt with
  | none, _ => .assertion_failed
  | some _, none => .assertion_failed
  | some d, some w0 =>
    double_click_chain_loop t click double_click wants_double_click d fuel w0 []

/-- The template `fire_event_double_click<click, double_click, wants_double_click, T>`. -/
def fire_event_double_click {σ : Type} (click double_click : ui_event)
    (wants_double_click : widget → Bool) (T : signal_function_type) (t : widget_tree σ)
    (fuel : Nat) (dsp wgt : Option widget) (s : σ) : fire_result σ :=
  match dsp, wgt with
  | none, _ => ⟨.assertion_failed, s, []⟩
  | some _, none => ⟨.assertion_failed, s, []⟩
  | some d, some w0 =>
    match double_click_chain t click double_click wants_double_click fuel (some d) (some w0) with
    | .assertion_failed => ⟨.assertion_failed, s, []⟩
    | .out_of_fuel => ⟨.out_of_fuel, s, []⟩
    | .ok event_chain =>
      if wants_double_click w0 then
        implementation.fire_event T t double_click event_chain d w0 s
      else
        implementation.fire_event T t click event_chain d w0 s

/-! ## Devices of the proofs -/

/-- The state a loop is left with. -/
def phase_result.state {σ : Type} : phase_result σ → fire_state σ
  | .completed st => st
  | .returned_true st => st
  | .assertion_failed st => st

/-- The end of `fire_event` after the post phase: `assert(handled == false)`
and `return false`, or the `return true` or failed assertion of a loop. -/
def conclude {σ : Type} : phase_result σ → fire_result σ
  | .returned_true st => ⟨.returned true, st.world, st.log⟩
  | .assertion_failed st => ⟨.assertion_failed, st.world, st.log⟩
  | .completed st =>
    if st.handled then ⟨.assertion_failed, st.world, st.log⟩
    else ⟨.returned false, st.world, st.log⟩

/-- The signals `fire_event` visits, in the order of its three phases: each
is a phase with the widget and the event the signal is looked up for. -/
def schedule {σ : Type} (t : widget_tree σ) (event : ui_event)
    (event_chain : List (widget × ui_event)) (w : widget) : List (phase × widget × ui_event) :=
  event_chain.reverse.map (fun entry => (phase.pre_child, entry.1, entry.2))
    ++ (if t.has_event w event dispatcher.child then [(phase.child, w, event)] else [])
    ++ event_chain.map (fun entry => (phase.post_child, entry.1, entry.2))

/-- The loop body of `fire_event` run over a list of signals of any phases;
`fire_chain` and `fire_child` are instances of it. -/
def fire_signals {σ : Type} (T : signal_function_type) (t : widget_tree σ) (d : widget) :
    List (phase × widget × ui_event) → fire_state σ → phase_result σ
  | [], st => .completed st
  | g :: rest, st =>
    match implementation.fire_signal T t d g.1 g.2.1 g.2.2 st with
    | .completed st1 => fire_signals T t d rest st1
    | .returned_true st1 => .returned_true st1
    | .assertion_failed st1 => .assertion_failed st1

/-- The log record of a handler that is entered with both flags clear and
returns with both flags clear. -/
def quiet_record {σ : Type} (ph : phase) (w : widget) (e : ui_event) (h : handler σ) :
    invocation :=
  ⟨ph, w, e, h.name, false, false, false, false⟩

/-- The record of a run in which no handler touches the flags, for one signal. -/
def quiet_records {σ : Type} (T : signal_function_type) (t : widget_tree σ)
    (g : phase × widget × ui_event) : List invocation :=
  ((t.event_signal T g.2.1 g.2.2).handlers g.1).map (quiet_record g.1 g.2.1 g.2.2)

/-- The value of `handled` the last logged call returned, false for an empty log. -/
def last_handled (log : List invocation) : Bool :=
  match log.getLast? with
  | some r => r.handled_out
  | none => false

/-- The value of `halt` the last logged call returned, false for an empty log. -/
def last_halt (log : List invocation) : Bool :=
  match log.getLast? with
  | some r => r.halt_out
  | none => false

/-- The flags of a state are those the last logged call returned. -/
def flags_follow_log {σ : Type} (st : fire_state σ) : Prop :=
  st.handled = last_handled st.log ∧ st.halt = last_halt st.log

/-- The list `rest` is what following parent links from `w` meets, in order. -/
def follows_parents {σ : Type} (t : widget_tree σ) : widget → List widget → Prop
  | _, [] => True
  | w, p :: rest => t.parent w = some p ∧ follows_parents t p rest

/-- The entry an ancestor `p` contributes to the chain of
`fire_event_double_click`, if any: under `double_click` when it wants the
double click and has a pre or post handler for it, under `click` when it does
not want the double click and has a pre or post handler for the click. -/
def double_click_entry {σ : Type} (t : widget_tree σ) (click double_click : ui_event)
    (wants_double_click : widget → Bool) (p : widget) : Option (widget × ui_event) :=
  if wants_double_click p then
    (if t.has_event p double_click implementation.pre_or_post then some (p, double_click) else none)
  else
    (if t.has_event p click implementation.pre_or_post then some (p, click) else none)

/-! ## Concrete trees -/

/-- The parent links of the tree D ← C1 ← C2 ← W of the scenarios, with
D = 0, C1 = 1, C2 = 2 and W = 3. -/
def scenario_parent : widget → Option widget
  | 1 => some 0
  | 2 => some 1
  | 3 => some 2
  | _ => none

/-- A handler that leaves the flags and the state as they are. -/
def noop_handler (n : Nat) : handler Unit :=
  ⟨n, fun _ _ handled halt s => (handled, halt, s)⟩

/-- A handler that sets `handled` and leaves `halt` as it is. -/
def handling_handler (n : Nat) : handler Unit :=
  ⟨n, fun _ _ _ halt s => (true, halt, s)⟩

/-- A handler that sets `handled` and `halt`. -/
def halting_handler (n : Nat) : handler Unit :=
  ⟨n, fun _ _ _ _ s => (true, true, s)⟩

/-- Modelled from the spec: `signal_type::empty(queue_type)` of
`dispatcher.hpp`, which tells whether the handler lists of a signal are all
empty for the requested phase mask. -/
def signal_type.empty {σ : Type} (sig : signal_type σ) (queue_type : event_queue_type) : Bool :=
  if queue_type &&& dispatcher.pre ≠ 0 ∧ sig.pre_child.isEmpty = false then false
  else if queue_type &&& dispatcher.child ≠ 0 ∧ sig.child.isEmpty = false then false
  else if queue_type &&& dispatcher.post ≠ 0 ∧ sig.post_child.isEmpty = false then false
  else true

/-- A tree over the parent links of the scenarios whose `has_event` answers
from the registered handlers. -/
def scenario_tree (signals : widget → ui_event → signal_type Unit) : widget_tree Unit where
  parent := scenario_parent
  has_event := fun w e q => !(signals w e).empty q
  event_signal := fun _ w e => signals w e

/-- Scenario A: every widget of the tree has one post handler (named 100 +
widget) for the event 7 and no other handler. -/
def scenario_a : widget_tree Unit :=
  scenario_tree (fun w e =>
    if w ≤ 3 ∧ e = 7 then ⟨[], [], [noop_handler (100 + w)]⟩ else ⟨[], [], []⟩)

/-- A tree in which the widget 0 has two child handlers for the event 7: the
first sets `handled` and not `halt`, the second touches nothing. -/
def scenario_two_handlers : widget_tree Unit :=
  scenario_tree (fun w e =>
    if w = 0 ∧ e = 7 then ⟨[], [handling_handler 1, noop_handler 2], []⟩ else ⟨[], [], []⟩)

/-- A tree in which the widget 1 has three pre handlers for the event 7, the
second of which sets `handled` and `halt`, and a post handler, and the widget
3 has a child handler. -/
def scenario_halt : widget_tree Unit :=
  scenario_tree (fun w e =>
    if w = 1 ∧ e = 7 then
      ⟨[noop_handler 1, halting_handler 2, noop_handler 3], [], [noop_handler 5]⟩
    else if w = 3 ∧ e = 7 then ⟨[], [noop_handler 4], []⟩
    else ⟨[], [], []⟩)

/-- The handlers of scenario C, with click = 1 and double_click = 2.
D (0) has a click pre handler only; A (1) has a pre and a post handler for
the double click and a pre handler for the click; C2 (2) has a click post
handler; W (3) has a pre, a child and a post handler for the click. -/
def scenario_c_signals : widget → ui_event → signal_type Unit
  | 0, 1 => ⟨[noop_handler 101], [], []⟩
  | 1, 1 => ⟨[noop_handler 111], [], []⟩
  | 1, 2 => ⟨[noop_handler 211], [], [noop_handler 213]⟩
  | 2, 1 => ⟨[], [], [noop_handler 123]⟩
  | 3, 1 => ⟨[noop_handler 131], [noop_handler 132], [noop_handler 133]⟩
  | _, _ => ⟨[], [], []⟩

/-- Scenario C: the tree with the handlers of `scenario_c_signals`. -/
def scenario_c : widget_tree Unit := scenario_tree scenario_c_signals

/-- In scenario C the dispatcher D and the ancestor A want the double click,
C2 and the target W do not. -/
def scenario_c_wants : widget → Bool
  | 0 => true
  | 1 => true
  | _ => false

/-- A tree for a notification (event 9): the target W (3) has one child
handler, which sets `handled`, and every ancestor has a pre and a post
handler for the same event. -/
def scenario_notification : widget_tree Unit :=
  scenario_tree (fun w e =>
    if w = 3 ∧ e = 9 then ⟨[], [handling_handler 31], []⟩
    else if w ≤ 2 ∧ e = 9 then ⟨[noop_handler (10 + w)], [], [noop_handler (20 + w)]⟩
    else ⟨[], [], []⟩)

/-! ## The signal queues of a dispatcher and `has_handler` -/

/-- Modelled from the spec: the registry of one queue kind (the member `queue`
of a signal queue, declared in `dispatcher.hpp`), a map from events to signals
in which the signal of an event is created on the first registration.  The
map is given by its entries, the oldest first. -/
abbrev signal_queue (σ : Type) := List (ui_event × signal_type σ)

/-- Modelled from the spec: the lookup `queue[event]` of a registry, which
yields the signal the registry stores for the event, and a signal with three
empty handler lists for an event without a registration.  A signal is created
on the first registration and removed on deregistration, so the lookup leaves
the registry as it is.  The result is the signal and the registry after the
lookup. -/
def signal_queue.index {σ : Type} (queue : signal_queue σ) (event : ui_event) :
    signal_type σ × signal_queue σ :=
  match queue.find? (fun entry => entry.1 = event) with
  | some entry => (entry.2, queue)
  | none => (⟨[], [], []⟩, queue)

/-- The nine signal queues of a dispatcher (`IMPLEMENT_EVENT_SIGNAL` and
`IMPLEMENT_EVENT_SIGNAL_WRAPPER` name them). -/
structure dispatcher (σ : Type) where
  signal_queue_ : signal_queue σ
  signal_mouse_queue_ : signal_queue σ
  signal_keyboard_queue_ : signal_queue σ
  signal_touch_motion_queue_ : signal_queue σ
  signal_touch_gesture_queue_ : signal_queue σ
  signal_notification_queue_ : signal_queue σ
  signal_message_queue_ : signal_queue σ
  signal_raw_event_queue_ : signal_queue σ
  signal_text_input_queue_ : signal_queue σ

/-- The classification predicates `is_general_event`, `is_mouse_event`, ...
that `has_handler` calls; they are declared outside this file of the source
and are taken as they come. -/
structure event_classification where
  is_general_event : ui_event → Bool
  is_mouse_event : ui_event → Bool
  is_keyboard_event : ui_event → Bool
  is_touch_motion_event : ui_event → Bool
  is_touch_gesture_event : ui_event → Bool
  is_notification_event : ui_event → Bool
  is_message_event : ui_event → Bool
  is_raw_event_event : ui_event → Bool
  is_text_input_event : ui_event → Bool

namespace dispatcher_implementation

/-- The lambda `queue_check` of `has_handler`, generic in the signal queue:
`!queue_set.queue[event].empty(queue_type)`, with the queue after the lookup.
The lookup `queue[event]` is the argument `index`. -/
def queue_check {σ : Type}
    (index : signal_queue σ → ui_event → signal_type σ × signal_queue σ)
    (queue_type : event_queue_type) (event : ui_event)
    (queue_set : signal_queue σ) : Bool × signal_queue σ :=
  (!(index queue_set event).1.empty queue_type, (index queue_set event).2)

/-- The function `dispatcher_implementation::has_handler`, which takes the
dispatcher by reference: its answer and the dispatcher after the call.  The
lookup `queue[event]` of the signal queues is the argument `index`. -/
def has_handler_over {σ : Type}
    (index : signal_queue σ → ui_event → signal_type σ × signal_queue σ)
    (cls : event_classification) (dispatcher : dispatcher σ)
    (queue_type : event_queue_type) (event : ui_event) : Bool × gui2.dispatcher σ :=
  if cls.is_general_event event then
    ((queue_check index queue_type event dispatcher.signal_queue_).1,
      { dispatcher with
        signal_queue_ :=
          (queue_check index queue_type event dispatcher.signal_queue_).2 })
  else if cls.is_mouse_event event then
    ((queue_check index queue_type event dispatcher.signal_mouse_queue_).1,
      { dispatcher with
        signal_mouse_queue_ :=
          (queue_check index queue_type event dispatcher.signal_mouse_queue_).2 })
  else if cls.is_keyboard_event event then
    ((queue_check index queue_type event dispatcher.signal_keyboard_queue_).1,
      { dispatcher with
        signal_keyboard_queue_ :=
          (queue_check index queue_type event dispatcher.signal_keyboard_queue_).2 })
  else if cls.is_touch_motion_event event then
    ((queue_check index queue_type event dispatcher.signal_touch_motion_queue_).1,
      { dispatcher with
        signal_touch_motion_queue_ :=
          (queue_check index queue_type event dispatcher.signal_touch_motion_queue_).2 })
  else if cls.is_touch_gesture_event event then
    ((queue_check index queue_type event dispatcher.signal_touch_gesture_queue_).1,
      { dispatcher with
        signal_touch_gesture_queue_ :=
          (queue_check index queue_type event dispatcher.signal_touch_gesture_queue_).2 })
  else if cls.is_notification_event event then
    ((queue_check index queue_type event dispatcher.signal_notification_queue_).1,
      { dispatcher with
        signal_notification_queue_ :=
          (queue_check index queue_type event dispatcher.signal_notification_queue_).2 })
  else if cls.is_message_event event then
    ((queue_check index queue_type event dispatcher.signal_message_queue_).1,
      { dispatcher with
        signal_message_queue_ :=
          (queue_check index queue_type event dispatcher.signal_message_queue_).2 })
  else if cls.is_raw_event_event event then
    ((queue_check index queue_type event dispatcher.signal_raw_event_queue_).1,
      { dispatcher with
        signal_raw_event_queue_ :=
          (queue_check index queue_type event dispatcher.signal_raw_event_queue_).2 })
  else if cls.is_text_input_event event then
    ((queue_check index queue_type event dispatcher.signal_text_input_queue_).1,
      { dispatcher with
        signal_text_input_queue_ :=
          (queue_check index queue_type event dispatcher.signal_text_input_queue_).2 })
  else (false, dispatcher)

/-- The function `dispatcher_implementation::has_handler` on registries with
the lookup of the specification. -/
def has_handler {σ : Type} (cls : event_classification) (dispatcher : dispatcher σ)
    (queue_type : event_queue_type) (event : ui_event) : Bool × gui2.dispatcher σ :=
  has_handler_over signal_queue.index cls dispatcher queue_type event

end dispatcher_implementation

/-- The classification predicate of a queue kind. -/
def event_classification.is_event (cls : event_classification) :
    signal_function_type → ui_event → Bool
  | .general => cls.is_general_event
  | .mouse => cls.is_mouse_event
  | .keyboard => cls.is_keyboard_event
  | .touch_motion => cls.is_touch_motion_event
  | .touch_gesture => cls.is_touch_gesture_event
  | .notification => cls.is_notification_event
  | .message => cls.is_message_event
  | .raw_event => cls.is_raw_event_event
  | .text_input => cls.is_text_input_event

/-- The first kind, in the order `has_handler` tests them, the event belongs to. -/
def event_classification.first_kind (cls : event_classification) (event : ui_event) :
    Option signal_function_type :=
  if cls.is_general_event event then some .general
  else if cls.is_mouse_event event then some .mouse
  else if cls.is_keyboard_event event then some .keyboard
  else if cls.is_touch_motion_event event then some .touch_motion
  else if cls.is_touch_gesture_event event then some .touch_gesture
  else if cls.is_notification_event event then some .notification
  else if cls.is_message_event event then some .message
  else if cls.is_raw_event_event event then some .raw_event
  else if cls.is_text_input_event event then some .text_input
  else none

/-- The signal queue of a dispatcher for a queue kind. -/
def dispatcher.queue_of {σ : Type} (d : dispatcher σ) : signal_function_type → signal_queue σ
  | .general => d.signal_queue_
  | .mouse => d.signal_mouse_queue_
  | .keyboard => d.signal_keyboard_queue_
  | .touch_motion => d.signal_touch_motion_queue_
  | .touch_gesture => d.signal_touch_gesture_queue_
  | .notification => d.signal_notification_queue_
  | .message => d.signal_message_queue_
  | .raw_event => d.signal_raw_event_queue_
  | .text_input => d.signal_text_input_queue_

/-- The dispatcher with the signal queue of one kind replaced. -/
def dispatcher.set_queue {σ : Type} (d : dispatcher σ) (K : signal_function_type)
    (q : signal_queue σ) : dispatcher σ :=
  match K with
  | .general => { d with signal_queue_ := q }
  | .mouse => { d with signal_mouse_queue_ := q }
  | .keyboard => { d with signal_keyboard_queue_ := q }
  | .touch_motion => { d with signal_touch_motion_queue_ := q }
  | .touch_gesture => { d with signal_touch_gesture_queue_ := q }
  | .notification => { d with signal_notification_queue_ := q }
  | .message => { d with signal_message_queue_ := q }
  | .raw_event => { d with signal_raw_event_queue_ := q }
  | .text_input => { d with signal_text_input_queue_ := q }

/-- A classification by ranges: the events 0..9 are general, 10..19 mouse,
20..29 keyboard, 30..39 touch motion, 40..49 touch gesture, 50..59
notification, 60..69 message, 70..79 raw, 80..89 text input. -/
def scenario_classification : event_classification where
  is_general_event := fun (e : Nat) => decide (e < 10)
  is_mouse_event := fun (e : Nat) => decide (10 ≤ e ∧ e < 20)
  is_keyboard_event := fun (e : Nat) => decide (20 ≤ e ∧ e < 30)
  is_touch_motion_event := fun (e : Nat) => decide (30 ≤ e ∧ e < 40)
  is_touch_gesture_event := fun (e : Nat) => decide (40 ≤ e ∧ e < 50)
  is_notification_event := fun (e : Nat) => decide (50 ≤ e ∧ e < 60)
  is_message_event := fun (e : Nat) => decide (60 ≤ e ∧ e < 70)
  is_raw_event_event := fun (e : Nat) => decide (70 ≤ e ∧ e < 80)
  is_text_input_event := fun (e : Nat) => decide (80 ≤ e ∧ e < 90)

/-- A dispatcher without any registration. -/
def scenario_bare_dispatcher : dispatcher Unit :=
  ⟨[], [], [], [], [], [], [], [], []⟩

/-- A dispatcher with one registration: a pre handler for the mouse event 12. -/
def scenario_mouse_dispatcher : dispatcher Unit :=
  ⟨[], [(12, ⟨[noop_handler 1], [], []⟩)], [], [], [], [], [], [], []⟩

/-! ## Further devices and concrete trees -/

/-- A handler that sets `halt` and leaves `handled` as it is. -/
def halt_only_handler (n : Nat) : handler Unit :=
  ⟨n, fun _ _ handled _ s => (handled, true, s)⟩

/-- A tree in which the widget 0 has one child handler for the event 7, which
sets `halt` without `handled`. -/
def scenario_halt_only : widget_tree Unit :=
  scenario_tree (fun w e =>
    if w = 0 ∧ e = 7 then ⟨[], [halt_only_handler 1], []⟩ else ⟨[], [], []⟩)

/-- The call `r` comes right after the call `p` in a log: it is entered with
the flags `p` returned, `p` did not return with `halt` set, and when `p`
returned with `handled` set the two calls are of the same phase, widget and
event. -/
def follows_call (p r : invocation) : Prop :=
  r.handled_in = p.handled_out ∧ r.halt_in = p.halt_out ∧ p.halt_out = false ∧
    (p.handled_out = true → p.phase = r.phase ∧ p.widget = r.widget ∧ p.event = r.event)

/-- Every call of the list follows the one before it, the first one `p`. -/
def linked_from (p : invocation) : List invocation → Prop
  | [] => True
  | r :: rest => follows_call p r ∧ linked_from r rest

/-- The first call of the log is entered with both flags clear and every
later call follows the one before it. -/
def linked_log : List invocation → Prop
  | [] => True
  | r :: rest => r.handled_in = false ∧ r.halt_in = false ∧ linked_from r rest

/-- The tree of `scenario_two_handlers` without the second child handler. -/
def scenario_one_handler : widget_tree Unit :=
  scenario_tree (fun w e =>
    if w = 0 ∧ e = 7 then ⟨[], [handling_handler 1], []⟩ else ⟨[], [], []⟩)

/-- A tree that differs from `scenario_halt` only after the pre handler 2 of
the widget 1, which sets `handled` and `halt`: other pre handlers follow it,
the widget 1 has no post handler and the child handler of the widget 3 sets
`handled`. -/
def scenario_halt_variant : widget_tree Unit :=
  scenario_tree (fun w e =>
    if w = 1 ∧ e = 7 then
      ⟨[noop_handler 1, halting_handler 2, noop_handler 9, handling_handler 8], [], []⟩
    else if w = 3 ∧ e = 7 then ⟨[], [handling_handler 4], []⟩
    else ⟨[], [], []⟩)

/-- The call a log record stands for: phase, widget, event and handler. -/
def invocation.call (r : invocation) : gui2.phase × gui2.widget × gui2.ui_event × Nat :=
  (r.phase, r.widget, r.event, r.handler)

/-- The calls of all handlers of a list of signals: signal after signal, each
handler list in registration order. -/
def scheduled_calls {σ : Type} (T : signal_function_type) (t : widget_tree σ)
    (gs : List (phase × widget × ui_event)) : List (phase × widget × ui_event × Nat) :=
  gs.flatMap (fun g =>
    ((t.event_signal T g.2.1 g.2.2).handlers g.1).map (fun h => (g.1, g.2.1, g.2.2, h.name)))

/-- The signal `fire_event` visits in the child phase, if any. -/
def child_signal {σ : Type} (t : widget_tree σ) (event : ui_event) (w : widget) :
    List (phase × widget × ui_event) :=
  if t.has_event w event dispatcher.child then [(phase.child, w, event)] else []

/-- Scenario B: every ancestor of W has a pre handler (named 10 + widget) and
a post handler (named 20 + widget) for the event 8; W has no handler. -/
def scenario_b : widget_tree Unit :=
  scenario_tree (fun w e =>
    if w ≤ 2 ∧ e = 8 then ⟨[noop_handler (10 + w)], [], [noop_handler (20 + w)]⟩
    else ⟨[], [], []⟩)

/-- Nobody wants the double click. -/
def scenario_no_double_click : widget → Bool := fun _ => false

/-! ## The best size of an image (`src/gui/widgets/image.cpp`) -/

/-- The structure `point`: two `int` coordinates. -/
structure point where
  x : Int
  y : Int
  deriving DecidableEq, Repr

/-- What `calculate_best_size` reads of a loaded surface: its width `w` and
its height `h`. -/
structure surface where
  w : Int
  h : Int
  deriving DecidableEq, Repr

namespace image

/-- The function `image::calculate_best_size`.  The argument `image` is what
`::image::get_image` returned, `none` for the null surface that `!image`
tests; the other two are the values of `get_config_default_size()` and
`get_config_maximum_size()`. -/
def calculate_best_size (image : Option surface)
    (get_config_default_size get_config_maximum_size : point) : point :=
  match image with
  | none => get_config_default_size
  | some img =>
    let minimum := get_config_default_size
    let maximum := get_config_maximum_size
    let result : point := ⟨img.w, img.h⟩
    let result : point :=
      if minimum.x > 0 && result.x < minimum.x then { result with x := minimum.x }
      else if maximum.x > 0 && result.x > maximum.x then { result with x := maximum.x }
      else result
    let result : point :=
      if minimum.y > 0 && result.y < minimum.y then { result with y := minimum.y }
      else if maximum.y > 0 && result.y > maximum.y then { result with y := maximum.y }
      else result
    result

end image

/-- The rule for one dimension in words: with image extent `v`, default
(minimum) `m` and maximum `M`, the extent is `m` if `m > 0` and `v < m`, else
`M` if `M > 0` and `v > M`, else `v`. -/
def best_extent (v m M : Int) : Int :=
  if m > 0 ∧ v < m then m else if M > 0 ∧ v > M then M else v

/-- A log follows a sequence of calls: the calls of the log are an initial
segment of the sequence, and each call of the sequence is made as soon as none
of the calls made before it returned with `handled` or `halt` set. -/
def calls_in_order (log : List invocation)
    (calls : List (gui2.phase × gui2.widget × gui2.ui_event × Nat)) : Prop :=
  log.map invocation.call <+: calls ∧
  ∀ (S1 : List (gui2.phase × gui2.widget × gui2.ui_event × Nat))
    (c : gui2.phase × gui2.widget × gui2.ui_event × Nat)
    (S2 : List (gui2.phase × gui2.widget × gui2.ui_event × Nat)),
    calls = S1 ++ c :: S2 →
    (∀ r ∈ log.take S1.length, r.handled_out = false ∧ r.halt_out = false) →
    S1 ++ [c] <+: log.map invocation.call

/-- Scenario C with a pre handler of A (1) for the double click that sets
`handled`; everything else is as in `scenario_c_signals`. -/
def scenario_c_handled_signals : widget → ui_event → signal_type Unit
  | 0, 1 => ⟨[noop_handler 101], [], []⟩
  | 1, 1 => ⟨[noop_handler 111], [], []⟩
  | 1, 2 => ⟨[handling_handler 211], [], [noop_handler 213]⟩
  | 2, 1 => ⟨[], [], [noop_handler 123]⟩
  | 3, 1 => ⟨[noop_handler 131], [noop_handler 132], [noop_handler 133]⟩
  | _, _ => ⟨[], [], []⟩

/-- The tree with the handlers of `scenario_c_handled_signals`. -/
def scenario_c_handled : widget_tree Unit := scenario_tree scenario_c_handled_signals

/-! ## Lemmas on the loops of `fire_event` -/

theorem fire_signals_append {σ : Type} (T : signal_function_type) (t : widget_tree σ) (d : widget)
    (a b : List (phase × widget × ui_event)) (st : fire_state σ) :
    fire_signals T t d (a ++ b) st =
      match fire_signals T t d a st with
      | .completed st1 => fire_signals T t d b st1
      | .returned_true st1 => .returned_true st1
      | .assertion_failed st1 => .assertion_failed st1 := by
  induction a generalizing st with
  | nil => simp [fire_signals]
  | cons g rest ih =>
    simp only [List.cons_append, fire_signals]
    cases implementation.fire_signal T t d g.1 g.2.1 g.2.2 st with
    | completed st1 => simpa using ih st1
    | returned_true st1 => rfl
    | assertion_failed st1 => rfl

theorem fire_chain_eq_fire_signals {σ : Type} (T : signal_function_type) (t : widget_tree σ)
    (d : widget) (ph : phase) (c : List (widget × ui_event)) (st : fire_state σ) :
    implementation.fire_chain T t d ph c st =
      fire_signals T t d (c.map (fun entry => (ph, entry.1, entry.2))) st := by
  induction c generalizing st with
  | nil => rfl
  | cons entry rest ih =>
    simp only [implementation.fire_chain, List.map_cons, fire_signals]
    cases implementation.fire_signal T t d ph entry.1 entry.2 st with
    | completed st1 => simpa using ih st1
    | returned_true st1 => rfl
    | assertion_failed st1 => rfl

theorem fire_child_eq_fire_signals {σ : Type} (T : signal_function_type) (t : widget_tree σ)
    (event : ui_event) (d w : widget) (st : fire_state σ) :
    implementation.fire_child T t event d w st =
      fire_signals T t d
        (if t.has_event w event dispatcher.child then [(phase.child, w, event)] else []) st := by
  unfold implementation.fire_child
  by_cases h : t.has_event w event dispatcher.child = true
  · simp only [h, if_true, fire_signals]
    cases implementation.fire_signal T t d phase.child w event st <;> rfl
  · simp only [h, if_false, fire_signals]
    rfl

/-- The chain-taking `fire_event` runs the loop body over its schedule. -/
theorem fire_event_eq_conclude {σ : Type} (T : signal_function_type) (t : widget_tree σ)
    (event : ui_event) (c : List (widget × ui_event)) (d w : widget) (s : σ) :
    implementation.fire_event T t event c d w s =
      conclude (fire_signals T t d (schedule t event c w) ⟨false, false, s, []⟩) := by
  unfold implementation.fire_event schedule
  rw [fire_signals_append, fire_signals_append, ← fire_chain_eq_fire_signals]
  cases implementation.fire_chain T t d phase.pre_child c.reverse ⟨false, false, s, []⟩ with
  | returned_true st => rfl
  | assertion_failed st => rfl
  | completed st1 =>
    simp only [← fire_child_eq_fire_signals]
    cases implementation.fire_child T t event d w st1 with
    | returned_true st => rfl
    | assertion_failed st => rfl
    | completed st2 =>
      simp only [← fire_chain_eq_fire_signals]
      cases implementation.fire_chain T t d phase.post_child c st2 with
      | returned_true st => rfl
      | assertion_failed st => rfl
      | completed st3 => rfl

/-! ## The log only grows -/

theorem call_handler_log {σ : Type} (d : widget) (ph : phase) (w : widget) (e : ui_event)
    (f : handler σ) (st : fire_state σ) :
    (implementation.call_handler d ph w e f st).log =
      st.log ++ [implementation.call_record d ph w e f st] := rfl

theorem invoke_handlers_cons {σ : Type} (d : widget) (ph : phase) (w : widget) (e : ui_event)
    (f : handler σ) (rest : List (handler σ)) (st : fire_state σ) :
    implementation.invoke_handlers d ph w e (f :: rest) st =
      if (implementation.call_handler d ph w e f st).halt = true then
        (if (implementation.call_handler d ph w e f st).handled = true
          then .completed (implementation.call_handler d ph w e f st)
          else .assertion_failed (implementation.call_handler d ph w e f st))
      else implementation.invoke_handlers d ph w e rest (implementation.call_handler d ph w e f st) :=
  rfl

theorem invoke_handlers_log_mono {σ : Type} (d : widget) (ph : phase) (w : widget) (e : ui_event)
    (hs : List (handler σ)) (st : fire_state σ) :
    ∃ ext, (implementation.invoke_handlers d ph w e hs st).state.log = st.log ++ ext := by
  induction hs generalizing st with
  | nil => exact ⟨[], by simp [implementation.invoke_handlers, phase_result.state]⟩
  | cons f rest ih =>
    rw [invoke_handlers_cons]
    split
    · split
      · exact ⟨_, call_handler_log d ph w e f st⟩
      · exact ⟨_, call_handler_log d ph w e f st⟩
    · obtain ⟨ext, hext⟩ := ih (implementation.call_handler d ph w e f st)
      refine ⟨implementation.call_record d ph w e f st :: ext, ?_⟩
      rw [hext, call_handler_log]
      simp

theorem fire_signal_log_mono {σ : Type} (T : signal_function_type) (t : widget_tree σ)
    (d : widget) (ph : phase) (w : widget) (e : ui_event) (st : fire_state σ) :
    ∃ ext, (implementation.fire_signal T t d ph w e st).state.log = st.log ++ ext := by
  obtain ⟨ext, hext⟩ :=
    invoke_handlers_log_mono d ph w e ((t.event_signal T w e).handlers ph) st
  refine ⟨ext, ?_⟩
  unfold implementation.fire_signal
  cases hres : implementation.invoke_handlers d ph w e ((t.event_signal T w e).handlers ph) st with
  | completed st1 =>
    rw [hres] at hext
    by_cases hh : st1.handled = true
    · simpa [hh, phase_result.state] using hext
    · simpa [hh, phase_result.state] using hext
  | returned_true st1 => rw [hres] at hext; simpa [phase_result.state] using hext
  | assertion_failed st1 => rw [hres] at hext; simpa [phase_result.state] using hext

theorem fire_signals_log_mono {σ : Type} (T : signal_function_type) (t : widget_tree σ)
    (d : widget) (gs : List (phase × widget × ui_event)) (st : fire_state σ) :
    ∃ ext, (fire_signals T t d gs st).state.log = st.log ++ ext := by
  induction gs generalizing st with
  | nil => exact ⟨[], by simp [fire_signals, phase_result.state]⟩
  | cons g rest ih =>
    obtain ⟨ext, hext⟩ := fire_signal_log_mono T t d g.1 g.2.1 g.2.2 st
    simp only [fire_signals]
    cases hres : implementation.fire_signal T t d g.1 g.2.1 g.2.2 st with
    | completed st1 =>
      rw [hres] at hext
      obtain ⟨ext2, hext2⟩ := ih st1
      refine ⟨ext ++ ext2, ?_⟩
      simp only [phase_result.state] at hext
      simp only [hext2, hext, List.append_assoc]
    | returned_true st1 => rw [hres] at hext; exact ⟨ext, hext⟩
    | assertion_failed st1 => rw [hres] at hext; exact ⟨ext, hext⟩

theorem invoke_handlers_cons_log {σ : Type} (d : widget) (ph : phase) (w : widget) (e : ui_event)
    (f : handler σ) (rest : List (handler σ)) (st : fire_state σ) :
    ∃ ext, (implementation.invoke_handlers d ph w e (f :: rest) st).state.log =
      (st.log ++ [implementation.call_record d ph w e f st]) ++ ext := by
  rw [invoke_handlers_cons]
  split
  · split
    · exact ⟨[], by simp [phase_result.state, call_handler_log]⟩
    · exact ⟨[], by simp [phase_result.state, call_handler_log]⟩
  · obtain ⟨ext, hext⟩ :=
      invoke_handlers_log_mono d ph w e rest (implementation.call_handler d ph w e f st)
    exact ⟨ext, by rw [hext, call_handler_log]⟩

theorem fire_signal_state {σ : Type} (T : signal_function_type) (t : widget_tree σ)
    (d : widget) (ph : phase) (w : widget) (e : ui_event) (st : fire_state σ) :
    (implementation.fire_signal T t d ph w e st).state =
      (implementation.invoke_handlers d ph w e ((t.event_signal T w e).handlers ph) st).state := by
  unfold implementation.fire_signal
  cases implementation.invoke_handlers d ph w e ((t.event_signal T w e).handlers ph) st with
  | completed st1 =>
    by_cases hh : st1.handled = true <;> simp [hh, phase_result.state]
  | returned_true st1 => rfl
  | assertion_failed st1 => rfl

theorem fire_signals_cons_log {σ : Type} (T : signal_function_type) (t : widget_tree σ)
    (d : widget) (g : phase × widget × ui_event) (rest : List (phase × widget × ui_event))
    (st : fire_state σ) :
    ∃ ext, (fire_signals T t d (g :: rest) st).state.log =
      (implementation.fire_signal T t d g.1 g.2.1 g.2.2 st).state.log ++ ext := by
  simp only [fire_signals]
  cases hres : implementation.fire_signal T t d g.1 g.2.1 g.2.2 st with
  | completed st1 =>
    obtain ⟨ext, hext⟩ := fire_signals_log_mono T t d rest st1
    exact ⟨ext, by simpa [phase_result.state] using hext⟩
  | returned_true st1 => exact ⟨[], by simp⟩
  | assertion_failed st1 => exact ⟨[], by simp⟩

theorem conclude_log {σ : Type} (res : phase_result σ) : (conclude res).log = res.state.log := by
  cases res with
  | completed st => by_cases hh : st.handled = true <;> simp [conclude, hh, phase_result.state]
  | returned_true st => rfl
  | assertion_failed st => rfl

/-! ## Runs in which no handler touches the flags -/

theorem invoke_handlers_quiet {σ : Type} (d : widget) (ph : phase) (w : widget) (e : ui_event)
    (hs : List (handler σ)) (st : fire_state σ)
    (h1 : st.handled = false) (h2 : st.halt = false)
    (hq : ∀ r ∈ (implementation.invoke_handlers d ph w e hs st).state.log,
      r.handled_out = false ∧ r.halt_out = false) :
    ∃ s1, implementation.invoke_handlers d ph w e hs st =
      .completed ⟨false, false, s1, st.log ++ hs.map (quiet_record ph w e)⟩ := by
  induction hs generalizing st with
  | nil =>
    refine ⟨st.world, ?_⟩
    cases st
    simp only at h1 h2
    subst h1 h2
    simp [implementation.invoke_handlers]
  | cons f rest ih =>
    obtain ⟨ext, hext⟩ := invoke_handlers_cons_log d ph w e f rest st
    have hrec := hq (implementation.call_record d ph w e f st) (by rw [hext]; simp)
    have hh : (implementation.call_handler d ph w e f st).handled = false := hrec.1
    have hl : (implementation.call_handler d ph w e f st).halt = false := hrec.2
    rw [invoke_handlers_cons, hl] at hq
    rw [invoke_handlers_cons, hl]
    simp only [Bool.false_eq_true, if_false] at hq ⊢
    obtain ⟨s1, hs1⟩ := ih (implementation.call_handler d ph w e f st) hh hl hq
    refine ⟨s1, ?_⟩
    rw [hs1, call_handler_log]
    have hr : implementation.call_record d ph w e f st = quiet_record ph w e f := by
      have e1 : (implementation.call_record d ph w e f st).handled_out = false := hrec.1
      have e2 : (implementation.call_record d ph w e f st).halt_out = false := hrec.2
      simp only [implementation.call_record] at e1 e2
      simp only [implementation.call_record, quiet_record, h1, h2] at *
      simp [e1, e2]
    simp [hr]

theorem fire_signal_quiet {σ : Type} (T : signal_function_type) (t : widget_tree σ)
    (d : widget) (g : phase × widget × ui_event) (st : fire_state σ)
    (h1 : st.handled = false) (h2 : st.halt = false)
    (hq : ∀ r ∈ (implementation.fire_signal T t d g.1 g.2.1 g.2.2 st).state.log,
      r.handled_out = false ∧ r.halt_out = false) :
    ∃ s1, implementation.fire_signal T t d g.1 g.2.1 g.2.2 st =
      .completed ⟨false, false, s1, st.log ++ quiet_records T t g⟩ := by
  rw [fire_signal_state] at hq
  obtain ⟨s1, hs1⟩ := invoke_handlers_quiet d g.1 g.2.1 g.2.2 _ st h1 h2 hq
  refine ⟨s1, ?_⟩
  unfold implementation.fire_signal
  rw [hs1]
  simp [quiet_records]

theorem fire_signals_quiet {σ : Type} (T : signal_function_type) (t : widget_tree σ)
    (d : widget) (gs : List (phase × widget × ui_event)) (st : fire_state σ)
    (h1 : st.handled = false) (h2 : st.halt = false)
    (hq : ∀ r ∈ (fire_signals T t d gs st).state.log,
      r.handled_out = false ∧ r.halt_out = false) :
    ∃ s1, fire_signals T t d gs st =
      .completed ⟨false, false, s1, st.log ++ gs.flatMap (quiet_records T t)⟩ := by
  induction gs generalizing st with
  | nil =>
    refine ⟨st.world, ?_⟩
    cases st
    simp only at h1 h2
    subst h1 h2
    simp [fire_signals]
  | cons g rest ih =>
    obtain ⟨ext, hext⟩ := fire_signals_cons_log T t d g rest st
    obtain ⟨s1, hs1⟩ := fire_signal_quiet T t d g st h1 h2
      (fun r hr => hq r (by rw [hext]; exact List.mem_append_left _ hr))
    simp only [fire_signals, hs1] at hq ⊢
    obtain ⟨s2, hs2⟩ := ih ⟨false, false, s1, st.log ++ quiet_records T t g⟩ rfl rfl hq
    exact ⟨s2, by rw [hs2]; simp⟩

theorem schedule_quiet_records {σ : Type} (T : signal_function_type) (t : widget_tree σ)
    (event : ui_event) (c : List (widget × ui_event)) (w : widget) :
    (schedule t event c w).flatMap (quiet_records T t) =
      c.reverse.flatMap (fun entry =>
          (t.event_signal T entry.1 entry.2).pre_child.map
            (quiet_record phase.pre_child entry.1 entry.2))
        ++ (if t.has_event w event dispatcher.child
            then (t.event_signal T w event).child.map (quiet_record phase.child w event)
            else [])
        ++ c.flatMap (fun entry =>
          (t.event_signal T entry.1 entry.2).post_child.map
            (quiet_record phase.post_child entry.1 entry.2)) := by
  unfold schedule
  rw [List.flatMap_append, List.flatMap_append]
  congr 1
  · congr 1
    · induction c.reverse with
      | nil => rfl
      | cons a l ih => simp [List.flatMap_cons, quiet_records, signal_type.handlers, ih]
    · by_cases h : t.has_event w event dispatcher.child = true
      · simp [h, quiet_records, signal_type.handlers]
      · simp [h]
  · induction c with
    | nil => rfl
    | cons a l ih => simp [List.flatMap_cons, quiet_records, signal_type.handlers, ih]

theorem fire_event_quiet {σ : Type} (T : signal_function_type) (t : widget_tree σ)
    (event : ui_event) (c : List (widget × ui_event)) (d w : widget) (s : σ)
    (hq : ∀ r ∈ (implementation.fire_event T t event c d w s).log,
      r.handled_out = false ∧ r.halt_out = false) :
    ∃ s1, implementation.fire_event T t event c d w s =
      ⟨.returned false, s1, (schedule t event c w).flatMap (quiet_records T t)⟩ := by
  rw [fire_event_eq_conclude, conclude_log] at hq
  obtain ⟨s1, hs1⟩ := fire_signals_quiet T t d (schedule t event c w) ⟨false, false, s, []⟩
    rfl rfl hq
  exact ⟨s1, by rw [fire_event_eq_conclude, hs1]; simp [conclude]⟩

/-! ## The chain builders along a path of parent links -/

theorem path_head_ne_last {D W p : widget} {rest : List widget}
    (hlast : (W :: p :: rest).getLast? = some D) (hnodup : (W :: p :: rest).Nodup) : W ≠ D := by
  intro h
  rw [List.getLast?_cons_cons] at hlast
  have hmem := List.mem_of_getLast?_eq_some hlast
  rw [List.nodup_cons] at hnodup
  exact hnodup.1 (h ▸ hmem)

theorem path_singleton_last {D W : widget} (hlast : [W].getLast? = some D) : W = D := by
  simpa using hlast

theorem build_event_chain_loop_path {σ : Type} (t : widget_tree σ) (event : ui_event)
    (D : widget) (rest : List widget) (W : widget) (acc : List (widget × ui_event)) (fuel : Nat)
    (hpath : follows_parents t W rest) (hlast : (W :: rest).getLast? = some D)
    (hnodup : (W :: rest).Nodup) (hfuel : rest.length < fuel) :
    implementation.build_event_chain_loop t event D fuel W acc =
      .ok (acc ++ ((W :: rest).filter
        (fun p => t.has_event p event implementation.pre_or_post)).map (fun p => (p, event))) := by
  induction rest generalizing W acc fuel with
  | nil =>
    have hW := path_singleton_last hlast
    subst hW
    obtain ⟨k, rfl⟩ : ∃ k, fuel = k + 1 := ⟨fuel - 1, by simp at hfuel; omega⟩
    by_cases hev : t.has_event W event implementation.pre_or_post = true <;>
      simp [implementation.build_event_chain_loop, hev, List.filter_cons]
  | cons p rest ih =>
    have hne := path_head_ne_last hlast hnodup
    obtain ⟨k, rfl⟩ : ∃ k, fuel = k + 1 := ⟨fuel - 1, by simp at hfuel; omega⟩
    have hpar : t.parent W = some p := hpath.1
    rw [List.getLast?_cons_cons] at hlast
    rw [List.nodup_cons] at hnodup
    have hk : rest.length < k := by simp at hfuel; omega
    simp only [implementation.build_event_chain_loop, hne, if_false, hpar]
    rw [ih p _ k hpath.2 hlast hnodup.2 hk]
    by_cases hev : t.has_event W event implementation.pre_or_post = true <;>
      simp [hev, List.filter_cons]

theorem build_event_chain_of_default {σ : Type} (T : signal_function_type) (t : widget_tree σ)
    (fuel : Nat) (event : ui_event) (d w : Option widget)
    (h1 : T ≠ .notification) (h2 : T ≠ .message) :
    implementation.build_event_chain T t fuel event d w =
      implementation.build_event_chain_default t fuel event d w := by
  cases T <;> first | rfl | exact absurd rfl h1 | exact absurd rfl h2

theorem build_event_chain_message_loop_path {σ : Type} (t : widget_tree σ) (event : ui_event)
    (R : widget) (rest : List widget) (W : widget) (acc : List (widget × ui_event)) (fuel : Nat)
    (hpath : follows_parents t W rest) (hlast : (W :: rest).getLast? = some R)
    (hroot : t.parent R = none) (hfuel : rest.length < fuel) :
    implementation.build_event_chain_message_loop t event fuel W acc =
      .ok (((rest.filter (fun p => t.has_event p event implementation.pre_or_post)).map
        (fun p => (p, event))).reverse ++ acc) := by
  induction rest generalizing W acc fuel with
  | nil =>
    have hW := path_singleton_last hlast
    obtain ⟨k, rfl⟩ : ∃ k, fuel = k + 1 := ⟨fuel - 1, by simp at hfuel; omega⟩
    simp [implementation.build_event_chain_message_loop, hW, hroot]
  | cons p rest ih =>
    obtain ⟨k, rfl⟩ : ∃ k, fuel = k + 1 := ⟨fuel - 1, by simp at hfuel; omega⟩
    have hpar : t.parent W = some p := hpath.1
    rw [List.getLast?_cons_cons] at hlast
    have hk : rest.length < k := by simp at hfuel; omega
    simp only [implementation.build_event_chain_message_loop, hpar]
    rw [ih p _ k hpath.2 hlast hk]
    by_cases hev : t.has_event p event implementation.pre_or_post = true <;>
      simp [hev, List.filter_cons]

theorem double_click_chain_loop_path {σ : Type} (t : widget_tree σ) (click double_click : ui_event)
    (wants_double_click : widget → Bool) (D : widget) (rest : List widget) (W : widget)
    (acc : List (widget × ui_event)) (fuel : Nat)
    (hpath : follows_parents t W rest) (hlast : (W :: rest).getLast? = some D)
    (hnodup : (W :: rest).Nodup) (hfuel : rest.length < fuel) :
    double_click_chain_loop t click double_click wants_double_click D fuel W acc =
      .ok (acc ++ rest.filterMap (double_click_entry t click double_click wants_double_click)) := by
  induction rest generalizing W acc fuel with
  | nil =>
    have hW := path_singleton_last hlast
    obtain ⟨k, rfl⟩ : ∃ k, fuel = k + 1 := ⟨fuel - 1, by simp at hfuel; omega⟩
    simp [double_click_chain_loop, hW]
  | cons p rest ih =>
    have hne := path_head_ne_last hlast hnodup
    obtain ⟨k, rfl⟩ : ∃ k, fuel = k + 1 := ⟨fuel - 1, by simp at hfuel; omega⟩
    have hpar : t.parent W = some p := hpath.1
    rw [List.getLast?_cons_cons] at hlast
    rw [List.nodup_cons] at hnodup
    have hk : rest.length < k := by simp at hfuel; omega
    simp only [double_click_chain_loop, hne, if_false, hpar]
    rw [ih p _ k hpath.2 hlast hnodup.2 hk]
    by_cases hw : wants_double_click p = true
    · by_cases hev : t.has_event p double_click implementation.pre_or_post = true <;>
        simp [hw, hev, double_click_entry, List.filterMap_cons]
    · by_cases hev : t.has_event p click implementation.pre_or_post = true <;>
        simp [hw, hev, double_click_entry, List.filterMap_cons]

/-! ## Properties of the dispatch -/

/-- C1: in a run of the chain-taking `fire_event` in which no invoked handler
sets `handled` or `halt`, the handlers invoked are, in this order, the pre
handlers of the chain entries taken in reverse chain order, the child handlers
of the target if and only if the target `has_event(event, child)`, and the post
handlers of the chain entries in chain order, each list in registration order
and each handler once; and the run returns false. -/
theorem fire_event_order_when_unhandled {σ : Type} (T : signal_function_type)
    (t : widget_tree σ) (event : ui_event) (event_chain : List (widget × ui_event))
    (d w : widget) (s : σ)
    (hq : ∀ r ∈ (implementation.fire_event T t event event_chain d w s).log,
      r.handled_out = false ∧ r.halt_out = false) :
    (implementation.fire_event T t event event_chain d w s).outcome = .returned false ∧
    (implementation.fire_event T t event event_chain d w s).log =
      event_chain.reverse.flatMap (fun entry =>
          (t.event_signal T entry.1 entry.2).pre_child.map
            (quiet_record phase.pre_child entry.1 entry.2))
        ++ (if t.has_event w event dispatcher.child
            then (t.event_signal T w event).child.map (quiet_record phase.child w event)
            else [])
        ++ event_chain.flatMap (fun entry =>
          (t.event_signal T entry.1 entry.2).post_child.map
            (quiet_record phase.post_child entry.1 entry.2)) := by
  obtain ⟨s1, hs1⟩ := fire_event_quiet T t event event_chain d w s hq
  rw [hs1]
  exact ⟨rfl, schedule_quiet_records T t event event_chain w⟩

/-- Scenario A: with the chain [W, C2, C1, D] and post handlers only, nobody
is invoked in the pre and child phases, the post handlers run in the order
W, C2, C1, D, and the run returns false. -/
theorem fire_event_order_when_unhandled_witness :
    (∀ r ∈ (implementation.fire_event .general scenario_a 7
        [(3, 7), (2, 7), (1, 7), (0, 7)] 0 3 ()).log,
      r.handled_out = false ∧ r.halt_out = false) ∧
    (implementation.fire_event .general scenario_a 7
        [(3, 7), (2, 7), (1, 7), (0, 7)] 0 3 ()).outcome = .returned false ∧
    (implementation.fire_event .general scenario_a 7
        [(3, 7), (2, 7), (1, 7), (0, 7)] 0 3 ()).log =
      [quiet_record phase.post_child 3 7 (noop_handler 103),
       quiet_record phase.post_child 2 7 (noop_handler 102),
       quiet_record phase.post_child 1 7 (noop_handler 101),
       quiet_record phase.post_child 0 7 (noop_handler 100)] := by
  have hq : ∀ r ∈ (implementation.fire_event .general scenario_a 7
        [(3, 7), (2, 7), (1, 7), (0, 7)] 0 3 ()).log,
      r.handled_out = false ∧ r.halt_out = false := by decide
  have h := fire_event_order_when_unhandled .general scenario_a 7
    [(3, 7), (2, 7), (1, 7), (0, 7)] 0 3 () hq
  refine ⟨hq, h.1, ?_⟩
  rw [h.2]
  decide

/-- C3: when D is reached from W along the path W = p0, p1, ..., pn = D of
parent links, the default `build_event_chain` returns exactly the entries
(p_i, event) of the widgets of the path, W and D included, that have a pre or
post handler for the event, in the order of the path. -/
theorem build_event_chain_default_along_path {σ : Type} (T : signal_function_type)
    (t : widget_tree σ) (event : ui_event) (W D : widget) (rest : List widget) (fuel : Nat)
    (hT1 : T ≠ .notification) (hT2 : T ≠ .message)
    (hpath : follows_parents t W rest) (hlast : (W :: rest).getLast? = some D)
    (hnodup : (W :: rest).Nodup) (hfuel : rest.length < fuel) :
    implementation.build_event_chain T t fuel event (some D) (some W) =
      .ok (((W :: rest).filter
        (fun p => t.has_event p event implementation.pre_or_post)).map (fun p => (p, event))) := by
  rw [build_event_chain_of_default T t fuel event _ _ hT1 hT2]
  simpa [implementation.build_event_chain_default] using
    build_event_chain_loop_path t event D rest W [] fuel hpath hlast hnodup hfuel

/-- Scenario A: the default chain of W with dispatcher D is [W, C2, C1, D]. -/
theorem build_event_chain_default_along_path_witness :
    follows_parents scenario_a 3 [2, 1, 0] ∧
    implementation.build_event_chain .general scenario_a 4 7 (some 0) (some 3) =
      .ok [(3, 7), (2, 7), (1, 7), (0, 7)] := by
  have hpath : follows_parents scenario_a 3 [2, 1, 0] := ⟨rfl, rfl, rfl, trivial⟩
  refine ⟨hpath, ?_⟩
  rw [build_event_chain_default_along_path .general scenario_a 7 3 0 [2, 1, 0] 4
    (by decide) (by decide) hpath (by decide) (by decide) (by decide)]
  decide

/-- C4: called with dispatcher == target W, where following parent links from
W meets p1, ..., pn and pn (or W itself when n = 0) has no parent, the message
variant of `build_event_chain` returns exactly the entries (p_i, event) of
the proper ancestors that have a pre or post handler for the event, the root
first and the nearest ancestor of W last; W itself is not in the chain. -/
theorem build_event_chain_message_ancestors {σ : Type} (t : widget_tree σ) (event : ui_event)
    (W R : widget) (rest : List widget) (fuel : Nat)
    (hpath : follows_parents t W rest) (hlast : (W :: rest).getLast? = some R)
    (hroot : t.parent R = none) (hfuel : rest.length < fuel) :
    implementation.build_event_chain .message t fuel event (some W) (some W) =
      .ok ((rest.filter (fun p => t.has_event p event implementation.pre_or_post)).map
        (fun p => (p, event))).reverse := by
  simpa [implementation.build_event_chain, implementation.build_event_chain_message] using
    build_event_chain_message_loop_path t event R rest W [] fuel hpath hlast hroot hfuel

/-- Scenario B: the message chain of W is [D, C1, C2]. -/
theorem build_event_chain_message_ancestors_witness :
    follows_parents scenario_a 3 [2, 1, 0] ∧ scenario_a.parent 0 = none ∧
    implementation.build_event_chain .message scenario_a 4 7 (some 3) (some 3) =
      .ok [(0, 7), (1, 7), (2, 7)] := by
  have hpath : follows_parents scenario_a 3 [2, 1, 0] := ⟨rfl, rfl, rfl, trivial⟩
  refine ⟨hpath, rfl, ?_⟩
  rw [build_event_chain_message_ancestors scenario_a 7 3 0 [2, 1, 0] 4
    hpath (by decide) rfl (by decide)]
  decide

/-- C5: for a non-null dispatcher and target, the notification variant of
`build_event_chain` fails its assertion if and only if the target
`has_event(event, pre|post)`, and returns the empty chain whenever it does
not fail, whatever handlers the ancestors have. -/
theorem build_event_chain_notification_contract {σ : Type} (t : widget_tree σ) (fuel : Nat)
    (event : ui_event) (d w : widget) :
    (implementation.build_event_chain .notification t fuel event (some d) (some w)
        = .assertion_failed ↔ t.has_event w event implementation.pre_or_post = true) ∧
    (implementation.build_event_chain .notification t fuel event (some d) (some w)
        ≠ .assertion_failed →
      implementation.build_event_chain .notification t fuel event (some d) (some w) = .ok []) := by
  by_cases h : t.has_event w event implementation.pre_or_post = true <;>
    simp [implementation.build_event_chain, implementation.build_event_chain_notification, h]

/-- C7: when D is reached from W along the path W = p0, p1, ..., pn = D of
parent links, the chain `fire_event_double_click` builds lists, for the proper
ancestors p1, ..., pn in this order, (p_i, double_click) when p_i wants the
double click and has a pre or post handler for it, (p_i, click) when p_i does
not want it and has a pre or post handler for the click, and nothing
otherwise; an ancestor that wants the double click and has no pre or post
handler for it is in no entry. -/
theorem double_click_chain_along_path {σ : Type} (t : widget_tree σ) (click double_click : ui_event)
    (wants_double_click : widget → Bool) (W D : widget) (rest : List widget) (fuel : Nat)
    (hpath : follows_parents t W rest) (hlast : (W :: rest).getLast? = some D)
    (hnodup : (W :: rest).Nodup) (hfuel : rest.length < fuel) :
    double_click_chain t click double_click wants_double_click fuel (some D) (some W) =
      .ok (rest.filterMap (double_click_entry t click double_click wants_double_click)) ∧
    ∀ p ∈ rest, wants_double_click p = true →
      t.has_event p double_click implementation.pre_or_post = false →
      ∀ e, (p, e) ∉ rest.filterMap (double_click_entry t click double_click wants_double_click) := by
  constructor
  · simpa [double_click_chain] using
      double_click_chain_loop_path t click double_click wants_double_click D rest W [] fuel
        hpath hlast hnodup hfuel
  · intro p _ hw hev e hmem
    obtain ⟨a, _, ha⟩ := List.mem_filterMap.mp hmem
    have hap : a = p := by
      unfold double_click_entry at ha
      split at ha <;> split at ha <;> simp at ha <;> exact ha.1
    subst hap
    simp [double_click_entry, hw, hev] at ha

/-- Scenario C: A contributes (A, double_click), C2 contributes (C2, click),
and D, which wants the double click but has click handlers only, nothing. -/
theorem double_click_chain_along_path_witness :
    follows_parents scenario_c 3 [2, 1, 0] ∧
    double_click_chain scenario_c 1 2 scenario_c_wants 4 (some 0) (some 3) =
      .ok [(2, 1), (1, 2)] ∧
    ∀ e, (0, e) ∉ [((2 : widget), (1 : ui_event)), (1, 2)] := by
  have hpath : follows_parents scenario_c 3 [2, 1, 0] := ⟨rfl, rfl, rfl, trivial⟩
  have h := double_click_chain_along_path scenario_c 1 2 scenario_c_wants 3 0 [2, 1, 0] 4
    hpath (by decide) (by decide) (by decide)
  have hc : List.filterMap (double_click_entry scenario_c 1 2 scenario_c_wants) [2, 1, 0] =
      [(2, 1), (1, 2)] := by decide
  rw [hc] at h
  exact ⟨hpath, h.1, h.2 0 (by decide) (by decide) (by decide)⟩

/-! ## What one handler list adds to the log -/

theorem invoke_handlers_run {σ : Type} (d : widget) (ph : phase) (w : widget) (e : ui_event)
    (hs : List (handler σ)) (st : fire_state σ) :
    ∃ ext, (implementation.invoke_handlers d ph w e hs st).state.log = st.log ++ ext ∧
      (∀ r ∈ ext, r.phase = ph ∧ r.widget = w ∧ r.event = e) ∧
      ext.map (fun r => r.handler) <+: hs.map (fun h => h.name) ∧
      (∀ r ∈ ext.dropLast, r.halt_out = false) ∧
      (ext.length < hs.length → ∃ r, ext.getLast? = some r ∧ r.halt_out = true) ∧
      (∀ r ∈ ext, r.halt_out = true → r.handled_out = false →
        ∃ st1, implementation.invoke_handlers d ph w e hs st = .assertion_failed st1) := by
  induction hs generalizing st with
  | nil =>
    exact ⟨[], by simp [implementation.invoke_handlers, phase_result.state]⟩
  | cons f rest ih =>
    rw [invoke_handlers_cons]
    by_cases hl : (implementation.call_handler d ph w e f st).halt = true
    · have hsingle : ∀ r ∈ [implementation.call_record d ph w e f st],
          r.phase = ph ∧ r.widget = w ∧ r.event = e := by
        intro r hr
        rw [List.mem_singleton] at hr
        subst hr
        exact ⟨rfl, rfl, rfl⟩
      have hpre : [implementation.call_record d ph w e f st].map (fun r => r.handler)
          <+: (f :: rest).map (fun h => h.name) := by
        simp only [List.map_cons, List.map_nil]
        exact List.cons_prefix_cons.mpr ⟨rfl, List.nil_prefix⟩
      refine ⟨[implementation.call_record d ph w e f st], ?_, hsingle, hpre, by simp, ?_, ?_⟩
      · by_cases hh : (implementation.call_handler d ph w e f st).handled = true <;>
          simp [hl, hh, phase_result.state, call_handler_log]
      · intro _
        exact ⟨_, rfl, hl⟩
      · intro r hr _ hunh
        rw [List.mem_singleton] at hr
        subst hr
        have hh : (implementation.call_handler d ph w e f st).handled = false := hunh
        exact ⟨implementation.call_handler d ph w e f st, by simp [hl, hh]⟩
    · obtain ⟨ext, hlog, hkeys, hpre, hdrop, hcut, hfail⟩ :=
        ih (implementation.call_handler d ph w e f st)
      rw [if_neg hl]
      have hl2 : (implementation.call_record d ph w e f st).halt_out = false := by
        simpa using hl
      refine ⟨implementation.call_record d ph w e f st :: ext, ?_, ?_, ?_, ?_, ?_, ?_⟩
      · rw [hlog, call_handler_log]
        simp
      · intro r hr
        rcases List.mem_cons.mp hr with hr | hr
        · subst hr
          exact ⟨rfl, rfl, rfl⟩
        · exact hkeys r hr
      · simp only [List.map_cons]
        exact List.cons_prefix_cons.mpr ⟨rfl, hpre⟩
      · intro r hr
        by_cases hne : ext = []
        · subst hne
          simp at hr
        · rw [List.dropLast_cons_of_ne_nil hne] at hr
          rcases List.mem_cons.mp hr with hr | hr
          · subst hr
            exact hl2
          · exact hdrop r hr
      · intro hlen
        have hlen2 : ext.length < rest.length := by
          simp only [List.length_cons] at hlen
          omega
        obtain ⟨r, hr, hrl⟩ := hcut hlen2
        refine ⟨r, ?_, hrl⟩
        cases ext with
        | nil => simp at hr
        | cons a l => rw [List.getLast?_cons_cons]; exact hr
      · intro r hr hrl hrh
        rcases List.mem_cons.mp hr with hr | hr
        · subst hr
          rw [hl2] at hrl
          exact absurd hrl (by decide)
        · exact hfail r hr hrl hrh

theorem fire_signal_assertion_failed_iff {σ : Type} (T : signal_function_type)
    (t : widget_tree σ) (d : widget) (ph : phase) (w : widget) (e : ui_event)
    (st : fire_state σ) :
    (∃ st1, implementation.invoke_handlers d ph w e ((t.event_signal T w e).handlers ph) st =
        .assertion_failed st1) →
    ∃ st1, implementation.fire_signal T t d ph w e st = .assertion_failed st1 := by
  rintro ⟨st1, h⟩
  exact ⟨st1, by simp [implementation.fire_signal, h]⟩

theorem fire_signals_run {σ : Type} (T : signal_function_type) (t : widget_tree σ) (d : widget)
    (gs : List (phase × widget × ui_event)) (st : fire_state σ) :
    ∃ ext, (fire_signals T t d gs st).state.log = st.log ++ ext ∧
      (∀ r ∈ ext, ∃ g ∈ gs, r.phase = g.1 ∧ r.widget = g.2.1 ∧ r.event = g.2.2 ∧
        ∃ h ∈ (t.event_signal T g.2.1 g.2.2).handlers g.1, r.handler = h.name) ∧
      (∀ r ∈ ext, r.halt_out = true → r.handled_out = false →
        ∃ st1, fire_signals T t d gs st = .assertion_failed st1) := by
  induction gs generalizing st with
  | nil => exact ⟨[], by simp [fire_signals, phase_result.state]⟩
  | cons g rest ih =>
    obtain ⟨ext, hlog, hkeys, hpre, _, _, hfail⟩ :=
      invoke_handlers_run d g.1 g.2.1 g.2.2 ((t.event_signal T g.2.1 g.2.2).handlers g.1) st
    rw [← fire_signal_state] at hlog
    have hname : ∀ r ∈ ext, ∃ g1 ∈ g :: rest, r.phase = g1.1 ∧ r.widget = g1.2.1 ∧
        r.event = g1.2.2 ∧
        ∃ h ∈ (t.event_signal T g1.2.1 g1.2.2).handlers g1.1, r.handler = h.name := by
      intro r hr
      obtain ⟨k1, k2, k3⟩ := hkeys r hr
      have hm : r.handler ∈ ((t.event_signal T g.2.1 g.2.2).handlers g.1).map (fun h => h.name) :=
        hpre.subset (List.mem_map.mpr ⟨r, hr, rfl⟩)
      obtain ⟨h, hh, hhn⟩ := List.mem_map.mp hm
      exact ⟨g, List.mem_cons_self _ _, k1, k2, k3, h, hh, hhn.symm⟩
    simp only [fire_signals]
    cases hres : implementation.fire_signal T t d g.1 g.2.1 g.2.2 st with
    | completed st1 =>
      rw [hres] at hlog
      simp only [phase_result.state] at hlog
      obtain ⟨ext2, hlog2, hkeys2, hfail2⟩ := ih st1
      refine ⟨ext ++ ext2, by simp only [hlog2, hlog, List.append_assoc], ?_, ?_⟩
      · intro r hr
        rcases List.mem_append.mp hr with hr | hr
        · exact hname r hr
        · obtain ⟨g1, hg1, rest1⟩ := hkeys2 r hr
          exact ⟨g1, List.mem_cons_of_mem _ hg1, rest1⟩
      · intro r hr hrl hrh
        rcases List.mem_append.mp hr with hr | hr
        · obtain ⟨st2, h2⟩ := fire_signal_assertion_failed_iff T t d g.1 g.2.1 g.2.2 st
            (hfail r hr hrl hrh)
          rw [hres] at h2
          cases h2
        · exact hfail2 r hr hrl hrh
    | returned_true st1 =>
      rw [hres] at hlog
      refine ⟨ext, hlog, hname, ?_⟩
      intro r hr hrl hrh
      obtain ⟨st2, h2⟩ := fire_signal_assertion_failed_iff T t d g.1 g.2.1 g.2.2 st
        (hfail r hr hrl hrh)
      rw [hres] at h2
      cases h2
    | assertion_failed st1 =>
      rw [hres] at hlog
      exact ⟨ext, hlog, hname, fun _ _ _ _ => ⟨st1, rfl⟩⟩

theorem mem_schedule {σ : Type} (t : widget_tree σ) (event : ui_event)
    (c : List (widget × ui_event)) (w : widget) (g : phase × widget × ui_event) :
    g ∈ schedule t event c w ↔
      (g.1 = phase.pre_child ∧ (g.2.1, g.2.2) ∈ c) ∨
      (g = (phase.child, w, event) ∧ t.has_event w event dispatcher.child = true) ∨
      (g.1 = phase.post_child ∧ (g.2.1, g.2.2) ∈ c) := by
  obtain ⟨ph, gw, ge⟩ := g
  unfold schedule
  by_cases h : t.has_event w event dispatcher.child = true
  · simp only [h, if_true, List.mem_append, List.mem_map, List.mem_reverse, List.mem_singleton,
      Prod.mk.injEq, Prod.exists]
    constructor
    · rintro ((⟨a, b, hab, rfl, rfl, rfl⟩ | h1) | ⟨a, b, hab, rfl, rfl, rfl⟩)
      · exact Or.inl ⟨rfl, hab⟩
      · exact Or.inr (Or.inl ⟨h1, trivial⟩)
      · exact Or.inr (Or.inr ⟨rfl, hab⟩)
    · rintro (⟨h1, h2⟩ | ⟨h1, _⟩ | ⟨h1, h2⟩)
      · exact Or.inl (Or.inl ⟨gw, ge, h2, h1.symm, rfl, rfl⟩)
      · exact Or.inl (Or.inr h1)
      · exact Or.inr ⟨gw, ge, h2, h1.symm, rfl, rfl⟩
  · simp only [h, if_false, List.mem_append, List.mem_map, List.mem_reverse, List.not_mem_nil,
      Prod.mk.injEq, Prod.exists, or_false, Bool.false_eq_true, and_false, false_or]
    constructor
    · rintro (⟨a, b, hab, rfl, rfl, rfl⟩ | ⟨a, b, hab, rfl, rfl, rfl⟩)
      · exact Or.inl ⟨rfl, hab⟩
      · exact Or.inr ⟨rfl, hab⟩
    · rintro (⟨h1, h2⟩ | ⟨h1, h2⟩)
      · exact Or.inl ⟨gw, ge, h2, h1.symm, rfl, rfl⟩
      · exact Or.inr ⟨gw, ge, h2, h1.symm, rfl, rfl⟩

/-! ## What a run of `fire_event` logs -/

theorem fire_event_log_sound {σ : Type} (T : signal_function_type) (t : widget_tree σ)
    (event : ui_event) (c : List (widget × ui_event)) (d w : widget) (s : σ) :
    ∀ r ∈ (implementation.fire_event T t event c d w s).log,
      ∃ g ∈ schedule t event c w, r.phase = g.1 ∧ r.widget = g.2.1 ∧ r.event = g.2.2 ∧
        ∃ h ∈ (t.event_signal T g.2.1 g.2.2).handlers g.1, r.handler = h.name := by
  intro r hr
  rw [fire_event_eq_conclude, conclude_log] at hr
  obtain ⟨ext, hlog, hkeys, _⟩ :=
    fire_signals_run T t d (schedule t event c w) ⟨false, false, s, []⟩
  rw [hlog] at hr
  exact hkeys r (by simpa using hr)

theorem fire_event_log_cases {σ : Type} (T : signal_function_type) (t : widget_tree σ)
    (event : ui_event) (c : List (widget × ui_event)) (d w : widget) (s : σ) :
    ∀ r ∈ (implementation.fire_event T t event c d w s).log,
      (r.phase = phase.child ∧ r.widget = w ∧ r.event = event ∧
        t.has_event w event dispatcher.child = true ∧
        ∃ h ∈ (t.event_signal T w event).child, r.handler = h.name) ∨
      (r.phase ≠ phase.child ∧ (r.widget, r.event) ∈ c) := by
  intro r hr
  obtain ⟨g, hg, k1, k2, k3, h, hh, hn⟩ := fire_event_log_sound T t event c d w s r hr
  rcases (mem_schedule t event c w g).mp hg with ⟨h1, h2⟩ | ⟨h1, h2⟩ | ⟨h1, h2⟩
  · right
    rw [k1, k2, k3, h1]
    exact ⟨by decide, h2⟩
  · left
    subst h1
    exact ⟨k1, k2, k3, h2, h, hh, hn⟩
  · right
    rw [k1, k2, k3, h1]
    exact ⟨by decide, h2⟩

theorem fire_event_halt_unhandled {σ : Type} (T : signal_function_type) (t : widget_tree σ)
    (event : ui_event) (c : List (widget × ui_event)) (d w : widget) (s : σ) :
    ∀ r ∈ (implementation.fire_event T t event c d w s).log,
      r.halt_out = true → r.handled_out = false →
      (implementation.fire_event T t event c d w s).outcome = .assertion_failed := by
  intro r hr hl hh
  rw [fire_event_eq_conclude] at hr ⊢
  rw [conclude_log] at hr
  obtain ⟨ext, hlog, _, hfail⟩ :=
    fire_signals_run T t d (schedule t event c w) ⟨false, false, s, []⟩
  rw [hlog] at hr
  obtain ⟨st1, h1⟩ := hfail r (by simpa using hr) hl hh
  rw [h1]
  rfl

theorem fire_event_quiet_of_unhandled {σ : Type} (T : signal_function_type) (t : widget_tree σ)
    (event : ui_event) (c : List (widget × ui_event)) (d w : widget) (s : σ)
    (hu : ∀ r ∈ (implementation.fire_event T t event c d w s).log, r.handled_out = false)
    (hok : (implementation.fire_event T t event c d w s).outcome ≠ .assertion_failed) :
    ∀ r ∈ (implementation.fire_event T t event c d w s).log,
      r.handled_out = false ∧ r.halt_out = false := by
  intro r hr
  refine ⟨hu r hr, ?_⟩
  by_contra hl
  have hl2 : r.halt_out = true := by simpa using hl
  exact hok (fire_event_halt_unhandled T t event c d w s r hr hl2 (hu r hr))

theorem mem_quiet_log {σ : Type} (T : signal_function_type) (t : widget_tree σ)
    (gs : List (phase × widget × ui_event)) (g : phase × widget × ui_event) (h : handler σ)
    (hg : g ∈ gs) (hh : h ∈ (t.event_signal T g.2.1 g.2.2).handlers g.1) :
    quiet_record g.1 g.2.1 g.2.2 h ∈ gs.flatMap (quiet_records T t) :=
  List.mem_flatMap.mpr ⟨g, hg, List.mem_map.mpr ⟨h, hh, rfl⟩⟩

/-- In a run in which no handler touches the flags, every pre and post handler
of every chain entry is invoked. -/
theorem fire_event_quiet_invokes_entry {σ : Type} (T : signal_function_type) (t : widget_tree σ)
    (event : ui_event) (c : List (widget × ui_event)) (d w : widget) (s : σ)
    (hq : ∀ r ∈ (implementation.fire_event T t event c d w s).log,
      r.handled_out = false ∧ r.halt_out = false)
    (a : widget) (e : ui_event) (ha : (a, e) ∈ c) :
    (∀ h ∈ (t.event_signal T a e).pre_child,
      quiet_record phase.pre_child a e h ∈ (implementation.fire_event T t event c d w s).log) ∧
    (∀ h ∈ (t.event_signal T a e).post_child,
      quiet_record phase.post_child a e h ∈ (implementation.fire_event T t event c d w s).log) := by
  obtain ⟨s1, hs1⟩ := fire_event_quiet T t event c d w s hq
  rw [hs1]
  constructor
  · intro h hh
    exact mem_quiet_log T t _ (phase.pre_child, a, e) h
      ((mem_schedule t event c w _).mpr (Or.inl ⟨rfl, ha⟩)) hh
  · intro h hh
    exact mem_quiet_log T t _ (phase.post_child, a, e) h
      ((mem_schedule t event c w _).mpr (Or.inr (Or.inr ⟨rfl, ha⟩))) hh

/-! ## The double click -/

theorem double_click_entry_fst {σ : Type} (t : widget_tree σ) (click double_click : ui_event)
    (wants_double_click : widget → Bool) (a : widget) (x : widget × ui_event)
    (h : double_click_entry t click double_click wants_double_click a = some x) : x.1 = a := by
  unfold double_click_entry at h
  split at h <;> split at h <;> simp at h <;> rw [← h]

theorem fire_event_double_click_of_chain {σ : Type} (click double_click : ui_event)
    (wants_double_click : widget → Bool) (T : signal_function_type) (t : widget_tree σ)
    (fuel : Nat) (d w : widget) (s : σ) (chain : List (widget × ui_event))
    (hchain : double_click_chain t click double_click wants_double_click fuel (some d) (some w)
      = .ok chain) :
    fire_event_double_click click double_click wants_double_click T t fuel (some d) (some w) s =
      implementation.fire_event T t (if wants_double_click w = true then double_click else click)
        chain d w s := by
  unfold fire_event_double_click
  simp only [hchain]
  by_cases hw : wants_double_click w = true <;> simp [hw]

theorem double_click_chain_loop_members {σ : Type} (t : widget_tree σ)
    (click double_click : ui_event) (wants_double_click : widget → Bool) (D : widget)
    (rest : List widget) (W : widget) (acc chain : List (widget × ui_event)) (fuel : Nat)
    (hpath : follows_parents t W rest) (hlast : (W :: rest).getLast? = some D)
    (h : double_click_chain_loop t click double_click wants_double_click D fuel W acc = .ok chain) :
    ∀ x ∈ chain, x ∈ acc ∨ x.1 ∈ rest := by
  induction rest generalizing W acc fuel with
  | nil =>
    have hW := path_singleton_last hlast
    subst hW
    cases fuel with
    | zero => simp [double_click_chain_loop] at h
    | succ k =>
      simp only [double_click_chain_loop, if_true, chain_result.ok.injEq] at h
      subst h
      exact fun x hx => Or.inl hx
  | cons p rest ih =>
    cases fuel with
    | zero => simp [double_click_chain_loop] at h
    | succ k =>
      by_cases hWD : W = D
      · simp only [double_click_chain_loop, hWD, if_true, chain_result.ok.injEq] at h
        subst h
        exact fun x hx => Or.inl hx
      · have hpar : t.parent W = some p := hpath.1
        rw [List.getLast?_cons_cons] at hlast
        simp only [double_click_chain_loop, hWD, if_false, hpar] at h
        intro x hx
        rcases ih p _ k hpath.2 hlast h x hx with hacc | hrest
        · have hx2 : x ∈ acc ∨ x.1 = p := by
            split at hacc
            · split at hacc
              · rcases List.mem_append.mp hacc with h1 | h1
                · exact Or.inl h1
                · right
                  rw [List.mem_singleton] at h1
                  rw [h1]
              · exact Or.inl hacc
            · split at hacc
              · rcases List.mem_append.mp hacc with h1 | h1
                · exact Or.inl h1
                · right
                  rw [List.mem_singleton] at h1
                  rw [h1]
              · exact Or.inl hacc
          rcases hx2 with h1 | h1
          · exact Or.inl h1
          · exact Or.inr (h1 ▸ List.mem_cons_self _ _)
        · exact Or.inr (List.mem_cons_of_mem _ hrest)

/-- C8: `fire_event_double_click` is the chain-taking `fire_event` applied to
the ancestor chain with the nominal event, which is double_click when the
target wants the double click and click otherwise; so a child handler runs
only on the target, for the nominal event, when the target
`has_event(nominal, child)`, and is one of the target's child handlers of the
nominal event. -/
theorem fire_event_double_click_nominal_event {σ : Type} (click double_click : ui_event)
    (wants_double_click : widget → Bool) (T : signal_function_type) (t : widget_tree σ)
    (fuel : Nat) (d w : widget) (s : σ) (chain : List (widget × ui_event))
    (hchain : double_click_chain t click double_click wants_double_click fuel (some d) (some w)
      = .ok chain) :
    fire_event_double_click click double_click wants_double_click T t fuel (some d) (some w) s =
      implementation.fire_event T t (if wants_double_click w = true then double_click else click)
        chain d w s ∧
    ∀ r ∈ (fire_event_double_click click double_click wants_double_click T t fuel
        (some d) (some w) s).log,
      r.phase = phase.child →
        r.widget = w ∧
        r.event = (if wants_double_click w = true then double_click else click) ∧
        t.has_event w (if wants_double_click w = true then double_click else click)
          dispatcher.child = true ∧
        ∃ h ∈ (t.event_signal T w
            (if wants_double_click w = true then double_click else click)).child,
          r.handler = h.name := by
  have heq := fire_event_double_click_of_chain click double_click wants_double_click T t fuel
    d w s chain hchain
  refine ⟨heq, ?_⟩
  intro r hr hph
  rw [heq] at hr
  rcases fire_event_log_cases T t _ chain d w s r hr with h1 | h1
  · exact h1.2
  · exact absurd hph h1.1

/-- Scenario C: the target W does not want the double click, so the run is the
chain-taking `fire_event` for the click over the chain [(C2, click),
(A, double_click)], and the child handler invoked is the click child handler
of W. -/
theorem fire_event_double_click_nominal_event_witness :
    double_click_chain scenario_c 1 2 scenario_c_wants 4 (some 0) (some 3)
      = .ok [(2, 1), (1, 2)] ∧
    fire_event_double_click 1 2 scenario_c_wants .mouse scenario_c 4 (some 0) (some 3) () =
      implementation.fire_event .mouse scenario_c 1 [(2, 1), (1, 2)] 0 3 () ∧
    (fire_event_double_click 1 2 scenario_c_wants .mouse scenario_c 4 (some 0) (some 3) ()).log.map
      (fun r => (r.phase, r.widget, r.event, r.handler)) =
      [(phase.pre_child, 1, 2, 211), (phase.child, 3, 1, 132),
       (phase.post_child, 2, 1, 123), (phase.post_child, 1, 2, 213)] := by
  have hchain : double_click_chain scenario_c 1 2 scenario_c_wants 4 (some 0) (some 3)
      = .ok [(2, 1), (1, 2)] := by decide
  have h := fire_event_double_click_nominal_event 1 2 scenario_c_wants .mouse scenario_c 4 0 3 ()
    [(2, 1), (1, 2)] hchain
  refine ⟨hchain, h.1, ?_⟩
  rw [h.1]
  decide

/-- C9: when D is reached from W along a path of parent links on which no
widget occurs twice, `fire_event_double_click` invokes no pre or post handler
taken from W: whatever it invokes on W is in the child phase.  The default
`fire_event` on the same W, with enough fuel to walk the path, puts W in its
chain when W `has_event(event, pre|post)`, and in a run in which no handler
sets `handled` or `halt` it invokes all pre and all post handlers of W. -/
theorem double_click_skips_target_pre_post {σ : Type} (click double_click : ui_event)
    (wants_double_click : widget → Bool) (T : signal_function_type) (t : widget_tree σ)
    (W D : widget) (rest : List widget) (fuel : Nat) (s : σ)
    (hpath : follows_parents t W rest) (hlast : (W :: rest).getLast? = some D)
    (hnodup : (W :: rest).Nodup) :
    (∀ r ∈ (fire_event_double_click click double_click wants_double_click T t fuel
        (some D) (some W) s).log, r.widget = W → r.phase = phase.child) ∧
    (∀ event : ui_event, T ≠ .notification → T ≠ .message → rest.length < fuel →
      t.has_event W event implementation.pre_or_post = true →
      (∀ r ∈ (fire_event T t fuel event (some D) (some W) s).log,
        r.handled_out = false ∧ r.halt_out = false) →
      (∀ h ∈ (t.event_signal T W event).pre_child,
        quiet_record phase.pre_child W event h ∈
          (fire_event T t fuel event (some D) (some W) s).log) ∧
      (∀ h ∈ (t.event_signal T W event).post_child,
        quiet_record phase.post_child W event h ∈
          (fire_event T t fuel event (some D) (some W) s).log)) := by
  constructor
  · intro r hr hrw
    cases hres : double_click_chain t click double_click wants_double_click fuel
        (some D) (some W) with
    | ok chain =>
      rw [fire_event_double_click_of_chain click double_click wants_double_click T t fuel
        D W s chain hres] at hr
      rcases fire_event_log_cases T t _ chain D W s r hr with h1 | h1
      · exact h1.1
      · have hmem := double_click_chain_loop_members t click double_click wants_double_click D
          rest W [] chain fuel hpath hlast (by simpa [double_click_chain] using hres) _ h1.2
        rcases hmem with h2 | h2
        · simp at h2
        · simp only [hrw] at h2
          exact absurd h2 (List.nodup_cons.mp hnodup).1
    | assertion_failed => simp [fire_event_double_click, hres] at hr
    | out_of_fuel => simp [fire_event_double_click, hres] at hr
  · intro event hT1 hT2 hfuel hev hq
    have hchain : implementation.build_event_chain T t fuel event (some D) (some W) =
        .ok (((W :: rest).filter
          (fun p => t.has_event p event implementation.pre_or_post)).map
            (fun p => (p, event))) := by
      rw [build_event_chain_of_default T t fuel event _ _ hT1 hT2]
      simpa [implementation.build_event_chain_default] using
        build_event_chain_loop_path t event D rest W [] fuel hpath hlast hnodup hfuel
    have heq : fire_event T t fuel event (some D) (some W) s =
        implementation.fire_event T t event (((W :: rest).filter
          (fun p => t.has_event p event implementation.pre_or_post)).map
            (fun p => (p, event))) D W s := by
      simp only [fire_event, hchain]
    rw [heq] at hq ⊢
    exact fire_event_quiet_invokes_entry T t event _ D W s hq W event
      (List.mem_map.mpr ⟨W, List.mem_filter.mpr ⟨List.mem_cons_self _ _, hev⟩, rfl⟩)

/-- Scenario C: the double click run invokes nothing but the child handler on
W, and the default `fire_event` for the click invokes the pre and the post
handler of W. -/
theorem double_click_skips_target_pre_post_witness :
    follows_parents scenario_c 3 [2, 1, 0] ∧
    (∀ r ∈ (fire_event_double_click 1 2 scenario_c_wants .mouse scenario_c 4
        (some 0) (some 3) ()).log, r.widget = 3 → r.phase = phase.child) ∧
    quiet_record phase.pre_child 3 1 (noop_handler 131) ∈
      (fire_event .mouse scenario_c 4 1 (some 0) (some 3) ()).log ∧
    quiet_record phase.post_child 3 1 (noop_handler 133) ∈
      (fire_event .mouse scenario_c 4 1 (some 0) (some 3) ()).log := by
  have hpath : follows_parents scenario_c 3 [2, 1, 0] := ⟨rfl, rfl, rfl, trivial⟩
  have h := double_click_skips_target_pre_post 1 2 scenario_c_wants .mouse scenario_c 3 0
    [2, 1, 0] 4 () hpath (by decide) (by decide)
  have h2 := h.2 1 (by decide) (by decide) (by decide) (by decide) (by decide)
  exact ⟨hpath, h.1, h2.1 (noop_handler 131) (List.mem_cons_self _ _),
    h2.2 (noop_handler 133) (List.mem_cons_self _ _)⟩

/-! ## The flags and the last logged call -/

theorem last_handled_concat (l : List invocation) (r : invocation) :
    last_handled (l ++ [r]) = r.handled_out := by
  simp [last_handled]

theorem last_halt_concat (l : List invocation) (r : invocation) :
    last_halt (l ++ [r]) = r.halt_out := by
  simp [last_halt]

theorem last_handled_append_all (a b : List invocation) (hb : b ≠ [])
    (hall : ∀ y ∈ b, y.handled_out = true) : last_handled (a ++ b) = true := by
  unfold last_handled
  rw [List.getLast?_append_of_ne_nil a hb]
  cases hl : b.getLast? with
  | none => exact absurd (List.getLast?_eq_none_iff.mp hl) hb
  | some r => exact hall r (List.mem_of_getLast?_eq_some hl)

theorem call_handler_flags {σ : Type} (d : widget) (ph : phase) (w : widget) (e : ui_event)
    (f : handler σ) (st : fire_state σ) :
    flags_follow_log (implementation.call_handler d ph w e f st) := by
  unfold flags_follow_log
  rw [call_handler_log, last_handled_concat, last_halt_concat]
  exact ⟨rfl, rfl⟩

theorem invoke_handlers_flags {σ : Type} (d : widget) (ph : phase) (w : widget) (e : ui_event)
    (hs : List (handler σ)) (st : fire_state σ) (hf : flags_follow_log st) :
    flags_follow_log (implementation.invoke_handlers d ph w e hs st).state := by
  induction hs generalizing st with
  | nil => exact hf
  | cons f rest ih =>
    rw [invoke_handlers_cons]
    split
    · split
      · exact call_handler_flags d ph w e f st
      · exact call_handler_flags d ph w e f st
    · exact ih _ (call_handler_flags d ph w e f st)

theorem invoke_handlers_assertion_failed_flags {σ : Type} (d : widget) (ph : phase) (w : widget)
    (e : ui_event) (hs : List (handler σ)) (st st1 : fire_state σ)
    (h : implementation.invoke_handlers d ph w e hs st = .assertion_failed st1) :
    st1.handled = false ∧ st1.halt = true := by
  induction hs generalizing st with
  | nil => simp [implementation.invoke_handlers] at h
  | cons f rest ih =>
    rw [invoke_handlers_cons] at h
    split at h
    · rename_i hl
      split at h
      · cases h
      · rename_i hh
        simp only [phase_result.assertion_failed.injEq] at h
        subst h
        exact ⟨by simpa using hh, hl⟩
    · exact ih _ h

theorem fire_signal_result_flags {σ : Type} (T : signal_function_type) (t : widget_tree σ)
    (d : widget) (ph : phase) (w : widget) (e : ui_event) (st st1 : fire_state σ) :
    (implementation.fire_signal T t d ph w e st = .completed st1 → st1.handled = false) ∧
    (implementation.fire_signal T t d ph w e st = .returned_true st1 → st1.handled = true) ∧
    (implementation.fire_signal T t d ph w e st = .assertion_failed st1 →
      st1.handled = false ∧ st1.halt = true) := by
  unfold implementation.fire_signal
  cases hres : implementation.invoke_handlers d ph w e ((t.event_signal T w e).handlers ph) st with
  | completed st2 =>
    by_cases hh : st2.handled = true
    · simp only []
      rw [if_pos hh]
      refine ⟨(fun h => by cases h), fun h => ?_, (fun h => by cases h)⟩
      simp only [phase_result.returned_true.injEq] at h
      rw [← h]
      exact hh
    · simp only []
      rw [if_neg hh]
      refine ⟨fun h => ?_, (fun h => by cases h), (fun h => by cases h)⟩
      simp only [phase_result.completed.injEq] at h
      rw [← h]
      simpa using hh
  | returned_true st2 =>
    -- the inner loop never answers so
    exfalso
    have key : ∀ (hs : List (handler σ)) (st0 : fire_state σ),
        implementation.invoke_handlers d ph w e hs st0 ≠ .returned_true st2 := by
      intro hs
      induction hs with
      | nil => intro st0 h; simp [implementation.invoke_handlers] at h
      | cons f rest ih =>
        intro st0 h
        rw [invoke_handlers_cons] at h
        split at h
        · split at h <;> cases h
        · exact ih _ h
    exact key _ _ hres
  | assertion_failed st2 =>
    refine ⟨(fun h => by cases h), (fun h => by cases h), fun h => ?_⟩
    simp only [phase_result.assertion_failed.injEq] at h
    rw [← h]
    exact invoke_handlers_assertion_failed_flags d ph w e _ st st2 hres

/-- The state a run of the loop body over a list of signals is left with:
`handled` is clear unless the run returned true, and then the log ends with
calls of one signal that follow a state in which `handled` was clear. -/
theorem fire_signals_last_group {σ : Type} (T : signal_function_type) (t : widget_tree σ)
    (d : widget) (gs : List (phase × widget × ui_event)) (st : fire_state σ)
    (hf : flags_follow_log st) (hh : st.handled = false) (st1 : fire_state σ) :
    (fire_signals T t d gs st = .completed st1 → st1.handled = false ∧ flags_follow_log st1) ∧
    (fire_signals T t d gs st = .assertion_failed st1 →
      st1.handled = false ∧ flags_follow_log st1) ∧
    (fire_signals T t d gs st = .returned_true st1 →
      ∃ (L ext : List invocation) (g : phase × widget × ui_event), st1.log = L ++ ext ∧ last_handled L = false ∧
        (∀ r ∈ ext, r.phase = g.1 ∧ r.widget = g.2.1 ∧ r.event = g.2.2) ∧
        (∀ r ∈ ext.dropLast, r.halt_out = false)) := by
  induction gs generalizing st with
  | nil =>
    simp only [fire_signals]
    refine ⟨fun h => ?_, (fun h => by cases h), (fun h => by cases h)⟩
    simp only [phase_result.completed.injEq] at h
    rw [← h]
    exact ⟨hh, hf⟩
  | cons g rest ih =>
    have hflags := invoke_handlers_flags d g.1 g.2.1 g.2.2
      ((t.event_signal T g.2.1 g.2.2).handlers g.1) st hf
    rw [← fire_signal_state] at hflags
    obtain ⟨ext, hlog, hkeys, _, hdrop, _, _⟩ := invoke_handlers_run d g.1 g.2.1 g.2.2
      ((t.event_signal T g.2.1 g.2.2).handlers g.1) st
    rw [← fire_signal_state] at hlog
    have hres2 := fire_signal_result_flags T t d g.1 g.2.1 g.2.2 st
    simp only [fire_signals]
    cases hres : implementation.fire_signal T t d g.1 g.2.1 g.2.2 st with
    | completed st2 =>
      rw [hres] at hflags
      exact ih st2 hflags ((hres2 st2).1 hres)
    | returned_true st2 =>
      rw [hres] at hlog
      refine ⟨(fun h => by cases h), (fun h => by cases h), fun h => ?_⟩
      simp only [phase_result.returned_true.injEq] at h
      rw [← h]
      exact ⟨st.log, ext, g, hlog, by rw [← hf.1]; exact hh, hkeys, hdrop⟩
    | assertion_failed st2 =>
      rw [hres] at hflags
      refine ⟨(fun h => by cases h), fun h => ?_, (fun h => by cases h)⟩
      simp only [phase_result.assertion_failed.injEq] at h
      rw [← h]
      exact ⟨((hres2 st2).2.2 hres).1, hflags⟩

theorem handled_tail_in_last_group (L ext before after : List invocation) (x : invocation)
    (heq : L ++ ext = before ++ x :: after) (hL : last_handled L = false)
    (hall : ∀ y ∈ x :: after, y.handled_out = true) :
    ∃ c, ext = c ++ x :: after := by
  rcases List.append_eq_append_iff.mp heq with ⟨a1, _, h2⟩ | ⟨c1, h1, h2⟩
  · exact ⟨a1, h2⟩
  · cases c1 with
    | nil => exact ⟨[], by simpa using h2.symm⟩
    | cons z c2 =>
      exfalso
      have hsub : ∀ y ∈ z :: c2, y.handled_out = true := by
        intro y hy
        apply hall
        rw [h2]
        exact List.mem_append_left _ hy
      have := last_handled_append_all before (z :: c2) (by simp) hsub
      rw [← h1, hL] at this
      cases this

/-! ## The run ends with the list that leaves `handled` set -/

theorem fire_signals_stop {σ : Type} (T : signal_function_type) (t : widget_tree σ) (d : widget)
    (G1 : List (phase × widget × ui_event)) (g : phase × widget × ui_event)
    (G2 : List (phase × widget × ui_event)) (st st1 st2 : fire_state σ)
    (h1 : fire_signals T t d G1 st = .completed st1)
    (h2 : implementation.invoke_handlers d g.1 g.2.1 g.2.2
      ((t.event_signal T g.2.1 g.2.2).handlers g.1) st1 = .completed st2)
    (hh : st2.handled = true) :
    fire_signals T t d (G1 ++ g :: G2) st = .returned_true st2 := by
  rw [fire_signals_append, h1]
  simp [fire_signals, implementation.fire_signal, h2, hh]

/-- C6: the inner loop over one handler list invokes the handlers in
registration order and is cut short exactly at the first handler that returns
with `halt` set; and when `handled` is set at the end of the list of a chain
entry in the pre phase, of the target in the child phase, or of a chain entry
in the post phase, `fire_event` returns true with the log as it is then: no
handler of another chain entry and no later phase is run. -/
theorem fire_event_entry_protocol {σ : Type} (T : signal_function_type) (t : widget_tree σ)
    (event : ui_event) (event_chain : List (widget × ui_event)) (d w : widget) (s : σ) :
    (∀ (ph : phase) (a : widget) (e : ui_event) (hs : List (handler σ)) (st : fire_state σ),
      ∃ ext, (implementation.invoke_handlers d ph a e hs st).state.log = st.log ++ ext ∧
        (∀ r ∈ ext, r.phase = ph ∧ r.widget = a ∧ r.event = e) ∧
        ext.map (fun r => r.handler) <+: hs.map (fun h => h.name) ∧
        (∀ r ∈ ext.dropLast, r.halt_out = false) ∧
        (ext.length < hs.length → ∃ r, ext.getLast? = some r ∧ r.halt_out = true)) ∧
    (∀ (c1 : List (widget × ui_event)) (entry : widget × ui_event)
        (c2 : List (widget × ui_event)) (st1 st2 : fire_state σ),
      event_chain = c1 ++ entry :: c2 →
      implementation.fire_chain T t d phase.pre_child c2.reverse ⟨false, false, s, []⟩
        = .completed st1 →
      implementation.invoke_handlers d phase.pre_child entry.1 entry.2
        (t.event_signal T entry.1 entry.2).pre_child st1 = .completed st2 →
      st2.handled = true →
      implementation.fire_event T t event event_chain d w s =
        ⟨.returned true, st2.world, st2.log⟩) ∧
    (∀ (st1 st2 : fire_state σ),
      implementation.fire_chain T t d phase.pre_child event_chain.reverse ⟨false, false, s, []⟩
        = .completed st1 →
      t.has_event w event dispatcher.child = true →
      implementation.invoke_handlers d phase.child w event
        (t.event_signal T w event).child st1 = .completed st2 →
      st2.handled = true →
      implementation.fire_event T t event event_chain d w s =
        ⟨.returned true, st2.world, st2.log⟩) ∧
    (∀ (c1 : List (widget × ui_event)) (entry : widget × ui_event)
        (c2 : List (widget × ui_event)) (st1 st2 st3 st4 : fire_state σ),
      event_chain = c1 ++ entry :: c2 →
      implementation.fire_chain T t d phase.pre_child event_chain.reverse ⟨false, false, s, []⟩
        = .completed st1 →
      implementation.fire_child T t event d w st1 = .completed st2 →
      implementation.fire_chain T t d phase.post_child c1 st2 = .completed st3 →
      implementation.invoke_handlers d phase.post_child entry.1 entry.2
        (t.event_signal T entry.1 entry.2).post_child st3 = .completed st4 →
      st4.handled = true →
      implementation.fire_event T t event event_chain d w s =
        ⟨.returned true, st4.world, st4.log⟩) := by
  refine ⟨?_, ?_, ?_, ?_⟩
  · intro ph a e hs st
    obtain ⟨ext, h1, h2, h3, h4, h5, _⟩ := invoke_handlers_run d ph a e hs st
    exact ⟨ext, h1, h2, h3, h4, h5⟩
  · intro c1 entry c2 st1 st2 hc h1 h2 hh
    subst hc
    rw [fire_chain_eq_fire_signals] at h1
    have hs := fire_signals_stop T t d _ (phase.pre_child, entry.1, entry.2)
      (c1.reverse.map (fun x => (phase.pre_child, x.1, x.2))) _ st1 st2 h1 h2 hh
    have hrev : ((c1 ++ entry :: c2).reverse).map (fun x => (phase.pre_child, x.1, x.2)) =
        c2.reverse.map (fun x => (phase.pre_child, x.1, x.2)) ++
          (phase.pre_child, entry.1, entry.2) ::
            c1.reverse.map (fun x => (phase.pre_child, x.1, x.2)) := by
      simp
    unfold implementation.fire_event
    rw [fire_chain_eq_fire_signals, hrev, hs]
  · intro st1 st2 h1 hev h2 hh
    unfold implementation.fire_event
    rw [h1]
    simp [implementation.fire_child, hev, implementation.fire_signal, signal_type.handlers,
      h2, hh]
  · intro c1 entry c2 st1 st2 st3 st4 hc h1 h2 h3 h4 hh
    rw [fire_chain_eq_fire_signals] at h3
    have hs := fire_signals_stop T t d _ (phase.post_child, entry.1, entry.2)
      (c2.map (fun x => (phase.post_child, x.1, x.2))) _ st3 st4 h3 h4 hh
    have hmap : event_chain.map (fun x => (phase.post_child, x.1, x.2)) =
        c1.map (fun x => (phase.post_child, x.1, x.2)) ++
          (phase.post_child, entry.1, entry.2) ::
            c2.map (fun x => (phase.post_child, x.1, x.2)) := by
      rw [hc]
      simp
    unfold implementation.fire_event
    rw [h1]
    simp only []
    rw [h2]
    simp only []
    rw [fire_chain_eq_fire_signals, hmap, hs]

/-- The chain [(A, 7)] with the pre handlers 1, 2, 3 of A, of which 2 sets
`handled` and `halt`: the handlers 1 and 2 are invoked, and the run returns
true without the handler 3, the child handler of the target or the post
handler of A. -/
theorem fire_event_entry_protocol_witness :
    implementation.invoke_handlers 0 phase.pre_child 1 7
      (scenario_halt.event_signal .general 1 7).pre_child ⟨false, false, (), []⟩ =
      .completed ⟨true, true, (),
        [⟨phase.pre_child, 1, 7, 1, false, false, false, false⟩,
         ⟨phase.pre_child, 1, 7, 2, false, false, true, true⟩]⟩ ∧
    implementation.fire_event .general scenario_halt 7 [(1, 7)] 0 3 () =
      ⟨.returned true, (),
        [⟨phase.pre_child, 1, 7, 1, false, false, false, false⟩,
         ⟨phase.pre_child, 1, 7, 2, false, false, true, true⟩]⟩ := by
  have h2 : implementation.invoke_handlers 0 phase.pre_child 1 7
      (scenario_halt.event_signal .general 1 7).pre_child ⟨false, false, (), []⟩ =
      .completed ⟨true, true, (),
        [⟨phase.pre_child, 1, 7, 1, false, false, false, false⟩,
         ⟨phase.pre_child, 1, 7, 2, false, false, true, true⟩]⟩ := rfl
  exact ⟨h2, (fire_event_entry_protocol .general scenario_halt 7 [(1, 7)] 0 3 ()).2.1
    [] (1, 7) [] _ _ rfl rfl h2 rfl⟩

/-! ## Notifications -/

theorem fire_event_empty_chain {σ : Type} (T : signal_function_type) (t : widget_tree σ)
    (event : ui_event) (d w : widget) (s : σ) :
    implementation.fire_event T t event [] d w s =
      if t.has_event w event dispatcher.child = true then
        conclude (implementation.fire_signal T t d phase.child w event ⟨false, false, s, []⟩)
      else ⟨.returned false, s, []⟩ := by
  rw [fire_event_eq_conclude]
  unfold schedule
  by_cases h : t.has_event w event dispatcher.child = true
  · simp only [h, if_true, List.reverse_nil, List.map_nil, List.nil_append, List.append_nil,
      fire_signals]
    cases implementation.fire_signal T t d phase.child w event ⟨false, false, s, []⟩ <;> rfl
  · simp [h, fire_signals, conclude]

/-- C11: a notification fired on a target that has no pre or post handler for
the event is delivered to the child handlers of the target only: the run is
the chain-taking `fire_event` over the empty chain, every call is a child call
on the target for the event, the calls follow the registration order of the
target's child list, the run returns false without a call when the target does
not `has_event(event, child)`, and otherwise it returns the value `handled`
has when the child list ends. -/
theorem fire_event_notification_delivery {σ : Type} (t : widget_tree σ) (fuel : Nat)
    (event : ui_event) (d w : widget) (s : σ)
    (hpre : t.has_event w event implementation.pre_or_post = false) :
    fire_event .notification t fuel event (some d) (some w) s =
      implementation.fire_event .notification t event [] d w s ∧
    (∀ r ∈ (fire_event .notification t fuel event (some d) (some w) s).log,
      r.phase = phase.child ∧ r.widget = w ∧ r.event = event) ∧
    (fire_event .notification t fuel event (some d) (some w) s).log.map (fun r => r.handler)
      <+: (t.event_signal .notification w event).child.map (fun h => h.name) ∧
    (t.has_event w event dispatcher.child = false →
      fire_event .notification t fuel event (some d) (some w) s = ⟨.returned false, s, []⟩) ∧
    (t.has_event w event dispatcher.child = true →
      ∀ st : fire_state σ,
        implementation.invoke_handlers d phase.child w event
          (t.event_signal .notification w event).child ⟨false, false, s, []⟩ = .completed st →
        fire_event .notification t fuel event (some d) (some w) s =
          ⟨.returned st.handled, st.world, st.log⟩) := by
  have heq : fire_event .notification t fuel event (some d) (some w) s =
      implementation.fire_event .notification t event [] d w s := by
    simp [fire_event, implementation.build_event_chain,
      implementation.build_event_chain_notification, hpre]
  rw [heq, fire_event_empty_chain]
  refine ⟨rfl, ?_, ?_, ?_, ?_⟩
  · intro r hr
    by_cases h : t.has_event w event dispatcher.child = true
    · rw [if_pos h, conclude_log, fire_signal_state] at hr
      obtain ⟨ext, hlog, hkeys, _⟩ := invoke_handlers_run d phase.child w event
        ((t.event_signal .notification w event).handlers phase.child) ⟨false, false, s, []⟩
      rw [hlog] at hr
      exact hkeys r (by simpa using hr)
    · rw [if_neg h] at hr
      simp at hr
  · by_cases h : t.has_event w event dispatcher.child = true
    · rw [if_pos h, conclude_log, fire_signal_state]
      obtain ⟨ext, hlog, _, hpre2, _⟩ := invoke_handlers_run d phase.child w event
        ((t.event_signal .notification w event).handlers phase.child) ⟨false, false, s, []⟩
      rw [hlog]
      simpa using hpre2
    · rw [if_neg h]
      exact List.nil_prefix
  · intro h
    simp [h]
  · intro h st hst
    rw [if_pos h]
    unfold implementation.fire_signal
    simp only [signal_type.handlers, hst]
    by_cases hh : st.handled = true
    · simp [hh, conclude]
    · simp [hh, conclude]

/-- A notification on W, whose ancestors all have pre and post handlers for
it: only the child handler of W is invoked, and as it sets `handled` the run
returns true. -/
theorem fire_event_notification_delivery_witness :
    scenario_notification.has_event 3 9 implementation.pre_or_post = false ∧
    fire_event .notification scenario_notification 4 9 (some 0) (some 3) () =
      ⟨.returned true, (), [⟨phase.child, 3, 9, 31, false, false, true, false⟩]⟩ := by
  have hpre : scenario_notification.has_event 3 9 implementation.pre_or_post = false := by
    decide
  have h := fire_event_notification_delivery scenario_notification 4 9 0 3 () hpre
  exact ⟨hpre, h.2.2.2.2 (by decide) _ rfl⟩

/-! ## The handler presence query -/

theorem has_handler_over_eq {σ : Type}
    (index : signal_queue σ → ui_event → signal_type σ × signal_queue σ)
    (cls : event_classification) (d : dispatcher σ)
    (queue_type : event_queue_type) (event : ui_event) :
    dispatcher_implementation.has_handler_over index cls d queue_type event =
      match cls.first_kind event with
      | none => (false, d)
      | some K =>
        (!(index (d.queue_of K) event).1.empty queue_type,
          d.set_queue K (index (d.queue_of K) event).2) := by
  unfold dispatcher_implementation.has_handler_over event_classification.first_kind
    dispatcher_implementation.queue_check
  by_cases h1 : cls.is_general_event event = true
  · rw [if_pos h1, if_pos h1]
    rfl
  rw [if_neg h1, if_neg h1]
  by_cases h2 : cls.is_mouse_event event = true
  · rw [if_pos h2, if_pos h2]
    rfl
  rw [if_neg h2, if_neg h2]
  by_cases h3 : cls.is_keyboard_event event = true
  · rw [if_pos h3, if_pos h3]
    rfl
  rw [if_neg h3, if_neg h3]
  by_cases h4 : cls.is_touch_motion_event event = true
  · rw [if_pos h4, if_pos h4]
    rfl
  rw [if_neg h4, if_neg h4]
  by_cases h5 : cls.is_touch_gesture_event event = true
  · rw [if_pos h5, if_pos h5]
    rfl
  rw [if_neg h5, if_neg h5]
  by_cases h6 : cls.is_notification_event event = true
  · rw [if_pos h6, if_pos h6]
    rfl
  rw [if_neg h6, if_neg h6]
  by_cases h7 : cls.is_message_event event = true
  · rw [if_pos h7, if_pos h7]
    rfl
  rw [if_neg h7, if_neg h7]
  by_cases h8 : cls.is_raw_event_event event = true
  · rw [if_pos h8, if_pos h8]
    rfl
  rw [if_neg h8, if_neg h8]
  by_cases h9 : cls.is_text_input_event event = true
  · rw [if_pos h9, if_pos h9]
    rfl
  rw [if_neg h9, if_neg h9]

theorem has_handler_eq {σ : Type} (cls : event_classification) (d : dispatcher σ)
    (queue_type : event_queue_type) (event : ui_event) :
    dispatcher_implementation.has_handler cls d queue_type event =
      match cls.first_kind event with
      | none => (false, d)
      | some K =>
        (!((d.queue_of K).index event).1.empty queue_type,
          d.set_queue K ((d.queue_of K).index event).2) :=
  has_handler_over_eq signal_queue.index cls d queue_type event

theorem queue_of_set_queue {σ : Type} (d : dispatcher σ) (K T : signal_function_type)
    (q : signal_queue σ) :
    (d.set_queue K q).queue_of T = if T = K then q else d.queue_of T := by
  cases K <;> cases T <;> simp [dispatcher.set_queue, dispatcher.queue_of]

theorem first_kind_is_event (cls : event_classification) (event : ui_event)
    (K : signal_function_type) (h : cls.first_kind event = some K) :
    cls.is_event K event = true := by
  unfold event_classification.first_kind at h
  split_ifs at h <;>
    (simp only [Option.some.injEq] at h; subst h; simpa [event_classification.is_event])

theorem first_kind_none (cls : event_classification) (event : ui_event)
    (h : ∀ K, cls.is_event K event = false) : cls.first_kind event = none := by
  have h1 := h .general
  have h2 := h .mouse
  have h3 := h .keyboard
  have h4 := h .touch_motion
  have h5 := h .touch_gesture
  have h6 := h .notification
  have h7 := h .message
  have h8 := h .raw_event
  have h9 := h .text_input
  simp only [event_classification.is_event] at h1 h2 h3 h4 h5 h6 h7 h8 h9
  simp [event_classification.first_kind, h1, h2, h3, h4, h5, h6, h7, h8, h9]

theorem first_kind_exists (cls : event_classification) (event : ui_event)
    (K : signal_function_type) (h : cls.is_event K event = true) :
    ∃ K1, cls.first_kind event = some K1 := by
  cases hk : cls.first_kind event with
  | some K1 => exact ⟨K1, rfl⟩
  | none =>
    exfalso
    have hall : ∀ K2, cls.is_event K2 event = false := by
      intro K2
      by_contra hne
      have ht : cls.is_event K2 event = true := by simpa using hne
      unfold event_classification.first_kind at hk
      cases K2 <;> simp only [event_classification.is_event] at ht <;>
        simp [ht] at hk <;> split_ifs at hk
    rw [hall K] at h
    cases h

theorem first_kind_of_disjoint (cls : event_classification) (event : ui_event)
    (hdisj : ∀ (e : ui_event) (K1 K2 : signal_function_type), K1 ≠ K2 →
      cls.is_event K1 e = true → cls.is_event K2 e = false)
    (K : signal_function_type) (h : cls.is_event K event = true) :
    cls.first_kind event = some K := by
  obtain ⟨K1, hK1⟩ := first_kind_exists cls event K h
  have h1 := first_kind_is_event cls event K1 hK1
  by_cases hne : K1 = K
  · rw [hK1, hne]
  · rw [hdisj event K1 K hne h1] at h
    cases h

/-- C12: when the nine classification predicates are pairwise disjoint,
`has_handler` answers true if and only if the event belongs to a kind K and
the signal the registry of kind K yields for the event is not empty for the
requested phase mask; the registries of the other kinds do not influence the
answer, and the answer is false for an event of no kind. -/
theorem has_handler_by_kind {σ : Type} (cls : event_classification) (d : dispatcher σ)
    (queue_type : event_queue_type) (event : ui_event)
    (hdisj : ∀ (e : ui_event) (K1 K2 : signal_function_type), K1 ≠ K2 →
      cls.is_event K1 e = true → cls.is_event K2 e = false) :
    ((dispatcher_implementation.has_handler cls d queue_type event).1 = true ↔
      ∃ K, cls.is_event K event = true ∧
        ((d.queue_of K).index event).1.empty queue_type = false) ∧
    (∀ (K : signal_function_type) (d2 : dispatcher σ), cls.is_event K event = true →
      d2.queue_of K = d.queue_of K →
      (dispatcher_implementation.has_handler cls d2 queue_type event).1 =
        (dispatcher_implementation.has_handler cls d queue_type event).1) ∧
    ((∀ K, cls.is_event K event = false) →
      (dispatcher_implementation.has_handler cls d queue_type event).1 = false) := by
  refine ⟨⟨?_, ?_⟩, ?_, ?_⟩
  · intro h
    rw [has_handler_eq] at h
    cases hk : cls.first_kind event with
    | none => rw [hk] at h; cases h
    | some K =>
      rw [hk] at h
      exact ⟨K, first_kind_is_event cls event K hk, by simpa using h⟩
  · rintro ⟨K, hK, hne⟩
    rw [has_handler_eq, first_kind_of_disjoint cls event hdisj K hK]
    simp [hne]
  · intro K d2 hK hq
    rw [has_handler_eq, has_handler_eq, first_kind_of_disjoint cls event hdisj K hK]
    simp [hq]
  · intro h
    rw [has_handler_eq, first_kind_none cls event h]

theorem scenario_classification_disjoint :
    ∀ (e : ui_event) (K1 K2 : signal_function_type), K1 ≠ K2 →
      scenario_classification.is_event K1 e = true →
      scenario_classification.is_event K2 e = false := by
  intro (e : Nat) K1 K2 hne h1
  cases K1 <;> cases K2 <;>
    first
    | exact absurd rfl hne
    | (simp only [event_classification.is_event, scenario_classification, decide_eq_true_eq,
        decide_eq_false_iff_not] at h1 ⊢
       omega)

/-- The mouse event 12 has a pre handler in the mouse queue, so the answer for
the pre phase is true, and the event 95 belongs to no kind, so the answer is
false. -/
theorem has_handler_by_kind_witness :
    (∀ (e : ui_event) (K1 K2 : signal_function_type), K1 ≠ K2 →
      scenario_classification.is_event K1 e = true →
      scenario_classification.is_event K2 e = false) ∧
    (dispatcher_implementation.has_handler scenario_classification scenario_mouse_dispatcher
      dispatcher.pre 12).1 = true ∧
    (dispatcher_implementation.has_handler scenario_classification scenario_mouse_dispatcher
      dispatcher.pre 95).1 = false := by
  refine ⟨scenario_classification_disjoint, ?_, ?_⟩
  · exact (has_handler_by_kind scenario_classification scenario_mouse_dispatcher
      dispatcher.pre 12 scenario_classification_disjoint).1.mpr ⟨.mouse, by decide, by decide⟩
  · exact (has_handler_by_kind scenario_classification scenario_mouse_dispatcher
      dispatcher.pre 95 scenario_classification_disjoint).2.2
      (fun K => by cases K <;> decide)

/-! ## What `has_handler` does to the signal queues -/

theorem index_snd {σ : Type} (q : signal_queue σ) (e : ui_event) : (q.index e).2 = q := by
  unfold signal_queue.index
  cases q.find? (fun entry => entry.1 = e) <;> rfl

theorem set_queue_queue_of {σ : Type} (d : dispatcher σ) (K : signal_function_type) :
    d.set_queue K (d.queue_of K) = d := by
  cases K <;> rfl

/-- C19: `has_handler` does one lookup `queue[event]`, in the signal queue of
the first kind the event belongs to, and writes nothing: whatever the lookup
is, after the call the queue of that kind is the queue the lookup left and the
queue of every other kind is the queue it was (none is touched for an event of
no kind); so with a lookup that leaves the queue it is applied to as it is,
the dispatcher after the call is the dispatcher before it.  With the lookup of
the specification, in which a signal is created by the first registration
only, `has_handler` leaves the dispatcher unchanged, and no queue has an entry
after the call that it did not have before. -/
theorem has_handler_leaves_registries {σ : Type}
    (index : signal_queue σ → ui_event → signal_type σ × signal_queue σ)
    (cls : event_classification) (d : dispatcher σ)
    (queue_type : event_queue_type) (event : ui_event) :
    (∀ T : signal_function_type,
      (dispatcher_implementation.has_handler_over index cls d queue_type event).2.queue_of T =
        if cls.first_kind event = some T then (index (d.queue_of T) event).2
        else d.queue_of T) ∧
    ((∀ K : signal_function_type, cls.first_kind event = some K →
        (index (d.queue_of K) event).2 = d.queue_of K) →
      (dispatcher_implementation.has_handler_over index cls d queue_type event).2 = d) ∧
    (dispatcher_implementation.has_handler cls d queue_type event).2 = d ∧
    (∀ (T : signal_function_type) (entry : ui_event × signal_type σ),
      entry ∈ (dispatcher_implementation.has_handler cls d queue_type event).2.queue_of T →
      entry ∈ d.queue_of T) := by
  have hover : ∀ index2 : signal_queue σ → ui_event → signal_type σ × signal_queue σ,
      (∀ K : signal_function_type, cls.first_kind event = some K →
        (index2 (d.queue_of K) event).2 = d.queue_of K) →
      (dispatcher_implementation.has_handler_over index2 cls d queue_type event).2 = d := by
    intro index2 h
    rw [has_handler_over_eq]
    cases hk : cls.first_kind event with
    | none => rfl
    | some K =>
      simp only []
      rw [h K hk]
      exact set_queue_queue_of d K
  have hspec : (dispatcher_implementation.has_handler cls d queue_type event).2 = d :=
    hover signal_queue.index (fun K _ => index_snd (d.queue_of K) event)
  refine ⟨?_, hover index, hspec, ?_⟩
  · intro T
    rw [has_handler_over_eq]
    cases hk : cls.first_kind event with
    | none => simp
    | some K =>
      simp only []
      rw [queue_of_set_queue]
      by_cases hT : T = K
      · rw [if_pos hT, if_pos (by rw [hT]), hT]
      · rw [if_neg hT, if_neg (fun h => hT (Option.some.inj h).symm)]
  · intro T entry h
    rw [hspec] at h
    exact h

/-- Asked about the mouse event 12, a dispatcher without any registration
answers false and is left without any entry; a dispatcher with a registration
for that event answers true for the pre phase and keeps its one entry. -/
theorem has_handler_leaves_registries_witness :
    dispatcher_implementation.has_handler scenario_classification scenario_bare_dispatcher
      dispatcher.pre 12 = (false, scenario_bare_dispatcher) ∧
    (dispatcher_implementation.has_handler scenario_classification scenario_bare_dispatcher
      dispatcher.pre 12).2.signal_mouse_queue_ = [] ∧
    dispatcher_implementation.has_handler scenario_classification scenario_mouse_dispatcher
      dispatcher.pre 12 = (true, scenario_mouse_dispatcher) := by
  have h1 := (has_handler_leaves_registries signal_queue.index scenario_classification
    scenario_bare_dispatcher dispatcher.pre 12).2.2.1
  have h2 := (has_handler_leaves_registries signal_queue.index scenario_classification
    scenario_mouse_dispatcher dispatcher.pre 12).2.2.1
  refine ⟨Prod.ext rfl h1, ?_, Prod.ext rfl h2⟩
  rw [h1]
  rfl

/-! ## The assertions of `fire_event` -/

theorem fire_signals_completed_flags {σ : Type} (T : signal_function_type) (t : widget_tree σ)
    (d : widget) (gs : List (phase × widget × ui_event)) (st st1 : fire_state σ)
    (hh : st.handled = false)
    (h : fire_signals T t d gs st = .completed st1) : st1.handled = false := by
  induction gs generalizing st with
  | nil =>
    simp only [fire_signals, phase_result.completed.injEq] at h
    rw [← h]
    exact hh
  | cons g rest ih =>
    simp only [fire_signals] at h
    cases hres : implementation.fire_signal T t d g.1 g.2.1 g.2.2 st with
    | completed st2 =>
      rw [hres] at h
      exact ih st2 ((fire_signal_result_flags T t d g.1 g.2.1 g.2.2 st st2).1 hres) h
    | returned_true st2 => rw [hres] at h; cases h
    | assertion_failed st2 => rw [hres] at h; cases h

theorem fire_signals_assertion_failed_flags {σ : Type} (T : signal_function_type)
    (t : widget_tree σ) (d : widget) (gs : List (phase × widget × ui_event))
    (st st1 : fire_state σ)
    (h : fire_signals T t d gs st = .assertion_failed st1) :
    st1.handled = false ∧ st1.halt = true := by
  induction gs generalizing st with
  | nil => simp [fire_signals] at h
  | cons g rest ih =>
    simp only [fire_signals] at h
    cases hres : implementation.fire_signal T t d g.1 g.2.1 g.2.2 st with
    | completed st2 => rw [hres] at h; exact ih st2 h
    | returned_true st2 => rw [hres] at h; cases h
    | assertion_failed st2 =>
      rw [hres] at h
      simp only [phase_result.assertion_failed.injEq] at h
      rw [← h]
      exact (fire_signal_result_flags T t d g.1 g.2.1 g.2.2 st st2).2.2 hres

theorem fire_signals_flags {σ : Type} (T : signal_function_type) (t : widget_tree σ)
    (d : widget) (gs : List (phase × widget × ui_event)) (st : fire_state σ)
    (hf : flags_follow_log st) : flags_follow_log (fire_signals T t d gs st).state := by
  induction gs generalizing st with
  | nil => exact hf
  | cons g rest ih =>
    have hflags := invoke_handlers_flags d g.1 g.2.1 g.2.2
      ((t.event_signal T g.2.1 g.2.2).handlers g.1) st hf
    rw [← fire_signal_state] at hflags
    simp only [fire_signals]
    cases hres : implementation.fire_signal T t d g.1 g.2.1 g.2.2 st with
    | completed st2 => rw [hres] at hflags; exact ih st2 hflags
    | returned_true st2 => rw [hres] at hflags; exact hflags
    | assertion_failed st2 => rw [hres] at hflags; exact hflags

theorem fire_event_completed_handled {σ : Type} (T : signal_function_type) (t : widget_tree σ)
    (event : ui_event) (c : List (widget × ui_event)) (d w : widget) (s : σ)
    (st1 st2 st3 : fire_state σ)
    (h1 : implementation.fire_chain T t d phase.pre_child c.reverse ⟨false, false, s, []⟩
      = .completed st1)
    (h2 : implementation.fire_child T t event d w st1 = .completed st2)
    (h3 : implementation.fire_chain T t d phase.post_child c st2 = .completed st3) :
    st3.handled = false := by
  rw [fire_chain_eq_fire_signals] at h1 h3
  rw [fire_child_eq_fire_signals] at h2
  have a1 := fire_signals_completed_flags T t d _ _ st1 rfl h1
  have a2 := fire_signals_completed_flags T t d _ _ st2 a1 h2
  exact fire_signals_completed_flags T t d _ _ st3 a2 h3

/-- C17: an assertion of the chain-taking `fire_event` fails if and only if
some invoked handler returns with `halt` set and `handled` clear; when no
invoked handler does so no assertion fails; and the final
`assert(handled == false)` is never reached with `handled` set, whatever the
handlers do. -/
theorem fire_event_assertion_fails_iff {σ : Type} (T : signal_function_type)
    (t : widget_tree σ) (event : ui_event) (event_chain : List (widget × ui_event))
    (d w : widget) (s : σ) :
    ((implementation.fire_event T t event event_chain d w s).outcome = .assertion_failed ↔
      ∃ r ∈ (implementation.fire_event T t event event_chain d w s).log,
        r.halt_out = true ∧ r.handled_out = false) ∧
    ((∀ r ∈ (implementation.fire_event T t event event_chain d w s).log,
        r.halt_out = true → r.handled_out = true) →
      (implementation.fire_event T t event event_chain d w s).outcome ≠ .assertion_failed) ∧
    (∀ st1 st2 st3 : fire_state σ,
      implementation.fire_chain T t d phase.pre_child event_chain.reverse
        ⟨false, false, s, []⟩ = .completed st1 →
      implementation.fire_child T t event d w st1 = .completed st2 →
      implementation.fire_chain T t d phase.post_child event_chain st2 = .completed st3 →
      st3.handled = false) := by
  have hiff : (implementation.fire_event T t event event_chain d w s).outcome
        = .assertion_failed ↔
      ∃ r ∈ (implementation.fire_event T t event event_chain d w s).log,
        r.halt_out = true ∧ r.handled_out = false := by
    constructor
    · intro h
      rw [fire_event_eq_conclude] at h ⊢
      rw [conclude_log]
      have hflags := fire_signals_flags T t d (schedule t event event_chain w)
        ⟨false, false, s, []⟩ ⟨rfl, rfl⟩
      cases hres : fire_signals T t d (schedule t event event_chain w)
          ⟨false, false, s, []⟩ with
      | completed st1 =>
        rw [hres] at h
        have hh := fire_signals_completed_flags T t d _ _ st1 rfl hres
        simp [conclude, hh] at h
      | returned_true st1 =>
        rw [hres] at h
        simp [conclude] at h
      | assertion_failed st1 =>
        rw [hres] at hflags
        simp only [phase_result.state] at hflags ⊢
        obtain ⟨a1, a2⟩ := fire_signals_assertion_failed_flags T t d _ _ st1 hres
        have b1 : last_handled st1.log = false := by rw [← hflags.1]; exact a1
        have b2 : last_halt st1.log = true := by rw [← hflags.2]; exact a2
        unfold last_handled at b1
        unfold last_halt at b2
        cases hl : st1.log.getLast? with
        | none => rw [hl] at b2; cases b2
        | some r =>
          rw [hl] at b1 b2
          exact ⟨r, List.mem_of_getLast?_eq_some hl, b2, b1⟩
    · rintro ⟨r, hr, hl, hh⟩
      exact fire_event_halt_unhandled T t event event_chain d w s r hr hl hh
  refine ⟨hiff, ?_, ?_⟩
  · intro hc hfail
    obtain ⟨r, hr, hl, hh⟩ := hiff.mp hfail
    rw [hc r hr hl] at hh
    cases hh
  · intro st1 st2 st3 h1 h2 h3
    exact fire_event_completed_handled T t event event_chain d w s st1 st2 st3 h1 h2 h3

/-- A child handler that sets `halt` and not `handled` makes the assertion
fail. -/
theorem fire_event_assertion_fails_iff_witness :
    (implementation.fire_event .general scenario_halt_only 7 [] 0 0 ()).log =
      [⟨phase.child, 0, 7, 1, false, false, false, true⟩] ∧
    (implementation.fire_event .general scenario_halt_only 7 [] 0 0 ()).outcome =
      .assertion_failed := by
  refine ⟨by decide, ?_⟩
  exact (fire_event_assertion_fails_iff .general scenario_halt_only 7 [] 0 0 ()).1.mpr
    ⟨⟨phase.child, 0, 7, 1, false, false, false, true⟩, by decide, rfl, rfl⟩

/-! ## The flags a handler is entered with -/

theorem linked_from_concat (p x : invocation) (l : List invocation)
    (hl : linked_from p l) (hx : follows_call (l.getLast?.getD p) x) :
    linked_from p (l ++ [x]) := by
  induction l generalizing p with
  | nil => exact ⟨by simpa using hx, trivial⟩
  | cons r rest ih =>
    refine ⟨hl.1, ih r hl.2 ?_⟩
    rw [List.getLast?_cons] at hx
    simpa using hx

theorem linked_log_concat (x : invocation) (l : List invocation) (hl : linked_log l)
    (h0 : l = [] → x.handled_in = false ∧ x.halt_in = false)
    (h1 : ∀ p, l.getLast? = some p → follows_call p x) :
    linked_log (l ++ [x]) := by
  cases l with
  | nil => exact ⟨(h0 rfl).1, (h0 rfl).2, trivial⟩
  | cons r rest =>
    refine ⟨hl.1, hl.2.1, linked_from_concat r x rest hl.2.2 ?_⟩
    have := h1 (rest.getLast?.getD r) (by rw [List.getLast?_cons])
    exact this

theorem linked_from_split (q p r : invocation) (before after : List invocation)
    (h : linked_from q (before ++ p :: r :: after)) : follows_call p r := by
  induction before generalizing q with
  | nil => exact h.2.1
  | cons b rest ih => exact ih b h.2

theorem linked_log_split (p r : invocation) (before after : List invocation)
    (h : linked_log (before ++ p :: r :: after)) : follows_call p r := by
  cases before with
  | nil => exact h.2.2.1
  | cons b rest => exact linked_from_split b p r rest after h.2.2

theorem linked_from_halt_in (p : invocation) (l : List invocation) (h : linked_from p l) :
    ∀ r ∈ l, r.halt_in = false := by
  induction l generalizing p with
  | nil => intro r hr; cases hr
  | cons a rest ih =>
    intro r hr
    rcases List.mem_cons.mp hr with h1 | h1
    · rw [h1, h.1.2.1]
      exact h.1.2.2.1
    · exact ih a h.2 r h1

theorem linked_log_halt_in (l : List invocation) (h : linked_log l) :
    ∀ r ∈ l, r.halt_in = false := by
  cases l with
  | nil => intro r hr; cases hr
  | cons a rest =>
    intro r hr
    rcases List.mem_cons.mp hr with h1 | h1
    · rw [h1]; exact h.2.1
    · exact linked_from_halt_in a rest h.2.2 r h1

theorem call_handler_linked {σ : Type} (d : widget) (ph : phase) (w : widget) (e : ui_event)
    (f : handler σ) (st : fire_state σ)
    (hf : flags_follow_log st) (hl : linked_log st.log) (hhalt : st.halt = false)
    (hkey : st.handled = true →
      ∃ p, st.log.getLast? = some p ∧ p.phase = ph ∧ p.widget = w ∧ p.event = e) :
    linked_log (implementation.call_handler d ph w e f st).log := by
  rw [call_handler_log]
  apply linked_log_concat _ _ hl
  · intro hnil
    have h1 : st.handled = false := by
      rw [hf.1, hnil]
      rfl
    exact ⟨h1, hhalt⟩
  · intro p hp
    have h1 : st.handled = p.handled_out := by
      rw [hf.1]
      simp [last_handled, hp]
    have h2 : st.halt = p.halt_out := by
      rw [hf.2]
      simp [last_halt, hp]
    refine ⟨h1, h2, by rw [← h2]; exact hhalt, ?_⟩
    intro hp2
    obtain ⟨p2, hp3, k1, k2, k3⟩ := hkey (by rw [h1]; exact hp2)
    rw [hp] at hp3
    simp only [Option.some.injEq] at hp3
    subst hp3
    exact ⟨k1, k2, k3⟩

theorem invoke_handlers_linked {σ : Type} (d : widget) (ph : phase) (w : widget) (e : ui_event)
    (hs : List (handler σ)) (st : fire_state σ)
    (hf : flags_follow_log st) (hl : linked_log st.log) (hhalt : st.halt = false)
    (hkey : st.handled = true →
      ∃ p, st.log.getLast? = some p ∧ p.phase = ph ∧ p.widget = w ∧ p.event = e) :
    linked_log (implementation.invoke_handlers d ph w e hs st).state.log := by
  induction hs generalizing st with
  | nil => exact hl
  | cons f rest ih =>
    have hlink := call_handler_linked d ph w e f st hf hl hhalt hkey
    rw [invoke_handlers_cons]
    split
    · split
      · exact hlink
      · exact hlink
    · rename_i hno
      apply ih _ (call_handler_flags d ph w e f st) hlink (by simpa using hno)
      intro _
      exact ⟨implementation.call_record d ph w e f st,
        by rw [call_handler_log]; simp, rfl, rfl, rfl⟩

theorem invoke_handlers_completed_halt {σ : Type} (d : widget) (ph : phase) (w : widget)
    (e : ui_event) (hs : List (handler σ)) (st st1 : fire_state σ) (hhalt : st.halt = false)
    (h : implementation.invoke_handlers d ph w e hs st = .completed st1)
    (hh : st1.handled = false) : st1.halt = false := by
  induction hs generalizing st with
  | nil =>
    simp only [implementation.invoke_handlers, phase_result.completed.injEq] at h
    rw [← h]
    exact hhalt
  | cons f rest ih =>
    rw [invoke_handlers_cons] at h
    split at h
    · split at h
      · rename_i _ h2
        simp only [phase_result.completed.injEq] at h
        rw [h, hh] at h2
        cases h2
      · cases h
    · rename_i hno
      exact ih _ (by simpa using hno) h

theorem fire_signal_completed {σ : Type} (T : signal_function_type) (t : widget_tree σ)
    (d : widget) (ph : phase) (w : widget) (e : ui_event) (st st1 : fire_state σ)
    (h : implementation.fire_signal T t d ph w e st = .completed st1) :
    implementation.invoke_handlers d ph w e ((t.event_signal T w e).handlers ph) st =
      .completed st1 ∧ st1.handled = false := by
  unfold implementation.fire_signal at h
  cases hres : implementation.invoke_handlers d ph w e ((t.event_signal T w e).handlers ph) st with
  | completed st2 =>
    rw [hres] at h
    simp only [] at h
    by_cases hh : st2.handled = true
    · rw [if_pos hh] at h
      cases h
    · rw [if_neg hh] at h
      simp only [phase_result.completed.injEq] at h
      subst h
      exact ⟨rfl, by simpa using hh⟩
  | returned_true st2 => rw [hres] at h; cases h
  | assertion_failed st2 => rw [hres] at h; cases h

/-- The flags are clear whenever the loop body has run over a list of signals
without returning, and the log is linked throughout. -/
theorem fire_signals_linked {σ : Type} (T : signal_function_type) (t : widget_tree σ)
    (d : widget) (gs : List (phase × widget × ui_event)) (st : fire_state σ)
    (hf : flags_follow_log st) (hl : linked_log st.log) (hhalt : st.halt = false)
    (hh : st.handled = false) :
    linked_log (fire_signals T t d gs st).state.log ∧
    ∀ st1, fire_signals T t d gs st = .completed st1 →
      st1.handled = false ∧ st1.halt = false := by
  induction gs generalizing st with
  | nil =>
    refine ⟨hl, ?_⟩
    intro st1 h
    simp only [fire_signals, phase_result.completed.injEq] at h
    rw [← h]
    exact ⟨hh, hhalt⟩
  | cons g rest ih =>
    have hlink := invoke_handlers_linked d g.1 g.2.1 g.2.2
      ((t.event_signal T g.2.1 g.2.2).handlers g.1) st hf hl hhalt
      (fun h => by rw [hh] at h; cases h)
    have hflags := invoke_handlers_flags d g.1 g.2.1 g.2.2
      ((t.event_signal T g.2.1 g.2.2).handlers g.1) st hf
    rw [← fire_signal_state] at hlink hflags
    simp only [fire_signals]
    cases hres : implementation.fire_signal T t d g.1 g.2.1 g.2.2 st with
    | completed st2 =>
      rw [hres] at hlink hflags
      obtain ⟨h1, h2⟩ := fire_signal_completed T t d g.1 g.2.1 g.2.2 st st2 hres
      exact ih st2 hflags hlink
        (invoke_handlers_completed_halt d g.1 g.2.1 g.2.2 _ st st2 hhalt h1 h2) h2
    | returned_true st2 =>
      rw [hres] at hlink
      exact ⟨hlink, fun st1 h => by cases h⟩
    | assertion_failed st2 =>
      rw [hres] at hlink
      exact ⟨hlink, fun st1 h => by cases h⟩

theorem fire_event_linked {σ : Type} (T : signal_function_type) (t : widget_tree σ)
    (event : ui_event) (c : List (widget × ui_event)) (d w : widget) (s : σ) :
    linked_log (implementation.fire_event T t event c d w s).log := by
  rw [fire_event_eq_conclude, conclude_log]
  exact (fire_signals_linked T t d _ ⟨false, false, s, []⟩ ⟨rfl, rfl⟩ trivial rfl rfl).1

/-- C20: in every run of the chain-taking `fire_event` every handler is entered
with `halt` clear; the first handler invoked is entered with `handled` clear;
a later handler is entered with the flags the call before it returned, and it
is entered with `handled` set only when that call is of the same phase,
widget and event and returned with `handled` set and `halt` clear; and both
flags are clear whenever the handler list of a chain entry in the pre phase,
of the target in the child phase, or of a chain entry in the post phase is
entered. -/
theorem fire_event_flags_on_entry {σ : Type} (T : signal_function_type) (t : widget_tree σ)
    (event : ui_event) (event_chain : List (widget × ui_event)) (d w : widget) (s : σ) :
    (∀ r ∈ (implementation.fire_event T t event event_chain d w s).log, r.halt_in = false) ∧
    (∀ (r : invocation) (rest : List invocation),
      (implementation.fire_event T t event event_chain d w s).log = r :: rest →
      r.handled_in = false) ∧
    (∀ (before : List invocation) (p r : invocation) (after : List invocation),
      (implementation.fire_event T t event event_chain d w s).log = before ++ p :: r :: after →
      r.handled_in = p.handled_out ∧ p.halt_out = false ∧
      (r.handled_in = true →
        p.phase = r.phase ∧ p.widget = r.widget ∧ p.event = r.event)) ∧
    (∀ (c1 : List (widget × ui_event)) (entry : widget × ui_event)
        (c2 : List (widget × ui_event)) (st : fire_state σ),
      event_chain = c1 ++ entry :: c2 →
      implementation.fire_chain T t d phase.pre_child c2.reverse ⟨false, false, s, []⟩
        = .completed st →
      st.handled = false ∧ st.halt = false) ∧
    (∀ st : fire_state σ,
      implementation.fire_chain T t d phase.pre_child event_chain.reverse
        ⟨false, false, s, []⟩ = .completed st →
      st.handled = false ∧ st.halt = false) ∧
    (∀ (c1 : List (widget × ui_event)) (entry : widget × ui_event)
        (c2 : List (widget × ui_event)) (st1 st2 st : fire_state σ),
      event_chain = c1 ++ entry :: c2 →
      implementation.fire_chain T t d phase.pre_child event_chain.reverse
        ⟨false, false, s, []⟩ = .completed st1 →
      implementation.fire_child T t event d w st1 = .completed st2 →
      implementation.fire_chain T t d phase.post_child c1 st2 = .completed st →
      st.handled = false ∧ st.halt = false) := by
  have hlink := fire_event_linked T t event event_chain d w s
  have hst0 : ∀ (gs : List (phase × widget × ui_event)) (st : fire_state σ),
      fire_signals T t d gs ⟨false, false, s, []⟩ = .completed st →
      st.handled = false ∧ st.halt = false ∧ flags_follow_log st ∧ linked_log st.log := by
    intro gs st h
    have a := fire_signals_linked T t d gs ⟨false, false, s, []⟩ ⟨rfl, rfl⟩ trivial rfl rfl
    have b := fire_signals_flags T t d gs ⟨false, false, s, []⟩ ⟨rfl, rfl⟩
    rw [h] at a b
    exact ⟨(a.2 st rfl).1, (a.2 st rfl).2, b, a.1⟩
  refine ⟨linked_log_halt_in _ hlink, ?_, ?_, ?_, ?_, ?_⟩
  · intro r rest h
    rw [h] at hlink
    exact hlink.1
  · intro before p r after h
    rw [h] at hlink
    obtain ⟨a1, _, a3, a4⟩ := linked_log_split p r before after hlink
    exact ⟨a1, a3, fun hr => a4 (by rw [← a1]; exact hr)⟩
  · intro c1 entry c2 st _ h
    rw [fire_chain_eq_fire_signals] at h
    obtain ⟨a1, a2, _, _⟩ := hst0 _ st h
    exact ⟨a1, a2⟩
  · intro st h
    rw [fire_chain_eq_fire_signals] at h
    obtain ⟨a1, a2, _, _⟩ := hst0 _ st h
    exact ⟨a1, a2⟩
  · intro c1 entry c2 st1 st2 st _ h1 h2 h3
    rw [fire_chain_eq_fire_signals] at h1 h3
    rw [fire_child_eq_fire_signals] at h2
    obtain ⟨a1, a2, a3, a4⟩ := hst0 _ st1 h1
    have b := fire_signals_linked T t d
      (if t.has_event w event dispatcher.child = true then [(phase.child, w, event)] else [])
      st1 a3 a4 a2 a1
    have bf := fire_signals_flags T t d
      (if t.has_event w event dispatcher.child = true then [(phase.child, w, event)] else [])
      st1 a3
    rw [h2] at b bf
    obtain ⟨b1, b2⟩ := b.2 st2 rfl
    have c := fire_signals_linked T t d
      (c1.map (fun x => (phase.post_child, x.1, x.2))) st2 bf b.1 b2 b1
    exact c.2 st h3

/-- The two child handlers of one widget: the second is entered with `handled`
set, right after the first, of the same phase, widget and event, has returned
with `handled` set and `halt` clear. -/
theorem fire_event_flags_on_entry_witness :
    (implementation.fire_event .general scenario_two_handlers 7 [] 0 0 ()).log =
      [] ++ (⟨phase.child, 0, 7, 1, false, false, true, false⟩ : invocation) ::
        ⟨phase.child, 0, 7, 2, true, false, true, false⟩ :: [] ∧
    ((⟨phase.child, 0, 7, 2, true, false, true, false⟩ : invocation).handled_in =
        (⟨phase.child, 0, 7, 1, false, false, true, false⟩ : invocation).handled_out ∧
      (⟨phase.child, 0, 7, 1, false, false, true, false⟩ : invocation).halt_out = false) := by
  have hlog : (implementation.fire_event .general scenario_two_handlers 7 [] 0 0 ()).log =
      [] ++ (⟨phase.child, 0, 7, 1, false, false, true, false⟩ : invocation) ::
        ⟨phase.child, 0, 7, 2, true, false, true, false⟩ :: [] := by decide
  have h := (fire_event_flags_on_entry .general scenario_two_handlers 7 [] 0 0 ()).2.2.1
    [] _ _ [] hlog
  exact ⟨hlog, h.1, h.2.1⟩

/-! ## Two runs that differ after the point where the first stops -/

theorem fire_signals_congr {σ : Type} (T : signal_function_type) (t1 t2 : widget_tree σ)
    (d : widget) (gs : List (phase × widget × ui_event)) (st : fire_state σ)
    (h : ∀ g ∈ gs, (t1.event_signal T g.2.1 g.2.2).handlers g.1 =
      (t2.event_signal T g.2.1 g.2.2).handlers g.1) :
    fire_signals T t1 d gs st = fire_signals T t2 d gs st := by
  induction gs generalizing st with
  | nil => rfl
  | cons g rest ih =>
    have hg : implementation.fire_signal T t1 d g.1 g.2.1 g.2.2 st =
        implementation.fire_signal T t2 d g.1 g.2.1 g.2.2 st := by
      unfold implementation.fire_signal
      rw [h g (List.mem_cons_self _ _)]
    simp only [fire_signals, hg]
    cases implementation.fire_signal T t2 d g.1 g.2.1 g.2.2 st with
    | completed st1 => exact ih st1 (fun g1 hg1 => h g1 (List.mem_cons_of_mem _ hg1))
    | returned_true st1 => rfl
    | assertion_failed st1 => rfl

theorem invoke_handlers_halt_append {σ : Type} (d : widget) (ph : phase) (w : widget)
    (e : ui_event) (P R : List (handler σ)) (st : fire_state σ) (hhalt : st.halt = false)
    (h : (implementation.invoke_handlers d ph w e P st).state.halt = true) :
    implementation.invoke_handlers d ph w e (P ++ R) st =
      implementation.invoke_handlers d ph w e P st := by
  induction P generalizing st with
  | nil =>
    simp only [implementation.invoke_handlers, phase_result.state] at h
    rw [hhalt] at h
    cases h
  | cons f rest ih =>
    rw [List.cons_append, invoke_handlers_cons, invoke_handlers_cons]
    rw [invoke_handlers_cons] at h
    by_cases hl : (implementation.call_handler d ph w e f st).halt = true
    · rw [if_pos hl, if_pos hl]
    · rw [if_neg hl] at h ⊢
      rw [if_neg hl]
      exact ih _ (by simpa using hl) h

theorem fire_signals_cons_stop {σ : Type} (T : signal_function_type) (t : widget_tree σ)
    (d : widget) (g : phase × widget × ui_event) (G2 : List (phase × widget × ui_event))
    (st : fire_state σ)
    (h : ∀ st2, implementation.fire_signal T t d g.1 g.2.1 g.2.2 st ≠ .completed st2) :
    fire_signals T t d (g :: G2) st = implementation.fire_signal T t d g.1 g.2.1 g.2.2 st := by
  simp only [fire_signals]
  cases hres : implementation.fire_signal T t d g.1 g.2.1 g.2.2 st with
  | completed st2 => exact absurd hres (h st2)
  | returned_true st2 => rfl
  | assertion_failed st2 => rfl

theorem schedule_congr {σ : Type} (t1 t2 : widget_tree σ) (event : ui_event)
    (c : List (widget × ui_event)) (w : widget)
    (hev : t1.has_event w event dispatcher.child = t2.has_event w event dispatcher.child) :
    schedule t1 event c w = schedule t2 event c w := by
  unfold schedule
  rw [hev]

/-- C13 as stated fails: the child handler lists [1, 2] and [1] of the two
configurations are identical up to and including the handler 1, the first
that sets `handled`, and the sequences of invocations differ: the first run
invokes the handler 2 after it. -/
theorem fire_event_two_runs_differ :
    (scenario_two_handlers.event_signal .general 0 7).child.map (fun h => h.name) = [1] ++ [2] ∧
    (scenario_one_handler.event_signal .general 0 7).child.map (fun h => h.name) = [1] ++ [] ∧
    (implementation.fire_event .general scenario_two_handlers 7 [] 0 0 ()).log =
      [⟨phase.child, 0, 7, 1, false, false, true, false⟩,
       ⟨phase.child, 0, 7, 2, true, false, true, false⟩] ∧
    (implementation.fire_event .general scenario_one_handler 7 [] 0 0 ()).log =
      [⟨phase.child, 0, 7, 1, false, false, true, false⟩] ∧
    (implementation.fire_event .general scenario_two_handlers 7 [] 0 0 ()).log ≠
      (implementation.fire_event .general scenario_one_handler 7 [] 0 0 ()).log := by
  refine ⟨by decide, by decide, by decide, by decide, by decide⟩

/-- C13, amended: two configurations with the same chain, target and event
give the same result (the same return value, the same sequence of invocations
and the same final state) when they agree on every handler list scheduled
before the list in which the run stops and, in that list, either agree up to
and including the first handler that returns with `halt` set, or agree on the
whole list and the list ends with `handled` set.  They may differ in the
handlers registered after the handler that sets `halt` and in every handler
list scheduled after the list in which the run stops; a handler registered
after one that sets `handled` alone is not among these. -/
theorem fire_event_two_runs {σ : Type} (T : signal_function_type) (t1 t2 : widget_tree σ)
    (event : ui_event) (event_chain : List (widget × ui_event)) (d w : widget) (s : σ)
    (G1 : List (phase × widget × ui_event)) (g : phase × widget × ui_event)
    (G2 : List (phase × widget × ui_event)) (P R1 R2 : List (handler σ)) (st1 : fire_state σ)
    (hev : t1.has_event w event dispatcher.child = t2.has_event w event dispatcher.child)
    (hsched : schedule t1 event event_chain w = G1 ++ g :: G2)
    (hsame : ∀ x ∈ G1, (t1.event_signal T x.2.1 x.2.2).handlers x.1 =
      (t2.event_signal T x.2.1 x.2.2).handlers x.1)
    (hg1 : (t1.event_signal T g.2.1 g.2.2).handlers g.1 = P ++ R1)
    (hg2 : (t2.event_signal T g.2.1 g.2.2).handlers g.1 = P ++ R2)
    (hrun : fire_signals T t1 d G1 ⟨false, false, s, []⟩ = .completed st1)
    (hstop : (implementation.invoke_handlers d g.1 g.2.1 g.2.2 P st1).state.halt = true ∨
      (R1 = [] ∧ R2 = [] ∧
        (implementation.invoke_handlers d g.1 g.2.1 g.2.2 P st1).state.handled = true)) :
    implementation.fire_event T t1 event event_chain d w s =
      implementation.fire_event T t2 event event_chain d w s := by
  have hflags := fire_signals_linked T t1 d G1 ⟨false, false, s, []⟩ ⟨rfl, rfl⟩ trivial rfl rfl
  obtain ⟨_, hhalt1⟩ := hflags.2 st1 hrun
  have hlists : implementation.invoke_handlers d g.1 g.2.1 g.2.2 (P ++ R1) st1 =
        implementation.invoke_handlers d g.1 g.2.1 g.2.2 P st1 ∧
      implementation.invoke_handlers d g.1 g.2.1 g.2.2 (P ++ R2) st1 =
        implementation.invoke_handlers d g.1 g.2.1 g.2.2 P st1 := by
    rcases hstop with h | ⟨h1, h2, _⟩
    · exact ⟨invoke_handlers_halt_append d g.1 g.2.1 g.2.2 P R1 st1 hhalt1 h,
        invoke_handlers_halt_append d g.1 g.2.1 g.2.2 P R2 st1 hhalt1 h⟩
    · rw [h1, h2, List.append_nil]
      exact ⟨rfl, rfl⟩
  have hsig1 : implementation.fire_signal T t1 d g.1 g.2.1 g.2.2 st1 =
      implementation.fire_signal T t2 d g.1 g.2.1 g.2.2 st1 := by
    unfold implementation.fire_signal
    rw [hg1, hg2, hlists.1, hlists.2]
  have hnot : ∀ st2, implementation.fire_signal T t1 d g.1 g.2.1 g.2.2 st1 ≠ .completed st2 := by
    intro st2 hc
    obtain ⟨a1, a2⟩ := fire_signal_completed T t1 d g.1 g.2.1 g.2.2 st1 st2 hc
    rw [hg1, hlists.1] at a1
    have a3 := invoke_handlers_completed_halt d g.1 g.2.1 g.2.2 P st1 st2 hhalt1 a1 a2
    rw [a1] at hstop
    simp only [phase_result.state] at hstop
    rcases hstop with h | ⟨_, _, h⟩
    · rw [a3] at h
      cases h
    · rw [a2] at h
      cases h
  rw [fire_event_eq_conclude, fire_event_eq_conclude,
    ← schedule_congr t1 t2 event event_chain w hev, hsched,
    fire_signals_append, fire_signals_append,
    ← fire_signals_congr T t1 t2 d G1 _ hsame, hrun]
  simp only []
  rw [fire_signals_cons_stop T t1 d g G2 st1 hnot,
    fire_signals_cons_stop T t2 d g G2 st1 (by rw [← hsig1]; exact hnot), hsig1]

/-- Two trees that agree up to the pre handler 2 of the widget 1, which sets
`handled` and `halt`, and differ in everything scheduled after it: the two
runs give the same result. -/
theorem fire_event_two_runs_witness :
    (scenario_halt.event_signal .general 1 7).pre_child.map (fun h => h.name) = [1, 2] ++ [3] ∧
    (scenario_halt_variant.event_signal .general 1 7).pre_child.map (fun h => h.name)
      = [1, 2] ++ [9, 8] ∧
    implementation.fire_event .general scenario_halt 7 [(1, 7)] 0 3 () =
      implementation.fire_event .general scenario_halt_variant 7 [(1, 7)] 0 3 () := by
  refine ⟨by decide, by decide, ?_⟩
  exact fire_event_two_runs .general scenario_halt scenario_halt_variant 7 [(1, 7)] 0 3 ()
    [] (phase.pre_child, 1, 7) [(phase.child, 3, 7), (phase.post_child, 1, 7)]
    [noop_handler 1, halting_handler 2] [noop_handler 3] [noop_handler 9, handling_handler 8]
    ⟨false, false, (), []⟩ (by decide) (by decide) (by simp) rfl rfl rfl (Or.inl rfl)

/-! ## Walks that stop at the first arrival at the dispatcher -/

theorem nodup_path_first {D W : widget} {rest : List widget}
    (hlast : (W :: rest).getLast? = some D) (hnodup : (W :: rest).Nodup) :
    ∀ x ∈ (W :: rest).dropLast, x ≠ D := by
  intro x hx hxD
  have hsplit := List.dropLast_append_getLast? D hlast
  rw [← hsplit] at hnodup
  have hdis := (List.nodup_append.mp hnodup).2.2
  exact hdis hx (by simp [hxD])

theorem root_path_first {σ : Type} (t : widget_tree σ) (R : widget) (rest : List widget)
    (W : widget) (hpath : follows_parents t W rest)
    (hroot : t.parent R = none) : ∀ x ∈ (W :: rest).dropLast, x ≠ R := by
  have hsome : ∀ x ∈ (W :: rest).dropLast, ∃ p, t.parent x = some p := by
    induction rest generalizing W with
    | nil => intro x hx; simp at hx
    | cons p rest ih =>
      intro x hx
      rw [List.dropLast_cons_of_ne_nil (by simp)] at hx
      rcases List.mem_cons.mp hx with h1 | h1
      · exact ⟨p, by rw [h1]; exact hpath.1⟩
      · exact ih p hpath.2 x h1
  intro x hx hxR
  obtain ⟨p, hp⟩ := hsome x hx
  rw [hxR, hroot] at hp
  cases hp

theorem build_event_chain_loop_first {σ : Type} (t : widget_tree σ) (event : ui_event)
    (D : widget) (rest : List widget) (W : widget) (acc : List (widget × ui_event)) (fuel : Nat)
    (hpath : follows_parents t W rest) (hlast : (W :: rest).getLast? = some D)
    (hfirst : ∀ x ∈ (W :: rest).dropLast, x ≠ D) :
    (rest.length < fuel →
      implementation.build_event_chain_loop t event D fuel W acc =
        .ok (acc ++ ((W :: rest).filter
          (fun p => t.has_event p event implementation.pre_or_post)).map (fun p => (p, event)))) ∧
    (fuel ≤ rest.length →
      implementation.build_event_chain_loop t event D fuel W acc = .out_of_fuel) := by
  induction rest generalizing W acc fuel with
  | nil =>
    have hW := path_singleton_last hlast
    subst hW
    constructor
    · intro hfuel
      obtain ⟨k, rfl⟩ : ∃ k, fuel = k + 1 := ⟨fuel - 1, by simp at hfuel; omega⟩
      by_cases hev : t.has_event W event implementation.pre_or_post = true <;>
        simp [implementation.build_event_chain_loop, hev, List.filter_cons]
    · intro hfuel
      have h0 : fuel = 0 := by simpa using hfuel
      subst h0
      rfl
  | cons p rest ih =>
    have hne : W ≠ D := hfirst W (by rw [List.dropLast_cons_of_ne_nil (by simp)]; simp)
    have hpar : t.parent W = some p := hpath.1
    have hfirst2 : ∀ x ∈ (p :: rest).dropLast, x ≠ D := by
      intro x hx
      apply hfirst
      rw [List.dropLast_cons_of_ne_nil (by simp)]
      exact List.mem_cons_of_mem _ hx
    rw [List.getLast?_cons_cons] at hlast
    constructor
    · intro hfuel
      obtain ⟨k, rfl⟩ : ∃ k, fuel = k + 1 := ⟨fuel - 1, by simp at hfuel; omega⟩
      have hk : rest.length < k := by simp at hfuel; omega
      simp only [implementation.build_event_chain_loop, hne, if_false, hpar]
      rw [(ih p _ k hpath.2 hlast hfirst2).1 hk]
      by_cases hev : t.has_event W event implementation.pre_or_post = true <;>
        simp [hev, List.filter_cons]
    · intro hfuel
      cases fuel with
      | zero => rfl
      | succ k =>
        have hk : k ≤ rest.length := by simp at hfuel; omega
        simp only [implementation.build_event_chain_loop, hne, if_false, hpar]
        exact (ih p _ k hpath.2 hlast hfirst2).2 hk

theorem double_click_chain_loop_out_of_fuel {σ : Type} (t : widget_tree σ)
    (click double_click : ui_event) (wants_double_click : widget → Bool) (D : widget)
    (rest : List widget) (W : widget) (acc : List (widget × ui_event)) (fuel : Nat)
    (hpath : follows_parents t W rest) (hlast : (W :: rest).getLast? = some D)
    (hnodup : (W :: rest).Nodup) (hfuel : fuel ≤ rest.length) :
    double_click_chain_loop t click double_click wants_double_click D fuel W acc
      = .out_of_fuel := by
  induction rest generalizing W acc fuel with
  | nil =>
    have h0 : fuel = 0 := by simpa using hfuel
    subst h0
    rfl
  | cons p rest ih =>
    cases fuel with
    | zero => rfl
    | succ k =>
      have hne := path_head_ne_last hlast hnodup
      have hpar : t.parent W = some p := hpath.1
      rw [List.getLast?_cons_cons] at hlast
      rw [List.nodup_cons] at hnodup
      have hk : k ≤ rest.length := by simp at hfuel; omega
      simp only [double_click_chain_loop, hne, if_false, hpar]
      exact ih p _ k hpath.2 hlast hnodup.2 hk

/-- C14: for a widget W with parent p, where the parent links from p lead to a
parentless root R, the message chain of W is the reverse of the default chain
built for the same event with dispatcher R and target p; for a parentless
widget the message chain is empty. -/
theorem message_chain_reverses_default_chain {σ : Type} (T : signal_function_type)
    (t : widget_tree σ) (event : ui_event) (fuel : Nat)
    (hT1 : T ≠ .notification) (hT2 : T ≠ .message) :
    (∀ (W p R : widget) (rest : List widget),
      t.parent W = some p → follows_parents t p rest → (p :: rest).getLast? = some R →
      t.parent R = none → rest.length + 1 < fuel →
      ∃ c, implementation.build_event_chain T t fuel event (some R) (some p) = .ok c ∧
        implementation.build_event_chain .message t fuel event (some W) (some W)
          = .ok c.reverse) ∧
    (∀ W : widget, t.parent W = none → 0 < fuel →
      implementation.build_event_chain .message t fuel event (some W) (some W) = .ok []) := by
  constructor
  · intro W p R rest hpar hpath hlast hroot hfuel
    refine ⟨((p :: rest).filter
      (fun x => t.has_event x event implementation.pre_or_post)).map (fun x => (x, event)),
      ?_, ?_⟩
    · rw [build_event_chain_of_default T t fuel event _ _ hT1 hT2]
      have h := (build_event_chain_loop_first t event R rest p [] fuel hpath hlast
        (root_path_first t R rest p hpath hroot)).1 (by omega)
      simpa [implementation.build_event_chain_default] using h
    · have h := build_event_chain_message_loop_path t event R (p :: rest) W [] fuel
        ⟨hpar, hpath⟩ (by rw [List.getLast?_cons_cons]; exact hlast) hroot
        (by simpa using hfuel)
      simpa [implementation.build_event_chain, implementation.build_event_chain_message] using h
  · intro W hpar hfuel
    obtain ⟨k, rfl⟩ : ∃ k, fuel = k + 1 := ⟨fuel - 1, by omega⟩
    simp [implementation.build_event_chain, implementation.build_event_chain_message,
      implementation.build_event_chain_message_loop, hpar]

/-- Scenario B: the message chain [D, C1, C2] of W is the reverse of the
default chain [C2, C1, D] of its parent C2 with dispatcher D. -/
theorem message_chain_reverses_default_chain_witness :
    implementation.build_event_chain .general scenario_a 4 7 (some 0) (some 2)
      = .ok [(2, 7), (1, 7), (0, 7)] ∧
    implementation.build_event_chain .message scenario_a 4 7 (some 3) (some 3)
      = .ok [(0, 7), (1, 7), (2, 7)] := by
  obtain ⟨c, h1, h2⟩ := (message_chain_reverses_default_chain .general scenario_a 7 4
    (by decide) (by decide)).1 3 2 0 [1, 0] rfl ⟨rfl, rfl, trivial⟩ (by decide) rfl (by decide)
  have hc : c = [(2, 7), (1, 7), (0, 7)] := by
    have h3 : implementation.build_event_chain .general scenario_a 4 7 (some 0) (some 2)
        = .ok [(2, 7), (1, 7), (0, 7)] := by decide
    rw [h3] at h1
    simp only [chain_result.ok.injEq] at h1
    exact h1.symm
  subst hc
  exact ⟨h1, h2⟩

/-- C15 does not hold of the code: with a pre or post handler on every widget,
the default chain of the target W starts with W itself, and the chain built
with widget == dispatcher is not empty. -/
theorem build_event_chain_includes_target :
    implementation.build_event_chain .general scenario_a 4 7 (some 0) (some 3)
      = .ok [(3, 7), (2, 7), (1, 7), (0, 7)] ∧
    implementation.build_event_chain .general scenario_a 4 7 (some 0) (some 0)
      = .ok [(0, 7)] := by
  exact ⟨by decide, by decide⟩

/-- C18: when D is reached from W along a path of n parent links on which no
widget occurs twice, the loop of the default `build_event_chain` ends with a
chain after exactly n + 1 rounds, and the loop of `fire_event_double_click`
after n rounds and n + 1 tests of `w != d` (any larger fuel gives a chain, a
smaller one runs out), so no `assert(w)` fails; and the message variant ends
with a chain whenever the parent links from W lead to a parentless widget. -/
theorem chain_walks_terminate {σ : Type} (T : signal_function_type) (t : widget_tree σ)
    (event click double_click : ui_event) (wants_double_click : widget → Bool)
    (W D : widget) (rest : List widget)
    (hT1 : T ≠ .notification) (hT2 : T ≠ .message)
    (hpath : follows_parents t W rest) (hlast : (W :: rest).getLast? = some D)
    (hnodup : (W :: rest).Nodup) :
    (∀ fuel, rest.length < fuel →
      ∃ c, implementation.build_event_chain T t fuel event (some D) (some W) = .ok c) ∧
    (∀ fuel, fuel ≤ rest.length →
      implementation.build_event_chain T t fuel event (some D) (some W) = .out_of_fuel) ∧
    (∀ fuel, rest.length < fuel →
      ∃ c, double_click_chain t click double_click wants_double_click fuel (some D) (some W)
        = .ok c) ∧
    (∀ fuel, fuel ≤ rest.length →
      double_click_chain t click double_click wants_double_click fuel (some D) (some W)
        = .out_of_fuel) ∧
    (∀ (W0 R0 : widget) (rest0 : List widget), follows_parents t W0 rest0 →
      (W0 :: rest0).getLast? = some R0 → t.parent R0 = none →
      ∀ fuel, rest0.length < fuel →
        ∃ c, implementation.build_event_chain .message t fuel event (some W0) (some W0)
          = .ok c) := by
  have hfirst := nodup_path_first hlast hnodup
  refine ⟨?_, ?_, ?_, ?_, ?_⟩
  · intro fuel hfuel
    rw [build_event_chain_of_default T t fuel event _ _ hT1 hT2]
    have h := (build_event_chain_loop_first t event D rest W [] fuel hpath hlast hfirst).1 hfuel
    exact ⟨_, by simpa [implementation.build_event_chain_default] using h⟩
  · intro fuel hfuel
    rw [build_event_chain_of_default T t fuel event _ _ hT1 hT2]
    simpa [implementation.build_event_chain_default] using
      (build_event_chain_loop_first t event D rest W [] fuel hpath hlast hfirst).2 hfuel
  · intro fuel hfuel
    have h := double_click_chain_loop_path t click double_click wants_double_click D rest W []
      fuel hpath hlast hnodup hfuel
    exact ⟨_, by simpa [double_click_chain] using h⟩
  · intro fuel hfuel
    simpa [double_click_chain] using
      double_click_chain_loop_out_of_fuel t click double_click wants_double_click D rest W []
        fuel hpath hlast hnodup hfuel
  · intro W0 R0 rest0 hp hl hr fuel hfuel
    have h := build_event_chain_message_loop_path t event R0 rest0 W0 [] fuel hp hl hr hfuel
    exact ⟨_, by
      simpa [implementation.build_event_chain, implementation.build_event_chain_message]
        using h⟩

/-- Scenario C: the path W, C2, C1, D has three parent links; the default walk
ends with fuel 4 and runs out with fuel 3, and so does the walk of the double
click. -/
theorem chain_walks_terminate_witness :
    follows_parents scenario_c 3 [2, 1, 0] ∧
    (∃ c, implementation.build_event_chain .mouse scenario_c 4 1 (some 0) (some 3) = .ok c) ∧
    implementation.build_event_chain .mouse scenario_c 3 1 (some 0) (some 3) = .out_of_fuel ∧
    (∃ c, double_click_chain scenario_c 1 2 scenario_c_wants 4 (some 0) (some 3) = .ok c) ∧
    double_click_chain scenario_c 1 2 scenario_c_wants 3 (some 0) (some 3) = .out_of_fuel := by
  have hpath : follows_parents scenario_c 3 [2, 1, 0] := ⟨rfl, rfl, rfl, trivial⟩
  have h := chain_walks_terminate .mouse scenario_c 1 1 2 scenario_c_wants 3 0 [2, 1, 0]
    (by decide) (by decide) hpath (by decide) (by decide)
  exact ⟨hpath, h.1 4 (by decide), h.2.1 3 (by decide), h.2.2.1 4 (by decide),
    h.2.2.2.1 3 (by decide)⟩

/-! ## The order in which the handlers are called -/

theorem invoke_handlers_calls {σ : Type} (d : widget) (ph : phase) (w : widget) (e : ui_event)
    (hs : List (handler σ)) (st : fire_state σ)
    (hf : flags_follow_log st) (hhalt : st.halt = false) :
    ∃ ext, (implementation.invoke_handlers d ph w e hs st).state.log = st.log ++ ext ∧
      ext.map invocation.call <+: hs.map (fun h => (ph, w, e, h.name)) ∧
      (∀ st1, implementation.invoke_handlers d ph w e hs st = .completed st1 →
        st1.handled = false →
        ext.map invocation.call = hs.map (fun h => (ph, w, e, h.name))) := by
  obtain ⟨ext, hlog, hkeys, hpre, _, hcut, _⟩ := invoke_handlers_run d ph w e hs st
  have hcall : ext.map invocation.call =
      (ext.map (fun r => r.handler)).map (fun n => (ph, w, e, n)) := by
    rw [List.map_map]
    apply List.map_congr_left
    intro r hr
    obtain ⟨k1, k2, k3⟩ := hkeys r hr
    simp [invocation.call, k1, k2, k3]
  have hnames : hs.map (fun h => (ph, w, e, h.name)) =
      (hs.map (fun h => h.name)).map (fun n => (ph, w, e, n)) := by
    rw [List.map_map]
    rfl
  have hprefix : ext.map invocation.call <+: hs.map (fun h => (ph, w, e, h.name)) := by
    rw [hcall, hnames]
    exact List.IsPrefix.map _ hpre
  refine ⟨ext, hlog, hprefix, ?_⟩
  intro st1 hres hh
  apply List.IsPrefix.eq_of_length hprefix
  have hle := List.IsPrefix.length_le hprefix
  simp only [List.length_map] at hle ⊢
  by_contra hne
  have hlt : ext.length < hs.length := by omega
  obtain ⟨r, hr, hrl⟩ := hcut hlt
  have hflags := invoke_handlers_flags d ph w e hs st hf
  rw [hres] at hflags hlog
  simp only [phase_result.state] at hflags hlog
  have hnil : ext ≠ [] := by
    intro h0
    rw [h0] at hr
    cases hr
  have h1 : st1.halt = true := by
    rw [hflags.2, hlog]
    unfold last_halt
    rw [List.getLast?_append_of_ne_nil _ hnil, hr]
    exact hrl
  rw [invoke_handlers_completed_halt d ph w e hs st st1 hhalt hres hh] at h1
  cases h1

theorem fire_signals_calls_prefix {σ : Type} (T : signal_function_type) (t : widget_tree σ)
    (d : widget) (gs : List (phase × widget × ui_event)) (st : fire_state σ)
    (hf : flags_follow_log st) (hhalt : st.halt = false) :
    ∃ ext, (fire_signals T t d gs st).state.log = st.log ++ ext ∧
      ext.map invocation.call <+: scheduled_calls T t gs := by
  induction gs generalizing st with
  | nil => exact ⟨[], by simp [fire_signals, phase_result.state], List.nil_prefix⟩
  | cons g rest ih =>
    obtain ⟨ext, hlog, hprefix, hfull⟩ := invoke_handlers_calls d g.1 g.2.1 g.2.2
      ((t.event_signal T g.2.1 g.2.2).handlers g.1) st hf hhalt
    have hflags := invoke_handlers_flags d g.1 g.2.1 g.2.2
      ((t.event_signal T g.2.1 g.2.2).handlers g.1) st hf
    rw [← fire_signal_state] at hlog hflags
    have hsched : scheduled_calls T t (g :: rest) =
        ((t.event_signal T g.2.1 g.2.2).handlers g.1).map (fun h => (g.1, g.2.1, g.2.2, h.name))
          ++ scheduled_calls T t rest := by
      simp [scheduled_calls, List.flatMap_cons]
    simp only [fire_signals]
    cases hres : implementation.fire_signal T t d g.1 g.2.1 g.2.2 st with
    | completed st1 =>
      rw [hres] at hlog hflags
      simp only [phase_result.state] at hlog hflags
      obtain ⟨h1, h2⟩ := fire_signal_completed T t d g.1 g.2.1 g.2.2 st st1 hres
      have h3 := invoke_handlers_completed_halt d g.1 g.2.1 g.2.2 _ st st1 hhalt h1 h2
      obtain ⟨ext2, hlog2, hprefix2⟩ := ih st1 hflags h3
      refine ⟨ext ++ ext2, by rw [hlog2, hlog, List.append_assoc], ?_⟩
      rw [hsched, List.map_append, hfull st1 h1 h2]
      exact (List.prefix_append_right_inj _).mpr hprefix2
    | returned_true st1 =>
      rw [hres] at hlog
      refine ⟨ext, hlog, ?_⟩
      rw [hsched]
      exact hprefix.trans (List.prefix_append _ _)
    | assertion_failed st1 =>
      rw [hres] at hlog
      refine ⟨ext, hlog, ?_⟩
      rw [hsched]
      exact hprefix.trans (List.prefix_append _ _)

/-- The calls of a run of the chain-taking `fire_event` are an initial segment
of the calls of its schedule. -/
theorem fire_event_calls_prefix {σ : Type} (T : signal_function_type) (t : widget_tree σ)
    (event : ui_event) (c : List (widget × ui_event)) (d w : widget) (s : σ) :
    (implementation.fire_event T t event c d w s).log.map invocation.call <+:
      scheduled_calls T t (c.reverse.map (fun entry => (phase.pre_child, entry.1, entry.2))
        ++ child_signal t event w
        ++ c.map (fun entry => (phase.post_child, entry.1, entry.2))) := by
  rw [fire_event_eq_conclude, conclude_log]
  obtain ⟨ext, hlog, hprefix⟩ := fire_signals_calls_prefix T t d (schedule t event c w)
    ⟨false, false, s, []⟩ ⟨rfl, rfl⟩ rfl
  rw [hlog]
  simpa [schedule, child_signal] using hprefix

theorem quiet_records_calls {σ : Type} (T : signal_function_type) (t : widget_tree σ)
    (gs : List (phase × widget × ui_event)) :
    (gs.flatMap (quiet_records T t)).map invocation.call = scheduled_calls T t gs := by
  induction gs with
  | nil => rfl
  | cons g rest ih =>
    simp only [scheduled_calls, List.flatMap_cons, List.map_append] at ih ⊢
    rw [ih]
    simp [quiet_records, quiet_record, invocation.call, Function.comp_def]

theorem schedule_eq {σ : Type} (t : widget_tree σ) (event : ui_event)
    (c : List (widget × ui_event)) (w : widget) :
    schedule t event c w =
      c.reverse.map (fun entry => (phase.pre_child, entry.1, entry.2))
        ++ child_signal t event w
        ++ c.map (fun entry => (phase.post_child, entry.1, entry.2)) := rfl

/-- Every scheduled call is made when none of the calls made before it
returned with `handled` or `halt` set. -/
theorem fire_event_progress {σ : Type} (T : signal_function_type) (t : widget_tree σ)
    (event : ui_event) (c : List (widget × ui_event)) (d w : widget) (s : σ)
    (S1 : List (phase × widget × ui_event × Nat)) (cl : phase × widget × ui_event × Nat)
    (S2 : List (phase × widget × ui_event × Nat))
    (hS : scheduled_calls T t (c.reverse.map (fun entry => (phase.pre_child, entry.1, entry.2))
        ++ child_signal t event w
        ++ c.map (fun entry => (phase.post_child, entry.1, entry.2))) = S1 ++ cl :: S2)
    (hq : ∀ r ∈ (implementation.fire_event T t event c d w s).log.take S1.length,
      r.handled_out = false ∧ r.halt_out = false) :
    S1 ++ [cl] <+: (implementation.fire_event T t event c d w s).log.map invocation.call := by
  have hpre := fire_event_calls_prefix T t event c d w s
  rw [hS] at hpre
  have hlen : S1.length < (implementation.fire_event T t event c d w s).log.length := by
    by_contra hle
    have htake : (implementation.fire_event T t event c d w s).log.take S1.length =
        (implementation.fire_event T t event c d w s).log :=
      List.take_of_length_le (by omega)
    rw [htake] at hq
    obtain ⟨s1, hs1⟩ := fire_event_quiet T t event c d w s hq
    have hcalls : (implementation.fire_event T t event c d w s).log.map invocation.call =
        S1 ++ cl :: S2 := by
      rw [hs1]
      simp only []
      rw [quiet_records_calls, schedule_eq, hS]
    have hl := congrArg List.length hcalls
    simp only [List.length_map, List.length_append, List.length_cons] at hl
    omega
  have h2 : S1 ++ [cl] <+: S1 ++ cl :: S2 := ⟨S2, by simp⟩
  exact List.prefix_of_prefix_length_le h2 hpre
    (by simp only [List.length_append, List.length_singleton, List.length_map]; omega)

/-- The calls of a run of the chain-taking `fire_event` follow its schedule:
the pre handlers over the chain in reverse, the child handlers of the target,
the post handlers over the chain. -/
theorem fire_event_calls_in_order {σ : Type} (T : signal_function_type) (t : widget_tree σ)
    (event : ui_event) (c : List (widget × ui_event)) (d w : widget) (s : σ) :
    calls_in_order (implementation.fire_event T t event c d w s).log
      (scheduled_calls T t (c.reverse.map (fun entry => (phase.pre_child, entry.1, entry.2))
        ++ child_signal t event w
        ++ c.map (fun entry => (phase.post_child, entry.1, entry.2)))) := by
  constructor
  · exact fire_event_calls_prefix T t event c d w s
  · intro S1 cl S2 hS hq
    exact fire_event_progress T t event c d w s S1 cl S2 hS hq

theorem invoke_handlers_whole_list {σ : Type} (d : widget) (ph : phase) (w : widget)
    (e : ui_event) (hs : List (handler σ)) (st : fire_state σ) :
    ∃ ext, (implementation.invoke_handlers d ph w e hs st).state.log = st.log ++ ext ∧
      (∀ r ∈ ext, r.phase = ph ∧ r.widget = w ∧ r.event = e) ∧
      (last_halt (st.log ++ ext) = false →
        ext.map invocation.call = hs.map (fun h => (ph, w, e, h.name))) := by
  obtain ⟨ext, hlog, hkeys, hpre, _, hcut, _⟩ := invoke_handlers_run d ph w e hs st
  refine ⟨ext, hlog, hkeys, ?_⟩
  intro hlast
  have hcall : ext.map invocation.call =
      (ext.map (fun r => r.handler)).map (fun n => (ph, w, e, n)) := by
    rw [List.map_map]
    apply List.map_congr_left
    intro r hr
    obtain ⟨k1, k2, k3⟩ := hkeys r hr
    simp [invocation.call, k1, k2, k3]
  have hnames : hs.map (fun h => (ph, w, e, h.name)) =
      (hs.map (fun h => h.name)).map (fun n => (ph, w, e, n)) := by
    rw [List.map_map]
    rfl
  have hprefix : ext.map invocation.call <+: hs.map (fun h => (ph, w, e, h.name)) := by
    rw [hcall, hnames]
    exact List.IsPrefix.map _ hpre
  apply List.IsPrefix.eq_of_length hprefix
  have hle := List.IsPrefix.length_le hprefix
  simp only [List.length_map] at hle ⊢
  by_contra hne
  have hlt : ext.length < hs.length := by omega
  obtain ⟨r, hr, hrl⟩ := hcut hlt
  have hnil : ext ≠ [] := by
    intro h0
    rw [h0] at hr
    cases hr
  unfold last_halt at hlast
  rw [List.getLast?_append_of_ne_nil _ hnil, hr] at hlast
  simp only [] at hlast
  rw [hrl] at hlast
  cases hlast

/-- A run of the loop body that returns true has gone through whole handler
lists before the list it returns from, and through the whole of that list as
well unless its last call returned with `halt` set. -/
theorem fire_signals_returned_true_calls {σ : Type} (T : signal_function_type)
    (t : widget_tree σ) (d : widget) (gs : List (phase × widget × ui_event))
    (st : fire_state σ) (hf : flags_follow_log st) (hhalt : st.halt = false)
    (hh : st.handled = false) (st1 : fire_state σ)
    (h : fire_signals T t d gs st = .returned_true st1) :
    ∃ (G0 : List (phase × widget × ui_event)) (g : phase × widget × ui_event)
      (G2 : List (phase × widget × ui_event)) (ext0 ext : List invocation),
      gs = G0 ++ g :: G2 ∧ st1.log = st.log ++ ext0 ++ ext ∧
      last_handled (st.log ++ ext0) = false ∧
      (∀ r ∈ ext, r.phase = g.1 ∧ r.widget = g.2.1 ∧ r.event = g.2.2) ∧
      ext0.map invocation.call = scheduled_calls T t G0 ∧
      (last_halt st1.log = false → ext.map invocation.call = scheduled_calls T t [g]) := by
  induction gs generalizing st with
  | nil => simp [fire_signals] at h
  | cons g rest ih =>
    obtain ⟨ext, hlog, hkeys, hfull⟩ := invoke_handlers_whole_list d g.1 g.2.1 g.2.2
      ((t.event_signal T g.2.1 g.2.2).handlers g.1) st
    have hflags := invoke_handlers_flags d g.1 g.2.1 g.2.2
      ((t.event_signal T g.2.1 g.2.2).handlers g.1) st hf
    rw [← fire_signal_state] at hlog hflags
    have hone : scheduled_calls T t [g] =
        ((t.event_signal T g.2.1 g.2.2).handlers g.1).map
          (fun h => (g.1, g.2.1, g.2.2, h.name)) := by
      simp [scheduled_calls]
    simp only [fire_signals] at h
    cases hres : implementation.fire_signal T t d g.1 g.2.1 g.2.2 st with
    | completed st2 =>
      rw [hres] at hlog hflags h
      simp only [phase_result.state] at hlog hflags h
      obtain ⟨h1, h2⟩ := fire_signal_completed T t d g.1 g.2.1 g.2.2 st st2 hres
      have h3 := invoke_handlers_completed_halt d g.1 g.2.1 g.2.2 _ st st2 hhalt h1 h2
      obtain ⟨G0, g1, G2, ext0, ext1, hgs, hlog1, hlast1, hkeys1, hcalls1, hfull1⟩ :=
        ih st2 hflags h3 h2 h
      have hext : ext.map invocation.call = scheduled_calls T t [g] := by
        rw [hone]
        apply hfull
        rw [← hlog, ← hflags.2]
        exact h3
      refine ⟨g :: G0, g1, G2, ext ++ ext0, ext1, by rw [hgs]; rfl, ?_, ?_, hkeys1, ?_, hfull1⟩
      · rw [hlog1, hlog]
        simp only [List.append_assoc]
      · rw [← List.append_assoc, ← hlog]
        exact hlast1
      · rw [List.map_append, hext, hcalls1]
        simp [scheduled_calls]
    | returned_true st2 =>
      rw [hres] at hlog h
      simp only [phase_result.state, phase_result.returned_true.injEq] at hlog h
      subst h
      refine ⟨[], g, rest, [], ext, rfl, by simpa using hlog, ?_, hkeys, rfl, ?_⟩
      · rw [List.append_nil, ← hf.1]
        exact hh
      · intro hl
        rw [hone]
        apply hfull
        rw [← hlog]
        exact hl
    | assertion_failed st2 =>
      rw [hres] at h
      cases h

/-- C16 as stated fails for the message strategy: in the tree D ← C1 ← C2 ← W
(0, 1, 2, 3) with a pre and a post handler on every ancestor, a message fired
by W visits C2, then C1, then D in the pre phase, from the innermost to the
outermost, and D, then C1, then C2 in the post phase. -/
theorem message_phases_run_inside_out :
    scenario_b.parent 3 = some 2 ∧ scenario_b.parent 2 = some 1 ∧
    scenario_b.parent 1 = some 0 ∧ scenario_b.parent 0 = none ∧
    (fire_event .message scenario_b 4 8 (some 3) (some 3) ()).log.map
        (fun r => (r.phase, r.widget)) =
      [(phase.pre_child, 2), (phase.pre_child, 1), (phase.pre_child, 0),
       (phase.post_child, 0), (phase.post_child, 1), (phase.post_child, 2)] := by
  exact ⟨rfl, rfl, rfl, rfl, by decide⟩

/-- C16, amended: the calls of a run follow the pre handlers over the chain in
reverse, then the child handlers of the target, then the post handlers over
the chain: they are an initial segment of that sequence, and each call of the
sequence is made as soon as no call before it has returned with `handled` or
`halt` set.  With the path listed from the target outwards: under the default
strategy the pre phase goes over the widgets of the path that have handlers
from the outermost to the innermost and the post phase from the innermost to
the outermost; under the notification strategy only the target is visited;
under the message strategy the pre phase goes over the ancestors from the
nearest one out to the root and the post phase from the root in to the
nearest ancestor. -/
theorem fire_event_phase_directions {σ : Type} (t : widget_tree σ) (event : ui_event) :
    (∀ (T : signal_function_type) (W D : widget) (rest : List widget) (fuel : Nat) (s : σ),
      T ≠ .notification → T ≠ .message →
      follows_parents t W rest → (W :: rest).getLast? = some D → (W :: rest).Nodup →
      rest.length < fuel →
      calls_in_order (fire_event T t fuel event (some D) (some W) s).log
        (scheduled_calls T t
          ((((W :: rest).filter (fun p => t.has_event p event implementation.pre_or_post)).reverse.map
              (fun p => (phase.pre_child, p, event)))
            ++ child_signal t event W
            ++ ((W :: rest).filter (fun p => t.has_event p event implementation.pre_or_post)).map
              (fun p => (phase.post_child, p, event))))) ∧
    (∀ (d w : widget) (fuel : Nat) (s : σ),
      t.has_event w event implementation.pre_or_post = false →
      calls_in_order (fire_event .notification t fuel event (some d) (some w) s).log
        (scheduled_calls .notification t (child_signal t event w))) ∧
    (∀ (W R : widget) (rest : List widget) (fuel : Nat) (s : σ),
      follows_parents t W rest → (W :: rest).getLast? = some R → t.parent R = none →
      rest.length < fuel →
      calls_in_order (fire_event .message t fuel event (some W) (some W) s).log
        (scheduled_calls .message t
          ((rest.filter (fun p => t.has_event p event implementation.pre_or_post)).map
              (fun p => (phase.pre_child, p, event))
            ++ child_signal t event W
            ++ ((rest.filter (fun p => t.has_event p event implementation.pre_or_post)).reverse.map
              (fun p => (phase.post_child, p, event)))))) := by
  refine ⟨?_, ?_, ?_⟩
  · intro T W D rest fuel s hT1 hT2 hpath hlast hnodup hfuel
    have hchain : implementation.build_event_chain T t fuel event (some D) (some W) =
        .ok (((W :: rest).filter
          (fun p => t.has_event p event implementation.pre_or_post)).map
            (fun p => (p, event))) := by
      rw [build_event_chain_of_default T t fuel event _ _ hT1 hT2]
      simpa [implementation.build_event_chain_default] using
        build_event_chain_loop_path t event D rest W [] fuel hpath hlast hnodup hfuel
    have heq : fire_event T t fuel event (some D) (some W) s =
        implementation.fire_event T t event (((W :: rest).filter
          (fun p => t.has_event p event implementation.pre_or_post)).map
            (fun p => (p, event))) D W s := by
      simp only [fire_event, hchain]
    rw [heq]
    have h := fire_event_calls_in_order T t event (((W :: rest).filter
      (fun p => t.has_event p event implementation.pre_or_post)).map (fun p => (p, event))) D W s
    simpa [← List.map_reverse, List.map_map, Function.comp_def] using h
  · intro d w fuel s hpre
    have heq : fire_event .notification t fuel event (some d) (some w) s =
        implementation.fire_event .notification t event [] d w s := by
      simp [fire_event, implementation.build_event_chain,
        implementation.build_event_chain_notification, hpre]
    rw [heq]
    have h := fire_event_calls_in_order .notification t event [] d w s
    simpa using h
  · intro W R rest fuel s hpath hlast hroot hfuel
    have hchain : implementation.build_event_chain .message t fuel event (some W) (some W) =
        .ok ((rest.filter (fun p => t.has_event p event implementation.pre_or_post)).map
          (fun p => (p, event))).reverse := by
      simpa [implementation.build_event_chain, implementation.build_event_chain_message] using
        build_event_chain_message_loop_path t event R rest W [] fuel hpath hlast hroot hfuel
    have heq : fire_event .message t fuel event (some W) (some W) s =
        implementation.fire_event .message t event
          ((rest.filter (fun p => t.has_event p event implementation.pre_or_post)).map
            (fun p => (p, event))).reverse W W s := by
      simp only [fire_event, hchain]
    rw [heq]
    have h := fire_event_calls_in_order .message t event
      ((rest.filter (fun p => t.has_event p event implementation.pre_or_post)).map
        (fun p => (p, event))).reverse W W s
    simpa [← List.map_reverse, List.map_map, Function.comp_def] using h

/-- Scenario B, in which no handler sets a flag: the message fired by W calls
the pre handlers of C2, C1, D and then the post handlers of D, C1, C2, all of
them and in this order. -/
theorem fire_event_phase_directions_witness :
    follows_parents scenario_b 3 [2, 1, 0] ∧
    (fire_event .message scenario_b 4 8 (some 3) (some 3) ()).log.map invocation.call =
      [(phase.pre_child, 2, 8, 12), (phase.pre_child, 1, 8, 11), (phase.pre_child, 0, 8, 10),
       (phase.post_child, 0, 8, 20), (phase.post_child, 1, 8, 21),
       (phase.post_child, 2, 8, 22)] := by
  have hpath : follows_parents scenario_b 3 [2, 1, 0] := ⟨rfl, rfl, rfl, trivial⟩
  have h := (fire_event_phase_directions scenario_b 8).2.2 3 0 [2, 1, 0] 4 () hpath
    (by decide) rfl (by decide)
  have hc : scheduled_calls .message scenario_b
      (([2, 1, 0].filter (fun p => scenario_b.has_event p 8 implementation.pre_or_post)).map
          (fun p => (phase.pre_child, p, 8))
        ++ child_signal scenario_b 8 3
        ++ (([2, 1, 0].filter
            (fun p => scenario_b.has_event p 8 implementation.pre_or_post)).reverse.map
          (fun p => (phase.post_child, p, 8)))) =
      [(phase.pre_child, 2, 8, 12), (phase.pre_child, 1, 8, 11), (phase.pre_child, 0, 8, 10),
       (phase.post_child, 0, 8, 20), (phase.post_child, 1, 8, 21)] ++
       (phase.post_child, 2, 8, 22) :: [] := by decide
  have h2 := h.2 _ _ _ hc (by decide)
  rw [hc] at h
  exact ⟨hpath, List.IsPrefix.eq_of_length h.1
    (Nat.le_antisymm (List.IsPrefix.length_le h.1) (List.IsPrefix.length_le h2))⟩

/-! ## What is executed after a handler has set `handled` -/

/-- C2 as stated fails: the first child handler of the widget 0 sets `handled`
(and not `halt`), and the second child handler of the same widget is still
executed before the run returns true. -/
theorem fire_event_runs_handlers_after_handled :
    (implementation.fire_event .general scenario_two_handlers 7 [] 0 0 ()).log =
      [⟨phase.child, 0, 7, 1, false, false, true, false⟩,
       ⟨phase.child, 0, 7, 2, true, false, true, false⟩] ∧
    (implementation.fire_event .general scenario_two_handlers 7 [] 0 0 ()).outcome =
      .returned true ∧
    ¬ (∀ (before : List invocation) (x : invocation) (after : List invocation),
      (implementation.fire_event .general scenario_two_handlers 7 [] 0 0 ()).log =
        before ++ x :: after →
      x.handled_out = true → after = []) := by
  refine ⟨by decide, by decide, ?_⟩
  intro h
  have h2 := h [] ⟨phase.child, 0, 7, 1, false, false, true, false⟩
    [⟨phase.child, 0, 7, 2, true, false, true, false⟩] (by decide) rfl
  cases h2

/-- C2, amended: when a handler has set `handled` and no handler executed after
it clears the flag, the run returns true; every handler executed after it
belongs to the same widget, phase and event (no handler of another widget or
of a later phase is executed); when it has set `halt` as well no handler at
all is executed after it; and unless the last handler executed has set `halt`,
the handler list of that widget, phase and event has been executed to its end,
the handlers registered after the one that set `handled` included: the calls
of the run are the calls of whole handler lists, the last of them the whole
list the handler belongs to. -/
theorem fire_event_after_handled {σ : Type} (T : signal_function_type) (t : widget_tree σ)
    (event : ui_event) (event_chain : List (widget × ui_event)) (d w : widget) (s : σ)
    (before : List invocation) (x : invocation) (after : List invocation)
    (hlog : (implementation.fire_event T t event event_chain d w s).log = before ++ x :: after)
    (hx : x.handled_out = true) (hafter : ∀ y ∈ after, y.handled_out = true) :
    (implementation.fire_event T t event event_chain d w s).outcome = .returned true ∧
    (∀ y ∈ after, y.phase = x.phase ∧ y.widget = x.widget ∧ y.event = x.event) ∧
    (x.halt_out = true → after = []) ∧
    (last_halt (implementation.fire_event T t event event_chain d w s).log = false →
      ∃ G0 G2 : List (phase × widget × ui_event),
        event_chain.reverse.map (fun entry => (phase.pre_child, entry.1, entry.2))
          ++ child_signal t event w
          ++ event_chain.map (fun entry => (phase.post_child, entry.1, entry.2)) =
          G0 ++ (x.phase, x.widget, x.event) :: G2 ∧
        (implementation.fire_event T t event event_chain d w s).log.map invocation.call =
          scheduled_calls T t G0 ++
            ((t.event_signal T x.widget x.event).handlers x.phase).map
              (fun h => (x.phase, x.widget, x.event, h.name))) := by
  have hall : ∀ y ∈ x :: after, y.handled_out = true := by
    intro y hy
    rcases List.mem_cons.mp hy with h1 | h1
    · rw [h1]; exact hx
    · exact hafter y h1
  have hlast : last_handled (before ++ x :: after) = true :=
    last_handled_append_all before (x :: after) (by simp) hall
  rw [fire_event_eq_conclude] at hlog ⊢
  rw [conclude_log] at hlog ⊢
  have key := fire_signals_last_group T t d (schedule t event event_chain w)
    ⟨false, false, s, []⟩ ⟨rfl, rfl⟩ rfl
  cases hres : fire_signals T t d (schedule t event event_chain w) ⟨false, false, s, []⟩ with
  | completed st1 =>
    exfalso
    rw [hres] at hlog
    obtain ⟨h1, h2⟩ := (key st1).1 hres
    simp only [phase_result.state] at hlog
    rw [h2.1, hlog, hlast] at h1
    cases h1
  | assertion_failed st1 =>
    exfalso
    rw [hres] at hlog
    obtain ⟨h1, h2⟩ := (key st1).2.1 hres
    simp only [phase_result.state] at hlog
    rw [h2.1, hlog, hlast] at h1
    cases h1
  | returned_true st1 =>
    rw [hres] at hlog
    simp only [phase_result.state] at hlog ⊢
    obtain ⟨L, ext, g, hL, hLh, hkeys, hdrop⟩ := (key st1).2.2 hres
    obtain ⟨c, hc⟩ := handled_tail_in_last_group L ext before after x
      (by rw [← hL, hlog]) hLh hall
    have hxin : x ∈ ext := by rw [hc]; simp
    refine ⟨rfl, ?_, ?_, ?_⟩
    · intro y hy
      have hyin : y ∈ ext := by
        rw [hc]
        exact List.mem_append_right _ (List.mem_cons_of_mem _ hy)
      obtain ⟨a1, a2, a3⟩ := hkeys x hxin
      obtain ⟨b1, b2, b3⟩ := hkeys y hyin
      exact ⟨by rw [a1, b1], by rw [a2, b2], by rw [a3, b3]⟩
    · intro hhalt
      by_contra hne
      have hxd : x ∈ ext.dropLast := by
        rw [hc, List.dropLast_append_of_ne_nil c (by simp), List.dropLast_cons_of_ne_nil hne]
        simp
      rw [hdrop x hxd] at hhalt
      cases hhalt
    · intro hnohalt
      obtain ⟨G0, g1, G2, ext0, ext1, hgs, hlog1, hlast1, hkeys1, hcalls0, hfull⟩ :=
        fire_signals_returned_true_calls T t d (schedule t event event_chain w)
          ⟨false, false, s, []⟩ ⟨rfl, rfl⟩ rfl rfl st1 hres
      simp only [List.nil_append] at hlog1 hlast1
      obtain ⟨c1, hc1⟩ := handled_tail_in_last_group ext0 ext1 before after x
        (by rw [← hlog1, hlog]) hlast1 hall
      have hxin1 : x ∈ ext1 := by rw [hc1]; simp
      obtain ⟨k1, k2, k3⟩ := hkeys1 x hxin1
      have hg1 : g1 = (x.phase, x.widget, x.event) := by
        rw [k1, k2, k3]
      have hfull1 := hfull hnohalt
      rw [hg1] at hgs hfull1
      refine ⟨G0, G2, ?_, ?_⟩
      · rw [← schedule_eq]
        exact hgs
      · rw [hlog1, List.map_append, hcalls0, hfull1]
        simp [scheduled_calls]

/-- The two child handlers of the widget 0: the first sets `handled`, the
second, of the same widget, phase and event, is executed after it, and the run
returns true: its calls are the whole child handler list of the widget 0. -/
theorem fire_event_after_handled_witness :
    (implementation.fire_event .general scenario_two_handlers 7 [] 0 0 ()).log =
      [] ++ (⟨phase.child, 0, 7, 1, false, false, true, false⟩ : invocation) ::
        [⟨phase.child, 0, 7, 2, true, false, true, false⟩] ∧
    (implementation.fire_event .general scenario_two_handlers 7 [] 0 0 ()).outcome =
      .returned true ∧
    (∀ y ∈ [(⟨phase.child, 0, 7, 2, true, false, true, false⟩ : invocation)],
      y.phase = phase.child ∧ y.widget = 0 ∧ y.event = 7) ∧
    (implementation.fire_event .general scenario_two_handlers 7 [] 0 0 ()).log.map
        invocation.call = [(phase.child, 0, 7, 1), (phase.child, 0, 7, 2)] := by
  have hlog : (implementation.fire_event .general scenario_two_handlers 7 [] 0 0 ()).log =
      [] ++ (⟨phase.child, 0, 7, 1, false, false, true, false⟩ : invocation) ::
        [⟨phase.child, 0, 7, 2, true, false, true, false⟩] := by decide
  have h := fire_event_after_handled .general scenario_two_handlers 7 [] 0 0 () [] _ _ hlog rfl
    (by decide)
  refine ⟨hlog, h.1, h.2.1, ?_⟩
  obtain ⟨G0, G2, hsched, hcalls⟩ := h.2.2.2 (by decide)
  have hs : ([] : List (widget × ui_event)).reverse.map
        (fun entry => (phase.pre_child, entry.1, entry.2))
      ++ child_signal scenario_two_handlers 7 0
      ++ ([] : List (widget × ui_event)).map
        (fun entry => (phase.post_child, entry.1, entry.2)) = [(phase.child, 0, 7)] := by
    decide
  rw [hs] at hsched
  cases G0 with
  | nil =>
    rw [hcalls]
    decide
  | cons a G1 =>
    exfalso
    have hl := congrArg List.length hsched
    simp only [List.length_cons, List.length_append, List.length_nil] at hl
    omega

/-! ## The event a chain entry of the double click is fired with -/

/-- C10: in `fire_event_double_click` the handlers of a chain entry are looked
up and invoked under the event of the entry, not the nominal event.  For a
proper ancestor A on the path that wants the double click and has a pre or
post handler for it, whatever the target wants: whatever is invoked on A is a
pre or post handler invoked for double_click (so never for click when the two
events differ); every pre and every post handler A has for double_click is
among the scheduled calls S of the run, as a call for double_click; the calls
of the run are an initial segment of S; and each call of S is made when no
call made before it has set `handled`, the calls made before it keeping the
rule that `halt` is set only together with `handled`. -/
theorem double_click_entry_own_event {σ : Type} (click double_click : ui_event)
    (wants_double_click : widget → Bool) (T : signal_function_type) (t : widget_tree σ)
    (W D : widget) (rest : List widget) (fuel : Nat) (s : σ) (A : widget)
    (S : List (phase × widget × ui_event × Nat))
    (hpath : follows_parents t W rest) (hlast : (W :: rest).getLast? = some D)
    (hnodup : (W :: rest).Nodup) (hfuel : rest.length < fuel)
    (hA : A ∈ rest) (hw : wants_double_click A = true)
    (hev : t.has_event A double_click implementation.pre_or_post = true)
    (hS : S = scheduled_calls T t
      ((rest.filterMap (double_click_entry t click double_click wants_double_click)).reverse.map
          (fun entry => (phase.pre_child, entry.1, entry.2))
        ++ child_signal t (if wants_double_click W = true then double_click else click) W
        ++ (rest.filterMap (double_click_entry t click double_click wants_double_click)).map
          (fun entry => (phase.post_child, entry.1, entry.2)))) :
    (∀ r ∈ (fire_event_double_click click double_click wants_double_click T t fuel
        (some D) (some W) s).log,
      r.widget = A → r.phase ≠ phase.child ∧ r.event = double_click ∧
        (click ≠ double_click → r.event ≠ click)) ∧
    (∀ h ∈ (t.event_signal T A double_click).pre_child,
      (phase.pre_child, A, double_click, h.name) ∈ S) ∧
    (∀ h ∈ (t.event_signal T A double_click).post_child,
      (phase.post_child, A, double_click, h.name) ∈ S) ∧
    (fire_event_double_click click double_click wants_double_click T t fuel
        (some D) (some W) s).log.map invocation.call <+: S ∧
    (∀ (S1 : List (phase × widget × ui_event × Nat)) (c : phase × widget × ui_event × Nat)
      (S2 : List (phase × widget × ui_event × Nat)), S = S1 ++ c :: S2 →
      (∀ r ∈ (fire_event_double_click click double_click wants_double_click T t fuel
          (some D) (some W) s).log.take S1.length, r.handled_out = false) →
      (∀ r ∈ (fire_event_double_click click double_click wants_double_click T t fuel
          (some D) (some W) s).log.take S1.length, r.halt_out = true → r.handled_out = true) →
      S1 ++ [c] <+: (fire_event_double_click click double_click wants_double_click T t fuel
        (some D) (some W) s).log.map invocation.call) := by
  have hchain : double_click_chain t click double_click wants_double_click fuel
      (some D) (some W) =
      .ok (rest.filterMap (double_click_entry t click double_click wants_double_click)) := by
    simpa [double_click_chain] using
      double_click_chain_loop_path t click double_click wants_double_click D rest W [] fuel
        hpath hlast hnodup hfuel
  have hentry : double_click_entry t click double_click wants_double_click A =
      some (A, double_click) := by
    simp [double_click_entry, hw, hev]
  have hmem : (A, double_click) ∈
      rest.filterMap (double_click_entry t click double_click wants_double_click) :=
    List.mem_filterMap.mpr ⟨A, hA, hentry⟩
  rw [fire_event_double_click_of_chain click double_click wants_double_click T t fuel
    D W s _ hchain]
  refine ⟨?_, ?_, ?_, ?_, ?_⟩
  · intro r hr hrw
    rcases fire_event_log_cases T t _ _ D W s r hr with h1 | h1
    · exfalso
      have hWA : W = A := by rw [← h1.2.1, hrw]
      exact (List.nodup_cons.mp hnodup).1 (hWA ▸ hA)
    · obtain ⟨a, _, ha2⟩ := List.mem_filterMap.mp h1.2
      have haw : a = A := by
        have := double_click_entry_fst t click double_click wants_double_click a _ ha2
        simp only at this
        rw [← this, hrw]
      rw [haw, hentry] at ha2
      have he : r.event = double_click := by
        simp only [Option.some.injEq, Prod.mk.injEq] at ha2
        exact ha2.2.symm
      exact ⟨h1.1, he, fun hne => by rw [he]; exact fun h => hne h.symm⟩
  · intro h hh
    rw [hS]
    refine List.mem_flatMap.mpr ⟨(phase.pre_child, A, double_click), ?_,
      List.mem_map.mpr ⟨h, hh, rfl⟩⟩
    apply List.mem_append_left
    apply List.mem_append_left
    exact List.mem_map.mpr ⟨(A, double_click), List.mem_reverse.mpr hmem, rfl⟩
  · intro h hh
    rw [hS]
    refine List.mem_flatMap.mpr ⟨(phase.post_child, A, double_click), ?_,
      List.mem_map.mpr ⟨h, hh, rfl⟩⟩
    apply List.mem_append_right
    exact List.mem_map.mpr ⟨(A, double_click), hmem, rfl⟩
  · rw [hS]
    exact fire_event_calls_prefix T t _ _ D W s
  · intro S1 c S2 hsplit hu hcontract
    apply fire_event_progress T t _ _ D W s S1 c S2 (by rw [← hS]; exact hsplit)
    intro r hr
    refine ⟨hu r hr, ?_⟩
    by_contra hl
    have hl2 : r.halt_out = true := by simpa using hl
    have := hcontract r hr hl2
    rw [hu r hr] at this
    cases this

/-- Scenario C with the target W resolving the nominal event to the click.
When the pre handler of A for the double click sets `handled`, it is the
first scheduled call, it is made, and it is the only call of the run.  When no
handler sets a flag, the pre and the post handler of A for the double click
are both invoked, the post handler as the last of the four calls, and nothing
is invoked on A for the click. -/
theorem double_click_entry_own_event_witness :
    follows_parents scenario_c_handled 3 [2, 1, 0] ∧ scenario_c_wants 3 = false ∧
    [(phase.pre_child, 1, 2, 211)] <+:
      (fire_event_double_click 1 2 scenario_c_wants .mouse scenario_c_handled 4
        (some 0) (some 3) ()).log.map invocation.call ∧
    (fire_event_double_click 1 2 scenario_c_wants .mouse scenario_c_handled 4
        (some 0) (some 3) ()).log =
      [⟨phase.pre_child, 1, 2, 211, false, false, true, false⟩] ∧
    [(phase.pre_child, 1, 2, 211), (phase.child, 3, 1, 132), (phase.post_child, 2, 1, 123),
      (phase.post_child, 1, 2, 213)] <+:
      (fire_event_double_click 1 2 scenario_c_wants .mouse scenario_c 4
        (some 0) (some 3) ()).log.map invocation.call ∧
    (∀ r ∈ (fire_event_double_click 1 2 scenario_c_wants .mouse scenario_c 4
        (some 0) (some 3) ()).log, r.widget = 1 → r.event = 2 ∧ r.event ≠ 1) := by
  have hpath1 : follows_parents scenario_c_handled 3 [2, 1, 0] := ⟨rfl, rfl, rfl, trivial⟩
  have hpath2 : follows_parents scenario_c 3 [2, 1, 0] := ⟨rfl, rfl, rfl, trivial⟩
  have h1 := double_click_entry_own_event 1 2 scenario_c_wants .mouse scenario_c_handled 3 0
    [2, 1, 0] 4 () 1
    ([] ++ (phase.pre_child, 1, 2, 211) ::
      [(phase.child, 3, 1, 132), (phase.post_child, 2, 1, 123), (phase.post_child, 1, 2, 213)])
    hpath1 (by decide) (by decide) (by decide) (by decide) rfl (by decide) (by decide)
  have h2 := double_click_entry_own_event 1 2 scenario_c_wants .mouse scenario_c 3 0
    [2, 1, 0] 4 () 1
    ([(phase.pre_child, 1, 2, 211), (phase.child, 3, 1, 132), (phase.post_child, 2, 1, 123)] ++
      (phase.post_child, 1, 2, 213) :: [])
    hpath2 (by decide) (by decide) (by decide) (by decide) rfl (by decide) (by decide)
  refine ⟨hpath1, rfl, ?_, by decide, ?_, ?_⟩
  · exact h1.2.2.2.2 [] _ _ rfl (by decide) (by decide)
  · exact h2.2.2.2.2 _ _ [] rfl (by decide) (by decide)
  · intro r hr hrw
    have h3 := h2.1 r hr hrw
    exact ⟨h3.2.1, h3.2.2 (by decide)⟩

/-! ## The double click chain when nobody wants the double click -/

theorem filterMap_entry_of_not_wants {σ : Type} (t : widget_tree σ)
    (click double_click : ui_event) (wants_double_click : widget → Bool) (l : List widget)
    (hw : ∀ x ∈ l, wants_double_click x = false) :
    l.filterMap (double_click_entry t click double_click wants_double_click) =
      (l.filter (fun x => t.has_event x click implementation.pre_or_post)).map
        (fun x => (x, click)) := by
  induction l with
  | nil => rfl
  | cons a rest ih =>
    have ha : wants_double_click a = false := hw a (List.mem_cons_self _ _)
    have hrest := ih (fun x hx => hw x (List.mem_cons_of_mem _ hx))
    by_cases hev : t.has_event a click implementation.pre_or_post = true
    · simp [List.filterMap_cons, double_click_entry, ha, hev, List.filter_cons, hrest]
    · simp [List.filterMap_cons, double_click_entry, ha, hev, List.filter_cons, hrest]

theorem filter_other_widgets (W : widget) (event : ui_event) (l : List widget)
    (hW : W ∉ l) :
    (l.map (fun x => (x, event))).filter (fun x => decide (x.1 ≠ W)) =
      l.map (fun x => (x, event)) := by
  apply List.filter_eq_self.mpr
  intro a ha
  obtain ⟨x, hx, rfl⟩ := List.mem_map.mp ha
  have hne : x ≠ W := fun h => hW (h ▸ hx)
  simpa using hne

theorem filter_drop_target (q : widget → Bool) (W : widget) (event : ui_event)
    (L : List widget) (hW : W ∉ L.filter q) :
    (L.filter q).map (fun x => (x, event)) =
      (((W :: L).filter q).map (fun x => (x, event))).filter (fun x => decide (x.1 ≠ W)) := by
  by_cases h : q W = true
  · rw [List.filter_cons, if_pos h, List.map_cons, List.filter_cons, if_neg (by simp),
      filter_other_widgets W event _ hW]
  · rw [List.filter_cons, if_neg h, filter_other_widgets W event _ hW]

/-- C21: when D is reached from the target W through its parent p along a path
on which no widget occurs twice and no widget wants the double click, the
chain `fire_event_double_click` builds is the default chain for (click, D, p),
which is the default chain for (click, D, W) without the entry of W; and with
widget == dispatcher the double click chain is empty. -/
theorem double_click_chain_refines_default {σ : Type} (T : signal_function_type)
    (t : widget_tree σ) (click double_click : ui_event) (wants_double_click : widget → Bool)
    (W p D : widget) (rest : List widget) (fuel : Nat)
    (hT1 : T ≠ .notification) (hT2 : T ≠ .message)
    (hpath : follows_parents t W (p :: rest)) (hlast : (W :: p :: rest).getLast? = some D)
    (hnodup : (W :: p :: rest).Nodup)
    (hwants : ∀ x ∈ W :: p :: rest, wants_double_click x = false)
    (hfuel : rest.length + 1 < fuel) :
    (∃ cW cp,
      implementation.build_event_chain T t fuel click (some D) (some W) = .ok cW ∧
      implementation.build_event_chain T t fuel click (some D) (some p) = .ok cp ∧
      double_click_chain t click double_click wants_double_click fuel (some D) (some W)
        = .ok cp ∧
      cp = cW.filter (fun x => decide (x.1 ≠ W))) ∧
    (∀ (W0 : widget) (fuel0 : Nat), 0 < fuel0 →
      double_click_chain t click double_click wants_double_click fuel0 (some W0) (some W0)
        = .ok []) := by
  have hnd := List.nodup_cons.mp hnodup
  have hlast2 : (p :: rest).getLast? = some D := by
    rw [List.getLast?_cons_cons] at hlast
    exact hlast
  have hW : implementation.build_event_chain T t fuel click (some D) (some W) =
      .ok (((W :: p :: rest).filter
        (fun x => t.has_event x click implementation.pre_or_post)).map (fun x => (x, click))) := by
    rw [build_event_chain_of_default T t fuel click _ _ hT1 hT2]
    have h := build_event_chain_loop_path t click D (p :: rest) W [] fuel hpath hlast hnodup
      (by simpa using hfuel)
    simpa [implementation.build_event_chain_default] using h
  have hp : implementation.build_event_chain T t fuel click (some D) (some p) =
      .ok (((p :: rest).filter
        (fun x => t.has_event x click implementation.pre_or_post)).map (fun x => (x, click))) := by
    rw [build_event_chain_of_default T t fuel click _ _ hT1 hT2]
    have h := build_event_chain_loop_path t click D rest p [] fuel hpath.2 hlast2 hnd.2
      (by omega)
    simpa [implementation.build_event_chain_default] using h
  have hdc : double_click_chain t click double_click wants_double_click fuel (some D) (some W) =
      .ok (((p :: rest).filter
        (fun x => t.has_event x click implementation.pre_or_post)).map (fun x => (x, click))) := by
    have h := double_click_chain_loop_path t click double_click wants_double_click D (p :: rest)
      W [] fuel hpath hlast hnodup (by simpa using hfuel)
    rw [filterMap_entry_of_not_wants t click double_click wants_double_click (p :: rest)
      (fun x hx => hwants x (List.mem_cons_of_mem _ hx))] at h
    simpa [double_click_chain] using h
  have hWnot : W ∉ (p :: rest).filter
      (fun x => t.has_event x click implementation.pre_or_post) :=
    fun h => hnd.1 (List.mem_filter.mp h).1
  refine ⟨⟨_, _, hW, hp, hdc, ?_⟩, ?_⟩
  · exact filter_drop_target (fun x => t.has_event x click implementation.pre_or_post) W click
      (p :: rest) hWnot
  · intro W0 fuel0 hf
    obtain ⟨k, rfl⟩ : ∃ k, fuel0 = k + 1 := ⟨fuel0 - 1, by omega⟩
    simp [double_click_chain, double_click_chain_loop]

/-- Scenario C without anybody wanting the double click: the double click
chain of W is [(C2, click), (C1, click), (D, click)], the default chain of C2,
and the default chain of W is the same after its entry (W, click). -/
theorem double_click_chain_refines_default_witness :
    follows_parents scenario_c 3 [2, 1, 0] ∧
    implementation.build_event_chain .mouse scenario_c 4 1 (some 0) (some 3)
      = .ok [(3, 1), (2, 1), (1, 1), (0, 1)] ∧
    implementation.build_event_chain .mouse scenario_c 4 1 (some 0) (some 2)
      = .ok [(2, 1), (1, 1), (0, 1)] ∧
    double_click_chain scenario_c 1 2 scenario_no_double_click 4 (some 0) (some 3)
      = .ok [(2, 1), (1, 1), (0, 1)] := by
  have hpath : follows_parents scenario_c 3 [2, 1, 0] := ⟨rfl, rfl, rfl, trivial⟩
  obtain ⟨⟨cW, cp, h1, h2, h3, _⟩, _⟩ := double_click_chain_refines_default .mouse scenario_c
    1 2 scenario_no_double_click 3 2 0 [1, 0] 4 (by decide) (by decide) hpath (by decide)
    (by decide) (fun _ _ => rfl) (by decide)
  have e1 : implementation.build_event_chain .mouse scenario_c 4 1 (some 0) (some 3)
      = .ok [(3, 1), (2, 1), (1, 1), (0, 1)] := by decide
  have e2 : implementation.build_event_chain .mouse scenario_c 4 1 (some 0) (some 2)
      = .ok [(2, 1), (1, 1), (0, 1)] := by decide
  have hcp : cp = [(2, 1), (1, 1), (0, 1)] := by
    rw [e2] at h2
    simp only [chain_result.ok.injEq] at h2
    exact h2.symm
  subst hcp
  exact ⟨hpath, e1, e2, h3⟩

/-! ## The best size of an image -/

theorem calculate_best_size_some (img : surface) (d M : point) :
    image.calculate_best_size (some img) d M =
      ⟨best_extent img.w d.x M.x, best_extent img.h d.y M.y⟩ := by
  unfold image.calculate_best_size best_extent
  simp only [Bool.and_eq_true, decide_eq_true_eq]
  split_ifs <;> rfl

theorem best_extent_bounds (v m M : Int) (hm : 0 < m) (hmM : m ≤ M) :
    m ≤ best_extent v m M ∧ best_extent v m M ≤ M ∧
      (best_extent v m M = v ↔ m ≤ v ∧ v ≤ M) := by
  unfold best_extent
  split_ifs with h1 h2
  · exact ⟨le_refl m, hmM, by omega⟩
  · exact ⟨hmM, le_refl M, by omega⟩
  · refine ⟨by omega, by omega, ?_⟩
    constructor
    · intro _
      constructor <;> omega
    · intro _
      rfl

/-- C22: `image::calculate_best_size` returns the configured default size when
the image cannot be loaded; otherwise each dimension is, independently, the
default m if m > 0 and the image extent v is below m, else the maximum M if
M > 0 and v is above M, else v.  So a bound that is not positive is ignored,
and when 0 < m ≤ M the result lies between m and M and is v exactly when v
lies between m and M. -/
theorem calculate_best_size_clamps (d M : point) :
    image.calculate_best_size none d M = d ∧
    (∀ img : surface,
      image.calculate_best_size (some img) d M =
        ⟨best_extent img.w d.x M.x, best_extent img.h d.y M.y⟩) ∧
    (∀ img : surface, d.x ≤ 0 →
      (image.calculate_best_size (some img) d M).x =
        if M.x > 0 ∧ img.w > M.x then M.x else img.w) ∧
    (∀ img : surface, M.x ≤ 0 →
      (image.calculate_best_size (some img) d M).x =
        if d.x > 0 ∧ img.w < d.x then d.x else img.w) ∧
    (∀ img : surface, d.y ≤ 0 →
      (image.calculate_best_size (some img) d M).y =
        if M.y > 0 ∧ img.h > M.y then M.y else img.h) ∧
    (∀ img : surface, M.y ≤ 0 →
      (image.calculate_best_size (some img) d M).y =
        if d.y > 0 ∧ img.h < d.y then d.y else img.h) ∧
    (∀ img : surface, 0 < d.x → d.x ≤ M.x →
      d.x ≤ (image.calculate_best_size (some img) d M).x ∧
      (image.calculate_best_size (some img) d M).x ≤ M.x ∧
      ((image.calculate_best_size (some img) d M).x = img.w ↔ d.x ≤ img.w ∧ img.w ≤ M.x)) ∧
    (∀ img : surface, 0 < d.y → d.y ≤ M.y →
      d.y ≤ (image.calculate_best_size (some img) d M).y ∧
      (image.calculate_best_size (some img) d M).y ≤ M.y ∧
      ((image.calculate_best_size (some img) d M).y = img.h ↔ d.y ≤ img.h ∧ img.h ≤ M.y)) := by
  refine ⟨rfl, fun img => calculate_best_size_some img d M, ?_, ?_, ?_, ?_, ?_, ?_⟩
  · intro img h
    rw [calculate_best_size_some]
    have h1 : ¬ (d.x > 0 ∧ img.w < d.x) := by omega
    simp only [best_extent, if_neg h1]
  · intro img h
    rw [calculate_best_size_some]
    have h1 : ¬ (M.x > 0 ∧ img.w > M.x) := by omega
    simp only [best_extent, if_neg h1]
  · intro img h
    rw [calculate_best_size_some]
    have h1 : ¬ (d.y > 0 ∧ img.h < d.y) := by omega
    simp only [best_extent, if_neg h1]
  · intro img h
    rw [calculate_best_size_some]
    have h1 : ¬ (M.y > 0 ∧ img.h > M.y) := by omega
    simp only [best_extent, if_neg h1]
  · intro img h1 h2
    rw [calculate_best_size_some]
    exact best_extent_bounds img.w d.x M.x h1 h2
  · intro img h1 h2
    rw [calculate_best_size_some]
    exact best_extent_bounds img.h d.y M.y h1 h2

/-- An image of 300 by 20 with default size 50 by 40 and maximum size 200 by
0: the width is cut to the maximum 200, the height is raised to the default
40 (the maximum 0 is ignored); without an image the size is the default. -/
theorem calculate_best_size_clamps_witness :
    image.calculate_best_size (some ⟨300, 20⟩) ⟨50, 40⟩ ⟨200, 0⟩ = ⟨200, 40⟩ ∧
    image.calculate_best_size none ⟨50, 40⟩ ⟨200, 0⟩ = ⟨50, 40⟩ := by
  have h := calculate_best_size_clamps ⟨50, 40⟩ ⟨200, 0⟩
  refine ⟨?_, h.1⟩
  rw [h.2.1 ⟨300, 20⟩]
  decide

end gui2
